import Mathlib

/-!
A verification development for the Minesweeper / Thrill Digger solver
(`sweeper.py`).  The Python classes `BombEquation`, `Solution` and `Sweeper`
are shallowly embedded as Lean definitions; integer arithmetic is exact
(Python ints are arbitrary precision, modelled by `ℤ`), Python `dict`s are
modelled as insertion-ordered association lists, `frozenset`s of tiles as
`Finset (ℤ × ℤ)`, and the two unbounded loops (`integrate_new_bomb_eqs` and
`solve_area`) are modelled with an explicit fuel parameter, returning `none`
when the fuel runs out.  Python exceptions (`KeyError` from `dict.pop`,
`ValueError` from `list.remove`) are modelled by `Option`.
-/

set_option maxHeartbeats 1000000
set_option synthInstance.maxSize 4000

namespace Sweeper

abbrev Tile := ℤ × ℤ

/-! ### Python `dict` primitives (insertion ordered association lists) -/

/-- `d.get(k, dflt)`. -/
def dget {K V : Type} [DecidableEq K] (d : List (K × V)) (k : K) (dflt : V) : V :=
  match d with
  | [] => dflt
  | (k', v') :: rest => if k' = k then v' else dget rest k dflt

/-- `d[k] = v`: update in place if present (keeping the position), else append. -/
def dset {K V : Type} [DecidableEq K] (d : List (K × V)) (k : K) (v : V) :
    List (K × V) :=
  match d with
  | [] => [(k, v)]
  | (k', v') :: rest => if k' = k then (k, v) :: rest else (k', v') :: dset rest k v

/-- Key membership of a Python dict. -/
def dmem {K V : Type} [DecidableEq K] (d : List (K × V)) (k : K) : Bool :=
  match d with
  | [] => false
  | (k', _) :: rest => k' = k || dmem rest k

/-- `d.pop(k)`: the value at `k` together with the dict with `k` removed;
`none` models the `KeyError` raised when `k` is absent. -/
def dpop {K V : Type} [DecidableEq K] (d : List (K × V)) (k : K) :
    Option (V × List (K × V)) :=
  match d with
  | [] => none
  | (k', v') :: rest =>
    if k' = k then some (v', rest)
    else (dpop rest k).map (fun p => (p.1, (k', v') :: p.2))

/-! ### An ordering of tiles, used to iterate over a `frozenset` of tiles.

Python iterates a `frozenset` in an unspecified (hash based, but fixed)
order; the model iterates in lexicographic order.  All results the claims
depend on are independent of this choice. -/

/-- Lexicographic order on tiles as a `Bool`-valued relation for sorting. -/
def tileLE (a b : Tile) : Prop := a.1 < b.1 ∨ (a.1 = b.1 ∧ a.2 ≤ b.2)

instance : DecidableRel tileLE := fun a b => by unfold tileLE; infer_instance

instance : IsTrans Tile tileLE where
  trans a b c hab hbc := by
    rcases hab with h | ⟨h1, h2⟩ <;> rcases hbc with h' | ⟨h1', h2'⟩
    · exact Or.inl (h.trans h')
    · exact Or.inl (h1' ▸ h)
    · exact Or.inl (h1 ▸ h')
    · exact Or.inr ⟨h1.trans h1', h2.trans h2'⟩

instance : IsAntisymm Tile tileLE where
  antisymm a b hab hba := by
    rcases hab with h | ⟨h1, h2⟩ <;> rcases hba with h' | ⟨h1', h2'⟩
    · exact absurd (h.trans h') (lt_irrefl _)
    · exact absurd h (h1' ▸ lt_irrefl _)
    · exact absurd h' (h1 ▸ lt_irrefl _)
    · exact Prod.ext h1 (le_antisymm h2 h2')

instance : IsTotal Tile tileLE where
  total a b := by
    rcases lt_trichotomy a.1 b.1 with h | h | h
    · exact Or.inl (Or.inl h)
    · rcases le_total a.2 b.2 with h2 | h2
      · exact Or.inl (Or.inr ⟨h, h2⟩)
      · exact Or.inr (Or.inr ⟨h.symm, h2⟩)
    · exact Or.inr (Or.inl h)

/-- Iterate a `frozenset` of tiles: the model fixes lexicographic order.
(Insertion sort is used so that the function reduces inside the kernel.) -/
def tilesList (s : Finset Tile) : List Tile :=
  Quotient.lift (fun l : List Tile => l.insertionSort tileLE)
    (fun a b (h : a.Perm b) =>
      List.eq_of_perm_of_sorted
        ((List.perm_insertionSort tileLE a).trans
          (h.trans (List.perm_insertionSort tileLE b).symm))
        (List.sorted_insertionSort tileLE a) (List.sorted_insertionSort tileLE b))
    s.val

/-! ### `BombEquation` -/

/-- `BombEquation`: a frozenset of tiles together with the tuple of possible
bomb counts (Python keeps the tuple exactly as filtered from the input). -/
structure BombEq where
  tiles : Finset Tile
  bombs : List ℤ
deriving DecidableEq

/-- `BombEquation.__init__`: the tiles iterable is collected into a frozenset
and the bombs iterable is filtered to the range `[0, len(tiles)]` (order and
multiplicity of the input are preserved, as in the Python tuple). -/
def mkBombEq (tiles : List Tile) (bombs : List ℤ) : BombEq :=
  let ts : Finset Tile := tiles.toFinset
  ⟨ts, bombs.filter fun b => 0 ≤ b ∧ b ≤ (ts.card : ℤ)⟩

/-- Same constructor, for callers that already hold a frozenset. -/
def ofFinset (tiles : Finset Tile) (bombs : List ℤ) : BombEq :=
  ⟨tiles, bombs.filter fun b => 0 ≤ b ∧ b ≤ (tiles.card : ℤ)⟩

namespace BombEq

/-- `__le__`: `self.tiles <= other.tiles and len(self.bombs) == 1`. -/
def le (e₁ e₂ : BombEq) : Prop := e₁.tiles ⊆ e₂.tiles ∧ e₁.bombs.length = 1

instance : DecidableRel le := fun e₁ e₂ => by unfold le; infer_instance

/-- `__sub__`: remove `other`'s tiles and subtract `other`'s single bomb count
from each of `self`'s bomb counts, re-filtering through the constructor. -/
def sub (self other : BombEq) : BombEq :=
  ofFinset (self.tiles \ other.tiles) (self.bombs.map fun x => x - other.bombs.headI)

/-- `is_trivial`. -/
def isTrivial (e : BombEq) : Prop := e.tiles.card = 1 ∧ e.bombs.length = 1

instance : DecidablePred isTrivial := fun e => by unfold isTrivial; infer_instance

/-- `is_splittable`. -/
def isSplittable (e : BombEq) : Prop :=
  e.tiles.card ≠ 1 ∧
    ((e.bombs.length = 1 ∧ (e.bombs.headI = 0 ∨ e.bombs.headI = (e.tiles.card : ℤ)))
      ∨ e.bombs.length = e.tiles.card + 1)

instance : DecidablePred isSplittable := fun e => by unfold isSplittable; infer_instance

/-- `split`. -/
def split (e : BombEq) : List BombEq :=
  if e.bombs.length > 1 then
    (tilesList e.tiles).map fun t => mkBombEq [t] [0, 1]
  else
    let b : ℤ := if e.bombs.headI = 0 then 0 else 1
    (tilesList e.tiles).map fun t => mkBombEq [t] [b]

/-- `is_impossible`. -/
def isImpossible (e : BombEq) : Prop := e.bombs = []

instance : DecidablePred isImpossible := fun e => by unfold isImpossible; infer_instance

/-! ### The constraint integrator -/

/-- The inner scan of `integrate_new_bomb_eqs` over the current constraints.
Returns the equations appended to the worklist (in append order), the
constraints marked for removal (in mark order), and the `add_new_bomb_eq`
flag. -/
def scan (new : BombEq) : List BombEq → List BombEq × List BombEq × Bool
  | [] => ([], [], true)
  | old :: rest =>
    if new = old then ([], [], false)
    else if le new old then
      let r := scan new rest
      ((old.sub new) :: r.1, old :: r.2.1, r.2.2)
    else if le old new then ([new.sub old], [], false)
    else scan new rest

/-- `integrate_new_bomb_eqs`, fuelled.  The worklist is a stack whose head is
the next equation Python's `list.pop()` would return; Python's
`new_bomb_eqs += l` corresponds to pushing `l.reverse`.  Returns the final
`constraints` list together with the boolean result, or `none` when the fuel
runs out. -/
def integrateFuel : ℕ → List BombEq → List BombEq → Option (List BombEq × Bool)
  | 0, _, _ => none
  | _ + 1, store, [] => some (store, true)
  | fuel + 1, store, new :: rest =>
    if new.isImpossible then some (store, false)
    else if new.isSplittable then
      integrateFuel fuel store (new.split.reverse ++ rest)
    else
      let r := scan new store
      let store' := r.2.1.foldl List.erase store
      let store'' := if r.2.2 then store' ++ [new] else store'
      integrateFuel fuel store'' (r.1.reverse ++ rest)

/-- Entry point matching the Python call
`integrate_new_bomb_eqs(constraints, new_bomb_eqs)`: the list passed by the
caller is popped from its end. -/
def integrate (fuel : ℕ) (constraints newBombEqs : List BombEq) :
    Option (List BombEq × Bool) :=
  integrateFuel fuel constraints newBombEqs.reverse

end BombEq

/-! ### `Solution` -/

/-- The inner dict of a `Solution` entry: tile ↦ number of layouts in which
the tile holds a bomb. -/
abbrev FDict := List (Tile × ℤ)

/-- `Solution.bombs_to_tile_bomb_frequency`:
number of bombs ↦ (tile ↦ bomb frequency, number of layouts). -/
abbrev Sol := List (ℤ × (FDict × ℤ))

namespace Sol

/-- Merging step of `__iadd__` on the inner dicts. -/
def fAdd (f oF : FDict) : FDict :=
  oF.foldl (fun f p => dset f p.1 (dget f p.1 0 + p.2)) f

/-- One step of `__iadd__`: fold `other`'s entry `p` into the accumulator. -/
def addStep (acc : Sol) (p : ℤ × (FDict × ℤ)) : Sol :=
  let q := dget acc p.1 ([], 0)
  dset acc p.1 (fAdd q.1 p.2.1, q.2 + p.2.2)

/-- `Solution.__iadd__` (value semantics): if `self` is the empty dict take
`other`'s dict, else fold `other`'s entries in. -/
def add (s o : Sol) : Sol :=
  if s = [] then o else o.foldl addStep s

/-- The inner dict built by `__mul__` for one pair of entries: `self`'s
frequencies scaled by `other`'s layout count, then `other`'s frequencies
scaled by `self`'s layout count written on top. -/
def fMul (f : FDict) (n : ℤ) (oF : FDict) (oN : ℤ) : FDict :=
  oF.foldl (fun acc p => dset acc p.1 (p.2 * n)) (f.map fun p => (p.1, p.2 * oN))

/-- The entry `__mul__` produces for one pair of entries. -/
def mulEntry (p q : ℤ × (FDict × ℤ)) : ℤ × (FDict × ℤ) :=
  (p.1 + q.1, (fMul p.2.1 p.2.2 q.2.1 q.2.2, p.2.2 * q.2.2))

/-- `Solution.__mul__`. -/
def mul (s o : Sol) : Sol :=
  s.foldl (fun res p => o.foldl (fun res q => add res [mulEntry p q]) res) []

/-- Lookup functions on a `Solution` (Python `get` with the natural defaults). -/
def keys (s : Sol) : Finset ℤ := (s.map Prod.fst).toFinset

/-- `N_k`: the layout count at key `k` (0 when absent). -/
def N (s : Sol) (k : ℤ) : ℤ := (dget s k ([], 0)).2

/-- The tile domain of the inner dict at key `k`. -/
def dom (s : Sol) (k : ℤ) : Finset Tile := ((dget s k ([], 0)).1.map Prod.fst).toFinset

/-- `F_k[t]`: the bomb frequency of tile `t` at key `k` (0 when absent). -/
def F (s : Sol) (k : ℤ) (t : Tile) : ℤ := dget (dget s k ([], 0)).1 t 0

/-- All tiles mentioned by a `Solution`. -/
def tiles (s : Sol) : Finset Tile := s.foldr (fun p acc => (p.2.1.map Prod.fst).toFinset ∪ acc) ∅

/-- The empty solution `{0 ↦ (∅, 1)}`. -/
def one : Sol := [(0, ([], 1))]

/-- Two solutions describe disjoint areas. -/
def disjointTiles (s o : Sol) : Prop := tiles s ∩ tiles o = ∅

instance : ∀ s o, Decidable (disjointTiles s o) := fun s o => by
  unfold disjointTiles; infer_instance

/-- Python `==` on `Solution`s: equality of dicts as key ↦ value maps
(insertion order is irrelevant). -/
def equiv (s o : Sol) : Prop :=
  keys s = keys o ∧
    ∀ k ∈ keys s, N s k = N o k ∧ dom s k = dom o k ∧ ∀ t ∈ dom s k, F s k t = F o k t

instance : ∀ s o : Sol, Decidable (equiv s o) := fun s o => by unfold equiv; infer_instance

end Sol

/-- `comb(n, k)`: `math.comb` guarded to return 0 out of range. -/
def comb (n k : ℤ) : ℤ :=
  if k < 0 ∨ k > n then 0 else (n.toNat.choose k.toNat : ℤ)

/-! ### Grouping constraints and the area solver -/

/-- One area being accumulated by `group_constraints`: the list of equations
and the set of tiles they mention. -/
abbrev Area := List BombEq × Finset Tile

/-- Whether a new equation shares a tile with an area. -/
def sharesTile (e : BombEq) (a : Area) : Prop := ∃ t ∈ e.tiles, t ∈ a.2

instance : ∀ e a, Decidable (sharesTile e a) := fun e a => by unfold sharesTile; infer_instance

/-- Fold one equation into the accumulated areas: merge every area sharing a
tile with it into the first such area (kept at its position), append the
equation there; otherwise open a fresh area at the end. -/
def groupStep (groups : List Area) (e : BombEq) : List Area :=
  let hits := groups.filter fun a => sharesTile e a
  match hits with
  | [] => groups ++ [([e], e.tiles)]
  | first :: rest =>
    let merged : Area :=
      (first.1 ++ rest.foldr (fun a acc => a.1 ++ acc) [] ++ [e],
        rest.foldr (fun a acc => a.2 ∪ acc) (first.2 ∪ e.tiles))
    (groups.filter fun a => ¬ sharesTile e a).insertIdx
      (groups.takeWhile (fun a => ¬ sharesTile e a)).length merged

/-- `Solution.group_constraints`. -/
def groupConstraints (constraints : List BombEq) : List (List BombEq) :=
  (constraints.foldl groupStep []).map Prod.fst

/-- `Solution.find_tile_to_recurse_on`. -/
def findTile (constraints : List BombEq) : Tile :=
  (constraints.foldl
    (fun st e =>
      (tilesList e.tiles).foldl
        (fun st t =>
          let c := dget st.2 t 0 + 1
          let counts := dset st.2 t c
          if c > dget counts st.1 0 then (t, counts) else (st.1, counts))
        st)
    ((-1, -1), [((-1, -1), 0)])).1

/-- The closed form `Solution` for a single constraint. -/
def singletonSol (e : BombEq) : Sol :=
  e.bombs.foldl
    (fun acc b =>
      Sol.add acc
        [(b, ((tilesList e.tiles).map fun t =>
                (t, comb ((e.tiles.card : ℤ) - 1) (b - 1)),
              comb (e.tiles.card : ℤ) b))])
    []

/-- `Solution.solve_area`, fuelled.  `none` models both fuel exhaustion and
the `ValueError` Python would raise if `constraint_group_copy.remove` did not
find the recursion literal. -/
def solveAreaFuel : ℕ → List BombEq → Option Sol
  | 0, _ => none
  | fuel + 1, constraints =>
    if constraints = [] then some [(0, ([], 1))]
    else
      match constraints with
      | [e] => some (singletonSol e)
      | _ =>
        (groupConstraints constraints).foldlM
          (fun solSoFar grp => do
            let t := findTile grp
            let branch : ℤ → Option Sol := fun b => do
              let lit : BombEq := ⟨{t}, [b]⟩
              match BombEq.integrate fuel grp [lit] with
              | none => none
              | some (_, false) => some []
              | some (store, true) =>
                if lit ∈ store then
                  (solveAreaFuel fuel (store.erase lit)).map fun sub =>
                    Sol.mul [(b, ([(t, b)], 1))] sub
                else none
            let g₀ ← branch 0
            let g₁ ← branch 1
            some (Sol.mul solSoFar (Sol.add (Sol.add [] g₀) g₁)))
          [(0, ([], 1))]

/-- One branch of the per-group recursion of `solve_area`: hypothesise that the
recursion tile holds `b` bombs, integrate that literal, remove it, and recurse.
`none` models an unhandled exception (the `list.remove` `ValueError`) or fuel
exhaustion; `some []` models a failed integration, which contributes nothing. -/
def solveBranch (fuel : ℕ) (grp : List BombEq) (b : ℤ) : Option Sol :=
  match BombEq.integrate fuel grp [⟨{findTile grp}, [b]⟩] with
  | none => none
  | some (_, false) => some []
  | some (store, true) =>
    if (⟨{findTile grp}, [b]⟩ : BombEq) ∈ store then
      (solveAreaFuel fuel (store.erase ⟨{findTile grp}, [b]⟩)).map fun sub =>
        Sol.mul [(b, ([(findTile grp, b)], 1))] sub
    else none

/-- The vacuous equation of a free (unconstrained) area: any number of its
tiles from `0` to `|U|` may hold bombs, so every layout satisfies it.  Joining
it to a store widens the layout universe to include the unconstrained tiles. -/
def eqFree (U : Finset Tile) : BombEq :=
  ⟨U, (List.range (U.card + 1)).map fun n : ℕ => ((n : ℤ))⟩

/-! ### The `Sweeper` facade -/

/-- `BOMB_KEY[version][info]`. -/
def bombKey (version info : String) : Option (List ℤ) :=
  if version = "Classic" then
    if info = "0" then some [0] else if info = "1" then some [1]
    else if info = "2" then some [2] else if info = "3" then some [3]
    else if info = "4" then some [4] else if info = "5" then some [5]
    else if info = "6" then some [6] else if info = "7" then some [7]
    else if info = "8" then some [8] else none
  else if version = "Thrill Digger" then
    if info = "Green" then some [0] else if info = "Blue" then some [1, 2]
    else if info = "Red" then some [3, 4] else if info = "Silver" then some [5, 6]
    else if info = "Gold" then some [7, 8] else none
  else none

/-- `return_neighbours`. -/
def returnNeighbours (row column height width : ℤ) : List Tile :=
  ((if 0 < row then
      (if 0 < column then [(row - 1, column - 1)] else [])
        ++ [(row - 1, column)]
        ++ (if column < width - 1 then [(row - 1, column + 1)] else [])
    else [])
    ++ (if 0 < column then [(row, column - 1)] else [])
    ++ (if column < width - 1 then [(row, column + 1)] else [])
    ++ (if row < height - 1 then
          (if 0 < column then [(row + 1, column - 1)] else [])
            ++ [(row + 1, column)]
            ++ (if column < width - 1 then [(row + 1, column + 1)] else [])
        else []))

/-- The mutable state of a `Sweeper`. -/
structure State where
  version : String
  height : ℤ
  width : ℤ
  bombs : ℤ
  board : List (List String)
  constraints : List BombEq
  unconstrained : List Tile
  message : String
deriving DecidableEq

/-- `board[row][column] = info`. -/
def boardSet (board : List (List String)) (row column : ℤ) (info : String) :
    List (List String) :=
  board.set row.toNat ((board.getD row.toNat []).set column.toNat info)

/-- `board[row][column]`. -/
def boardGet (board : List (List String)) (row column : ℤ) : String :=
  (board.getD row.toNat []).getD column.toNat ""

/-- The freshly reset fields shared by `__init__`, `reset` and the
`set_*` difficulty methods. -/
def resetState (version : String) (height width bombs : ℤ) : State :=
  { version := version
    height := height
    width := width
    bombs := bombs
    board := List.replicate height.toNat (List.replicate width.toNat "")
    constraints := []
    unconstrained :=
      (List.range height.toNat).flatMap fun i =>
        (List.range width.toNat).map fun j => ((i : ℤ), (j : ℤ))
    message := "" }

/-- `Sweeper.integrate_new_info`. -/
def integrateNewInfo (fuel : ℕ) (s : State) (row column : ℤ) (info : String) :
    Option State :=
  let s := { s with board := boardSet s.board row column info }
  let tile : Tile := (row, column)
  match bombKey s.version info with
  | some key =>
    let unc := s.unconstrained.erase tile
    let nbrs := returnNeighbours row column s.height s.width
    let unc := nbrs.foldl List.erase unc
    match BombEq.integrate fuel s.constraints [mkBombEq [tile] [0], mkBombEq nbrs key] with
    | none => none
    | some (c', ok) =>
      some { s with
              unconstrained := unc
              constraints := c'
              message := if ok then s.message else "Impossible layout" }
  | none =>
    if info = "B" ∨ info = "Rupoor" then
      let unc := s.unconstrained.erase tile
      match BombEq.integrate fuel s.constraints [mkBombEq [tile] [1]] with
      | none => none
      | some (c', ok) =>
        some { s with
                unconstrained := unc
                constraints := c'
                message := if ok then s.message else "Impossible layout" }
    else some s

/-- The inner accumulation of `calculate_bomb_fractions` over one partial
frequency dict, with weight `c`. -/
def cbfInner (c : ℤ) (d : List (Tile × ℤ)) (f : FDict) : List (Tile × ℤ) :=
  f.foldl (fun d q => dset d q.1 (dget d q.1 0 + q.2 * c)) d

/-- One step of `calculate_bomb_fractions` over a solution entry. -/
def cbfStep (u bombs : ℤ) (acc : List (Tile × ℤ) × ℤ) (p : ℤ × (FDict × ℤ)) :
    List (Tile × ℤ) × ℤ :=
  let instances := cbfInner (comb u (bombs - p.1)) acc.1 p.2.1
  let instances :=
    dset instances (-1, -1)
      (dget instances (-1, -1) 0 + p.2.2 * comb (u - 1) (bombs - p.1 - 1))
  (instances, acc.2 + p.2.2 * comb u (bombs - p.1))

/-- `Sweeper.calculate_bomb_fractions`.  `none` models the `KeyError` from
`bomb_instances.pop((-1, -1))`. -/
def calcBombFractions (s : State) (sol : Sol) : Option (List (Tile × ℤ) × ℤ) :=
  let u : ℤ := s.unconstrained.length
  let acc := sol.foldl (cbfStep u s.bombs) ([], 0)
  match dpop acc.1 (-1, -1) with
  | none => none
  | some (uVal, instances) =>
    some (s.unconstrained.foldl (fun d t => dset d t uVal) instances, acc.2)

/-- Python `round` (round half to even) applied to the rational
`100 * m / total`; the Python code computes this through a float, which
agrees with the exact rational except on ties lost to rounding error. -/
def pctRound (m total : ℤ) : ℤ :=
  let q : ℚ := (100 * m : ℚ) / (total : ℚ)
  if q - ⌊q⌋ < 1/2 then ⌊q⌋
  else if q - ⌊q⌋ > 1/2 then ⌊q⌋ + 1
  else if 2 ∣ ⌊q⌋ then ⌊q⌋ else ⌊q⌋ + 1

/-- `Sweeper.process_bomb_fractions`. -/
def processBombFractions (fuel : ℕ) (s : State) (bombInstances : List (Tile × ℤ))
    (totalNumLayouts : ℤ) : Option State :=
  if totalNumLayouts = 0 then some { s with message := "Impossible layout" }
  else
    let step :=
      bombInstances.foldl
        (fun (st : State × List BombEq) p =>
          let s := st.1
          let tile := p.1
          if p.2 = 0 then
            if (bombKey s.version (boardGet s.board tile.1 tile.2)).isSome then st
            else
              ({ s with
                  board := boardSet s.board tile.1 tile.2 "S"
                  unconstrained := s.unconstrained.erase tile },
                st.2 ++ [mkBombEq [tile] [0]])
          else if p.2 = totalNumLayouts then
            let s' := { s with unconstrained := s.unconstrained.erase tile }
            let s' :=
              if boardGet s'.board tile.1 tile.2 = "B" ∨
                  boardGet s'.board tile.1 tile.2 = "Rupoor" then s'
              else { s' with board := boardSet s'.board tile.1 tile.2 "B/R" }
            (s', st.2 ++ [mkBombEq [tile] [1]])
          else
            ({ s with
                board := boardSet s.board tile.1 tile.2
                  (toString (pctRound p.2 totalNumLayouts) ++ "%") },
              st.2))
        (s, [])
    match BombEq.integrate fuel step.1.constraints step.2 with
    | none => none
    | some (c', _) => some { step.1 with constraints := c' }

/-- The per-tile board-write logic of `process_bomb_fractions`: what the cell
showing `x` becomes when the tile has `c` bomb layouts out of `total`. -/
def pbfWrite (version x : String) (c total : ℤ) : String :=
  if c = 0 then
    if (bombKey version x).isSome then x else "S"
  else if c = total then
    if x = "B" ∨ x = "Rupoor" then x else "B/R"
  else toString (pctRound c total) ++ "%"

/-- One step of the `process_bomb_fractions` loop, accumulating the updated
state and the promoted trivial constraints. -/
def pbfStep (totalNumLayouts : ℤ) (st : State × List BombEq) (p : Tile × ℤ) :
    State × List BombEq :=
  let s := st.1
  let tile := p.1
  if p.2 = 0 then
    if (bombKey s.version (boardGet s.board tile.1 tile.2)).isSome then st
    else
      ({ s with
          board := boardSet s.board tile.1 tile.2 "S"
          unconstrained := s.unconstrained.erase tile },
        st.2 ++ [mkBombEq [tile] [0]])
  else if p.2 = totalNumLayouts then
    let s2 := { s with unconstrained := s.unconstrained.erase tile }
    let s2 :=
      if boardGet s2.board tile.1 tile.2 = "B" ∨
          boardGet s2.board tile.1 tile.2 = "Rupoor" then s2
      else { s2 with board := boardSet s2.board tile.1 tile.2 "B/R" }
    (s2, st.2 ++ [mkBombEq [tile] [1]])
  else
    ({ s with
        board := boardSet s.board tile.1 tile.2
          (toString (pctRound p.2 totalNumLayouts) ++ "%") },
      st.2)

/-- `Sweeper.calculate_board`. -/
def calculateBoard (fuel : ℕ) (s : State) : Option State := do
  let sol ← solveAreaFuel fuel s.constraints
  match calcBombFractions s sol with
  | none => none
  | some (instances, total) => processBombFractions fuel s instances total

/-- The well-formedness the integrator is meant to maintain on a store:
no two equal equations, no impossible equation, no splittable equation. -/
def StoreOK (store : List BombEq) : Prop :=
  store.Nodup ∧ ∀ e ∈ store, ¬ e.isImpossible ∧ ¬ e.isSplittable

instance : DecidablePred StoreOK := fun store => by unfold StoreOK; infer_instance

/-! ### Specification-side semantics of bomb equations -/

/-- A bomb layout `A` (the set of tiles holding bombs) satisfies an equation
when the number of the equation's tiles holding bombs is one of its counts. -/
def satisfies (A : Finset Tile) (e : BombEq) : Prop := ((e.tiles ∩ A).card : ℤ) ∈ e.bombs

instance : ∀ A e, Decidable (satisfies A e) := fun A e => by unfold satisfies; infer_instance

/-- A layout satisfies every equation of a list. -/
def satAll (A : Finset Tile) (G : List BombEq) : Prop := ∀ e ∈ G, satisfies A e

instance : ∀ A G, Decidable (satAll A G) := fun A G => by unfold satAll; infer_instance

/-- All tiles mentioned by a list of equations. -/
def tileSet (G : List BombEq) : Finset Tile := G.foldr (fun e acc => e.tiles ∪ acc) ∅

/-- The satisfying bomb layouts over the tiles of `G` that place exactly `k`
bombs. -/
def layouts (G : List BombEq) (k : ℤ) : Finset (Finset Tile) :=
  (tileSet G).powerset.filter fun A => satAll A G ∧ (A.card : ℤ) = k

/-- The exact number of satisfying layouts of `G` with `k` bombs. -/
def specN (G : List BombEq) (k : ℤ) : ℤ := ((layouts G k).card : ℤ)

/-- The exact number of satisfying layouts of `G` with `k` bombs in which
tile `t` holds a bomb. -/
def specF (G : List BombEq) (k : ℤ) (t : Tile) : ℤ :=
  (((layouts G k).filter fun A => t ∈ A).card : ℤ)

/-- Well-formedness of a `Solution` as a Python value: dicts have no
duplicate keys. -/
def SolWF (sol : Sol) : Prop :=
  (sol.map Prod.fst).Nodup ∧ ∀ p ∈ sol, (p.2.1.map Prod.fst).Nodup

instance : DecidablePred SolWF := fun sol => by unfold SolWF; infer_instance

/-- Constructor-validity of an equation: its bomb counts are duplicate-free
and lie in `[0, len(tiles)]` (every equation built by `BombEquation.__init__`
from a duplicate-free bombs iterable satisfies this). -/
def EqC (e : BombEq) : Prop :=
  e.bombs.Nodup ∧ ∀ b ∈ e.bombs, 0 ≤ b ∧ b ≤ (e.tiles.card : ℤ)

instance : DecidablePred EqC := fun e => by unfold EqC; infer_instance

/-- The shape the integrator maintains for each stored equation. -/
def EqOK (e : BombEq) : Prop := ¬ e.isImpossible ∧ ¬ e.isSplittable ∧ EqC e

instance : DecidablePred EqOK := fun e => by unfold EqOK; infer_instance

/-- The invariants `integrate_new_bomb_eqs` maintains on a constraint store:
no duplicates, every equation well-shaped, and no equation `⊑`-below another
(distinct) one. -/
def GroupOK (G : List BombEq) : Prop :=
  G.Nodup ∧ (∀ e ∈ G, EqOK e) ∧ ∀ e ∈ G, ∀ f ∈ G, e ≠ f → ¬ BombEq.le e f

instance : DecidablePred GroupOK := fun G => by unfold GroupOK; infer_instance

/-- A `Solution` is exact for a constraint list: well-formed, mentioning only
the constraints' tiles, with `N_k` the exact layout count and `F_k[t]` the
exact per-tile bomb count. -/
def Exact (s : Sol) (G : List BombEq) : Prop :=
  SolWF s ∧ Sol.tiles s ⊆ tileSet G ∧ (∀ k, Sol.N s k = specN G k) ∧
    ∀ k t, Sol.F s k t = specF G k t

/-- Run a sequence of observations through `integrate_new_info`. -/
def runObs (fuel : ℕ) : State → List (ℤ × ℤ × String) → Option State
  | s, [] => some s
  | s, (r, c, i) :: rest =>
    match integrateNewInfo fuel s r c i with
    | none => none
    | some s2 => runObs fuel s2 rest

/-- A Sweeper state reachable by a reset followed by any sequence of in-range
`integrate_new_info` observations. -/
def Reached (s : State) : Prop :=
  ∃ (version : String) (height width bombs : ℤ) (fuel : ℕ)
    (obs : List (ℤ × ℤ × String)),
    (∀ o ∈ obs, 0 ≤ o.1 ∧ o.1 < height ∧ 0 ≤ o.2.1 ∧ o.2.1 < width) ∧
      runObs fuel (resetState version height width bombs) obs = some s

/-- The state invariant every reached state enjoys: a well-shaped store over
non-negative coordinates, disjoint from the duplicate-free unconstrained
list, whose tiles are also non-negative. -/
def StateInv (s : State) : Prop :=
  GroupOK s.constraints
    ∧ s.unconstrained.Nodup
    ∧ (∀ t ∈ s.unconstrained, 0 ≤ t.1 ∧ 0 ≤ t.2)
    ∧ (∀ t ∈ tileSet s.constraints, 0 ≤ t.1 ∧ 0 ≤ t.2)
    ∧ tileSet s.constraints ∩ s.unconstrained.toFinset = ∅

instance : DecidablePred StateInv := fun s => by unfold StateInv; infer_instance

/-! ### Concrete scenarios used by the claims -/

/-- The two new equations `integrate_new_info(row, column, info)` passes to
the integrator (in caller order), when it passes any. -/
def obsEqs (s : State) (row column : ℤ) (info : String) : Option (List BombEq) :=
  match bombKey s.version info with
  | some key =>
    some [mkBombEq [(row, column)] [0],
      mkBombEq (returnNeighbours row column s.height s.width) key]
  | none =>
    if info = "B" ∨ info = "Rupoor" then some [mkBombEq [(row, column)] [1]] else none

/-- A 1×3 classic board with one bomb where the square `(0,2)` is reported
as a bomb and then reported as `"0"`: the second observation contradicts the
first. -/
def impossibleScenario : Option State :=
  (integrateNewInfo 50 (resetState "Classic" 1 3 1) 0 2 "B").bind fun s₁ =>
    integrateNewInfo 50 s₁ 0 2 "0"

/-- The jointly unsatisfiable pairwise-overlap store
`{a,b} = 1, {b,c} = 1, {a,c} = 1` exactly as the integrator leaves it after
successfully integrating the three equations into an empty store. -/
def triangleStore : List BombEq :=
  [⟨{((0:ℤ), (0:ℤ)), ((0:ℤ), (2:ℤ))}, [1]⟩,
    ⟨{((0:ℤ), (1:ℤ)), ((0:ℤ), (2:ℤ))}, [1]⟩,
    ⟨{((0:ℤ), (0:ℤ)), ((0:ℤ), (1:ℤ))}, [1]⟩]

/-- A Sweeper owning the triangle store. -/
def triangleSweeper : State :=
  { resetState "Classic" 3 3 1 with constraints := triangleStore }

/-- The 1×3 classic Sweeper state after observing `"B"` at `(0, 2)`. -/
def c3WitnessState : State :=
  { version := "Classic", height := 1, width := 3, bombs := 1
    board := [["", "", "B"]]
    constraints := [⟨{((0:ℤ), (2:ℤ))}, [1]⟩]
    unconstrained := [(0, 0), (0, 1)]
    message := "" }

end Sweeper

namespace Sweeper

/-! ## Lemmas and claim theorems -/

section DictLemmas

variable {K V : Type} [DecidableEq K]

theorem dget_dset_self (d : List (K × V)) (k : K) (v dflt : V) :
    dget (dset d k v) k dflt = v := by
  induction d with
  | nil => simp [dset, dget]
  | cons p rest ih =>
    obtain ⟨k₀, v₀⟩ := p
    by_cases h : k₀ = k
    · simp [dset, h, dget]
    · simp [dset, h, dget, ih]

theorem dget_dset_ne (d : List (K × V)) (k k' : K) (v dflt : V) (h : k' ≠ k) :
    dget (dset d k v) k' dflt = dget d k' dflt := by
  induction d with
  | nil => simp [dset, dget, Ne.symm h]
  | cons p rest ih =>
    obtain ⟨k₀, v₀⟩ := p
    by_cases h0 : k₀ = k
    · subst h0
      simp [dset, dget, Ne.symm h]
    · by_cases h1 : k₀ = k'
      · simp [dset, dget, h0, h1, h]
      · simp [dset, dget, h0, h1, ih]

theorem mem_keys_dset_self (d : List (K × V)) (k : K) (v : V) :
    k ∈ (dset d k v).map Prod.fst := by
  induction d with
  | nil => simp [dset]
  | cons p rest ih =>
    obtain ⟨k₀, v₀⟩ := p
    by_cases h : k₀ = k
    · simp [dset, h]
    · simp [dset, h]
      right
      simpa using ih

theorem mem_keys_dset (d : List (K × V)) (k k' : K) (v : V)
    (h : k' ∈ d.map Prod.fst) : k' ∈ (dset d k v).map Prod.fst := by
  induction d with
  | nil => cases h
  | cons p rest ih =>
    obtain ⟨k₀, v₀⟩ := p
    rcases List.mem_cons.mp h with h0 | h0
    · by_cases hk : k₀ = k
      · subst hk
        simp at h0
        subst h0
        exact mem_keys_dset_self _ _ _
      · simp at h0
        simp [dset, hk, h0]
    · by_cases hk : k₀ = k
      · simp [dset, hk]
        right
        simpa using h0
      · simp [dset, hk]
        right
        simpa using ih h0

theorem dpop_eq_none (d : List (K × V)) (k : K) :
    dpop d k = none ↔ k ∉ d.map Prod.fst := by
  induction d with
  | nil => simp [dpop]
  | cons p rest ih =>
    obtain ⟨k₀, v₀⟩ := p
    by_cases h : k₀ = k
    · simp [dpop, h]
    · simp [dpop, h, Option.map_eq_none', ih, Ne.symm h]

theorem dpop_val (d : List (K × V)) (k : K) (v : V) (d' : List (K × V)) (dflt : V)
    (h : dpop d k = some (v, d')) : dget d k dflt = v := by
  induction d generalizing d' with
  | nil => simp [dpop] at h
  | cons p rest ih =>
    obtain ⟨k₀, v₀⟩ := p
    by_cases h0 : k₀ = k
    · rw [dpop, if_pos h0] at h
      injection h with h1
      injection h1 with hv hd
      rw [dget, if_pos h0]
      exact hv
    · rw [dpop, if_neg h0] at h
      rw [dget, if_neg h0]
      cases hrest : dpop rest k with
      | none => rw [hrest] at h; exact Option.noConfusion h
      | some pr =>
        obtain ⟨pv, pd⟩ := pr
        rw [hrest, Option.map_some'] at h
        injection h with h1
        have hv : pv = v := congrArg Prod.fst h1
        exact ih pd (hv ▸ hrest)

theorem dpop_get_ne (d : List (K × V)) (k k' : K) (v : V) (d' : List (K × V))
    (dflt : V) (h : dpop d k = some (v, d')) (hne : k' ≠ k) :
    dget d' k' dflt = dget d k' dflt := by
  induction d generalizing d' with
  | nil => simp [dpop] at h
  | cons p rest ih =>
    obtain ⟨k₀, v₀⟩ := p
    by_cases h0 : k₀ = k
    · rw [dpop, if_pos h0] at h
      injection h with h1
      have hd : rest = d' := congrArg Prod.snd h1
      subst hd
      subst h0
      rw [dget, if_neg fun hh => hne hh.symm]
    · rw [dpop, if_neg h0] at h
      cases hrest : dpop rest k with
      | none => rw [hrest] at h; exact Option.noConfusion h
      | some pr =>
        obtain ⟨pv, pd⟩ := pr
        rw [hrest, Option.map_some'] at h
        injection h with h1
        have hv : pv = v := congrArg Prod.fst h1
        have hd : (k₀, v₀) :: pd = d' := congrArg Prod.snd h1
        subst hd
        rw [dget, dget]
        by_cases h1' : k₀ = k'
        · rw [if_pos h1', if_pos h1']
        · rw [if_neg h1', if_neg h1']
          exact ih pd (hv ▸ hrest)

theorem dget_foldl_dset_const (l : List K) (d : List (K × V)) (v : V) (t : K)
    (dflt : V) :
    dget (l.foldl (fun d k => dset d k v) d) t dflt
      = if t ∈ l then v else dget d t dflt := by
  induction l generalizing d with
  | nil => simp
  | cons a l ih =>
    rw [List.foldl_cons, ih]
    by_cases h1 : t ∈ l
    · simp [h1]
    · by_cases h2 : t = a
      · simp [h1, h2, dget_dset_self]
      · simp [h1, h2, dget_dset_ne _ _ _ _ _ h2]

theorem dget_of_mem {d : List (K × V)} (hnd : (d.map Prod.fst).Nodup)
    {p : K × V} (hp : p ∈ d) (dflt : V) : dget d p.1 dflt = p.2 := by
  induction d with
  | nil => cases hp
  | cons q rest ih =>
    rcases List.mem_cons.mp hp with rfl | hp'
    · rw [dget, if_pos rfl]
    · rw [dget]
      by_cases h : q.1 = p.1
      · exfalso
        have : p.1 ∈ rest.map Prod.fst := List.mem_map_of_mem Prod.fst hp'
        rw [List.map_cons, List.nodup_cons] at hnd
        exact hnd.1 (h ▸ this)
      · rw [if_neg h]
        exact ih (by rw [List.map_cons, List.nodup_cons] at hnd; exact hnd.2) hp'

theorem filter_key_eq_nil {d : List (K × V)} {t : K}
    (h : t ∉ d.map Prod.fst) : d.filter (fun q => q.1 = t) = [] := by
  induction d with
  | nil => rfl
  | cons q rest ih =>
    simp only [List.map_cons, List.mem_cons, not_or] at h
    rw [List.filter_cons, if_neg (by simpa using fun hh => h.1 hh.symm)]
    exact ih h.2

theorem filter_sum_eq_dget (d : List (K × ℤ)) (t : K)
    (hnd : (d.map Prod.fst).Nodup) :
    ((d.filter fun q => q.1 = t).map Prod.snd).sum = dget d t 0 := by
  induction d with
  | nil => simp [dget]
  | cons q rest ih =>
    rw [List.map_cons, List.nodup_cons] at hnd
    rw [List.filter_cons, dget]
    by_cases h : q.1 = t
    · rw [if_pos (by simpa using h), if_pos h]
      have : rest.filter (fun q => q.1 = t) = [] :=
        filter_key_eq_nil (by rw [← h]; exact hnd.1)
      simp [this]
    · rw [if_neg (by simpa using h), if_neg h]
      exact ih hnd.2

theorem list_sum_eq_keys_sum (sol : Sol) (g : ℤ → (FDict × ℤ) → ℤ)
    (hnd : (sol.map Prod.fst).Nodup) :
    ∑ k in Sol.keys sol, g k (dget sol k ([], 0))
      = (sol.map fun p => g p.1 p.2).sum := by
  rw [Sol.keys, List.sum_toFinset _ hnd, List.map_map]
  refine congrArg List.sum (List.map_congr_left fun p hp => ?_)
  simp only [Function.comp_apply]
  rw [dget_of_mem hnd hp]

theorem dset_keys {K : Type} [DecidableEq K] {V : Type} (d : List (K × V)) (k : K)
    (v : V) :
    ((dset d k v).map Prod.fst).toFinset = insert k (d.map Prod.fst).toFinset := by
  induction d with
  | nil => simp [dset]
  | cons p rest ih =>
    by_cases h : p.1 = k
    · obtain ⟨k₀, v₀⟩ := p
      simp only at h
      simp [dset, h]
    · obtain ⟨k₀, v₀⟩ := p
      simp only at h
      simp only [dset, if_neg h, List.map_cons, List.toFinset_cons, ih]
      rw [Finset.Insert.comm]

end DictLemmas

theorem cbfInner_get (c : ℤ) (f : FDict) (d : List (Tile × ℤ)) (t : Tile) :
    dget (cbfInner c d f) t 0
      = dget d t 0 + ((f.filter fun q => q.1 = t).map Prod.snd).sum * c := by
  induction f generalizing d with
  | nil => simp [cbfInner]
  | cons q rest ih =>
    have hstep : cbfInner c d (q :: rest)
        = cbfInner c (dset d q.1 (dget d q.1 0 + q.2 * c)) rest := rfl
    rw [hstep, ih]
    by_cases h : q.1 = t
    · rw [← h, dget_dset_self, List.filter_cons, if_pos (by simp)]
      simp only [List.map_cons, List.sum_cons]
      ring
    · rw [dget_dset_ne _ _ _ _ _ (fun hh => h hh.symm),
        List.filter_cons, if_neg (by simpa using h)]

theorem mem_keys_cbfInner (c : ℤ) (f : FDict) (d : List (Tile × ℤ)) (k : Tile)
    (h : k ∈ d.map Prod.fst) : k ∈ (cbfInner c d f).map Prod.fst := by
  induction f generalizing d with
  | nil => exact h
  | cons q rest ih =>
    exact ih _ (mem_keys_dset _ _ _ _ h)

theorem cbf_num (u bombs : ℤ) (sol : Sol) (acc : List (Tile × ℤ) × ℤ) :
    (sol.foldl (cbfStep u bombs) acc).2
      = acc.2 + (sol.map fun p => p.2.2 * comb u (bombs - p.1)).sum := by
  induction sol generalizing acc with
  | nil => simp
  | cons p rest ih =>
    rw [List.foldl_cons, ih]
    simp only [cbfStep, List.map_cons, List.sum_cons]
    ring

theorem cbf_get (u bombs : ℤ) (sol : Sol) (acc : List (Tile × ℤ) × ℤ) (t : Tile)
    (ht : t ≠ (-1, -1)) :
    dget (sol.foldl (cbfStep u bombs) acc).1 t 0
      = dget acc.1 t 0
        + (sol.map fun p =>
            ((p.2.1.filter fun q => q.1 = t).map Prod.snd).sum
              * comb u (bombs - p.1)).sum := by
  induction sol generalizing acc with
  | nil => simp
  | cons p rest ih =>
    rw [List.foldl_cons, ih]
    have hstep : dget (cbfStep u bombs acc p).1 t 0
        = dget acc.1 t 0
          + ((p.2.1.filter fun q => q.1 = t).map Prod.snd).sum
            * comb u (bombs - p.1) := by
      show dget (dset (cbfInner (comb u (bombs - p.1)) acc.1 p.2.1) (-1, -1) _) t 0 = _
      rw [dget_dset_ne _ _ _ _ _ ht, cbfInner_get]
    rw [hstep]
    simp only [List.map_cons, List.sum_cons]
    ring

theorem cbf_sentinel (u bombs : ℤ) (sol : Sol) (acc : List (Tile × ℤ) × ℤ) :
    dget (sol.foldl (cbfStep u bombs) acc).1 (-1, -1) 0
      = dget acc.1 (-1, -1) 0
        + (sol.map fun p =>
            ((p.2.1.filter fun q => q.1 = (-1, -1)).map Prod.snd).sum
                * comb u (bombs - p.1)
              + p.2.2 * comb (u - 1) (bombs - p.1 - 1)).sum := by
  induction sol generalizing acc with
  | nil => simp
  | cons p rest ih =>
    rw [List.foldl_cons, ih]
    have hstep : dget (cbfStep u bombs acc p).1 (-1, -1) 0
        = dget acc.1 (-1, -1) 0
          + (((p.2.1.filter fun q => q.1 = (-1, -1)).map Prod.snd).sum
              * comb u (bombs - p.1)
            + p.2.2 * comb (u - 1) (bombs - p.1 - 1)) := by
      show dget (dset (cbfInner (comb u (bombs - p.1)) acc.1 p.2.1) (-1, -1) _)
          (-1, -1) 0 = _
      rw [dget_dset_self, cbfInner_get]
      ring
    rw [hstep]
    simp only [List.map_cons, List.sum_cons]
    ring

namespace Sol

theorem N_nil (k : ℤ) : N ([] : Sol) k = 0 := rfl

theorem dom_nil (k : ℤ) : dom ([] : Sol) k = ∅ := rfl

theorem F_nil (k : ℤ) (t : Tile) : F ([] : Sol) k t = 0 := rfl

theorem keys_nil : keys ([] : Sol) = ∅ := rfl

theorem N_not_mem {s : Sol} {k : ℤ} (h : k ∉ keys s) : N s k = 0 := by
  induction s with
  | nil => rfl
  | cons p rest ih =>
    simp only [keys, List.map_cons, List.toFinset_cons, Finset.mem_insert, not_or] at h
    show (if p.1 = k then p.2 else dget rest k ([], 0)).2 = 0
    rw [if_neg fun hh => h.1 hh.symm]
    exact ih (by simpa [keys] using h.2)

theorem dom_not_mem {s : Sol} {k : ℤ} (h : k ∉ keys s) : dom s k = ∅ := by
  induction s with
  | nil => rfl
  | cons p rest ih =>
    simp only [keys, List.map_cons, List.toFinset_cons, Finset.mem_insert, not_or] at h
    show ((if p.1 = k then p.2 else dget rest k ([], 0)).1.map Prod.fst).toFinset = ∅
    rw [if_neg fun hh => h.1 hh.symm]
    exact ih (by simpa [keys] using h.2)

theorem F_not_mem_dom {s : Sol} {k : ℤ} {t : Tile} (h : t ∉ dom s k) : F s k t = 0 := by
  rw [F]
  rw [dom] at h
  generalize (dget s k ([], 0)).1 = f at h
  induction f with
  | nil => rfl
  | cons q rest ih =>
    simp only [List.map_cons, List.toFinset_cons, Finset.mem_insert, not_or] at h
    rw [dget, if_neg fun hh => h.1 hh.symm]
    exact ih (by simpa using h.2)

theorem dget_eq_zero_of_not_mem {f : FDict} {t : Tile}
    (h : t ∉ (f.map Prod.fst).toFinset) : dget f t 0 = 0 := by
  induction f with
  | nil => rfl
  | cons q rest ih =>
    simp only [List.map_cons, List.toFinset_cons, Finset.mem_insert, not_or] at h
    rw [dget, if_neg fun hh => h.1 hh.symm]
    exact ih (by simpa using h.2)

theorem fAdd_get (f g : FDict) (t : Tile) :
    dget (fAdd f g) t 0
      = dget f t 0 + ((g.filter fun q => q.1 = t).map Prod.snd).sum := by
  induction g generalizing f with
  | nil => simp [fAdd]
  | cons q rest ih =>
    have hstep : fAdd f (q :: rest) = fAdd (dset f q.1 (dget f q.1 0 + q.2)) rest := rfl
    rw [hstep, ih]
    by_cases h : q.1 = t
    · rw [← h, dget_dset_self, List.filter_cons, if_pos (by simp)]
      simp only [List.map_cons, List.sum_cons]
      ring
    · rw [dget_dset_ne _ _ _ _ _ (fun hh => h hh.symm),
        List.filter_cons, if_neg (by simpa using h)]

theorem fAdd_keys (f g : FDict) :
    ((fAdd f g).map Prod.fst).toFinset
      = (f.map Prod.fst).toFinset ∪ (g.map Prod.fst).toFinset := by
  induction g generalizing f with
  | nil => simp [fAdd]
  | cons q rest ih =>
    have hstep : fAdd f (q :: rest) = fAdd (dset f q.1 (dget f q.1 0 + q.2)) rest := rfl
    rw [hstep, ih, dset_keys]
    simp only [List.map_cons, List.toFinset_cons]
    rw [Finset.insert_union, Finset.union_insert]

theorem addStep_N (acc : Sol) (p : ℤ × (FDict × ℤ)) (k : ℤ) :
    N (addStep acc p) k = N acc k + (if p.1 = k then p.2.2 else 0) := by
  by_cases h : p.1 = k
  · rw [if_pos h, ← h]
    show (dget (dset acc p.1 _) p.1 ([], 0)).2 = _
    rw [dget_dset_self]
    rfl
  · rw [if_neg h, add_zero]
    show (dget (dset acc p.1 _) k ([], 0)).2 = _
    rw [dget_dset_ne _ _ _ _ _ fun hh => h hh.symm]
    rfl

theorem addStep_dom (acc : Sol) (p : ℤ × (FDict × ℤ)) (k : ℤ) :
    dom (addStep acc p) k
      = dom acc k ∪ (if p.1 = k then (p.2.1.map Prod.fst).toFinset else ∅) := by
  by_cases h : p.1 = k
  · rw [if_pos h, ← h]
    show ((dget (dset acc p.1 _) p.1 ([], 0)).1.map Prod.fst).toFinset = _
    rw [dget_dset_self]
    exact fAdd_keys _ _
  · rw [if_neg h, Finset.union_empty]
    show ((dget (dset acc p.1 _) k ([], 0)).1.map Prod.fst).toFinset = _
    rw [dget_dset_ne _ _ _ _ _ (fun hh => h hh.symm)]
    rfl

theorem addStep_F (acc : Sol) (p : ℤ × (FDict × ℤ)) (k : ℤ) (t : Tile) :
    F (addStep acc p) k t
      = F acc k t
        + (if p.1 = k then ((p.2.1.filter fun q => q.1 = t).map Prod.snd).sum else 0) := by
  by_cases h : p.1 = k
  · rw [if_pos h, ← h]
    show dget (dget (dset acc p.1 _) p.1 ([], 0)).1 t 0 = _
    rw [dget_dset_self]
    exact fAdd_get _ _ _
  · rw [if_neg h, add_zero]
    show dget (dget (dset acc p.1 _) k ([], 0)).1 t 0 = _
    rw [dget_dset_ne _ _ _ _ _ (fun hh => h hh.symm)]
    rfl

theorem addStep_keys (acc : Sol) (p : ℤ × (FDict × ℤ)) :
    keys (addStep acc p) = insert p.1 (keys acc) := by
  show ((dset acc p.1 _).map Prod.fst).toFinset = _
  rw [dset_keys]
  rfl

theorem foldl_addStep_N (o acc : Sol) (k : ℤ) :
    N (o.foldl addStep acc) k
      = N acc k + (o.map fun p => if p.1 = k then p.2.2 else 0).sum := by
  induction o generalizing acc with
  | nil => simp
  | cons p rest ih =>
    rw [List.foldl_cons, ih, addStep_N]
    simp only [List.map_cons, List.sum_cons]
    ring

theorem foldl_addStep_dom (o acc : Sol) (k : ℤ) :
    dom (o.foldl addStep acc) k
      = dom acc k
        ∪ (o.map fun p => if p.1 = k then (p.2.1.map Prod.fst).toFinset else ∅).foldr
            (· ∪ ·) ∅ := by
  induction o generalizing acc with
  | nil => simp
  | cons p rest ih =>
    rw [List.foldl_cons, ih, addStep_dom]
    simp only [List.map_cons, List.foldr_cons]
    rw [Finset.union_assoc]

theorem foldl_addStep_F (o acc : Sol) (k : ℤ) (t : Tile) :
    F (o.foldl addStep acc) k t
      = F acc k t
        + (o.map fun p =>
            if p.1 = k then ((p.2.1.filter fun q => q.1 = t).map Prod.snd).sum
            else 0).sum := by
  induction o generalizing acc with
  | nil => simp
  | cons p rest ih =>
    rw [List.foldl_cons, ih, addStep_F]
    simp only [List.map_cons, List.sum_cons]
    ring

theorem foldl_addStep_keys (o acc : Sol) :
    keys (o.foldl addStep acc) = keys acc ∪ keys o := by
  induction o generalizing acc with
  | nil => simp [keys]
  | cons p rest ih =>
    rw [List.foldl_cons, ih, addStep_keys]
    simp only [keys, List.map_cons, List.toFinset_cons]
    rw [Finset.insert_union, Finset.union_insert]

theorem ite_key_union_zero (rest : Sol) (k : ℤ) (h : ∀ q ∈ rest, q.1 ≠ k) :
    ((rest.map fun p =>
        if p.1 = k then (p.2.1.map Prod.fst).toFinset else ∅).foldr (· ∪ ·) ∅) = ∅ := by
  induction rest with
  | nil => rfl
  | cons q rs ih =>
    simp only [List.map_cons, List.foldr_cons]
    rw [if_neg (h q (List.mem_cons_self q rs)), Finset.empty_union]
    exact ih fun q' hq' => h q' (List.mem_cons_of_mem _ hq')

theorem ite_key_sum_eq_N (s : Sol) (k : ℤ) (hnd : (s.map Prod.fst).Nodup) :
    (s.map fun p => if p.1 = k then p.2.2 else 0).sum = N s k := by
  induction s with
  | nil => rfl
  | cons p rest ih =>
    rw [List.map_cons, List.nodup_cons] at hnd
    simp only [List.map_cons, List.sum_cons]
    by_cases h : p.1 = k
    · rw [if_pos h]
      have hz : (rest.map fun p => if p.1 = k then p.2.2 else 0).sum = 0 := by
        refine List.sum_eq_zero fun x hx => ?_
        obtain ⟨q, hq, rfl⟩ := List.mem_map.mp hx
        rw [if_neg fun (hqk : q.1 = k) =>
          hnd.1 ((hqk.trans h.symm) ▸ List.mem_map_of_mem Prod.fst hq)]
      rw [hz]
      show p.2.2 + 0 = (if p.1 = k then p.2 else dget rest k ([], 0)).2
      rw [if_pos h, add_zero]
    · rw [if_neg h, zero_add, ih hnd.2]
      show N rest k = (if p.1 = k then p.2 else dget rest k ([], 0)).2
      rw [if_neg h]
      rfl

theorem ite_key_union_eq_dom (s : Sol) (k : ℤ) (hnd : (s.map Prod.fst).Nodup) :
    ((s.map fun p =>
        if p.1 = k then (p.2.1.map Prod.fst).toFinset else ∅).foldr (· ∪ ·) ∅)
      = dom s k := by
  induction s with
  | nil => rfl
  | cons p rest ih =>
    rw [List.map_cons, List.nodup_cons] at hnd
    simp only [List.map_cons, List.foldr_cons]
    by_cases h : p.1 = k
    · rw [if_pos h]
      have hz := ite_key_union_zero rest k fun q hq hqk =>
        hnd.1 ((hqk.trans h.symm) ▸ List.mem_map_of_mem Prod.fst hq)
      rw [hz, Finset.union_empty]
      show _ = ((if p.1 = k then p.2 else dget rest k ([], 0)).1.map Prod.fst).toFinset
      rw [if_pos h]
    · rw [if_neg h, Finset.empty_union, ih hnd.2]
      show dom rest k = ((if p.1 = k then p.2 else dget rest k ([], 0)).1.map Prod.fst).toFinset
      rw [if_neg h]
      rfl

theorem ite_key_fsum_eq_F (s : Sol) (k : ℤ) (t : Tile)
    (hnd : (s.map Prod.fst).Nodup) (hin : ∀ p ∈ s, (p.2.1.map Prod.fst).Nodup) :
    (s.map fun p =>
        if p.1 = k then ((p.2.1.filter fun q => q.1 = t).map Prod.snd).sum else 0).sum
      = F s k t := by
  induction s with
  | nil => rfl
  | cons p rest ih =>
    rw [List.map_cons, List.nodup_cons] at hnd
    simp only [List.map_cons, List.sum_cons]
    by_cases h : p.1 = k
    · rw [if_pos h]
      have hz : (rest.map fun p =>
          if p.1 = k then ((p.2.1.filter fun q => q.1 = t).map Prod.snd).sum else 0).sum
            = 0 := by
        refine List.sum_eq_zero fun x hx => ?_
        obtain ⟨q, hq, rfl⟩ := List.mem_map.mp hx
        rw [if_neg fun (hqk : q.1 = k) =>
          hnd.1 ((hqk.trans h.symm) ▸ List.mem_map_of_mem Prod.fst hq)]
      rw [hz, add_zero, filter_sum_eq_dget _ _ (hin p (List.mem_cons_self p rest))]
      show dget p.2.1 t 0 = dget (if p.1 = k then p.2 else dget rest k ([], 0)).1 t 0
      rw [if_pos h]
    · rw [if_neg h, zero_add,
        ih hnd.2 fun q hq => hin q (List.mem_cons_of_mem p hq)]
      show F rest k t = dget (if p.1 = k then p.2 else dget rest k ([], 0)).1 t 0
      rw [if_neg h]
      rfl

theorem add_N (s o : Sol) (hnd : (o.map Prod.fst).Nodup) (k : ℤ) :
    N (add s o) k = N s k + N o k := by
  rw [add]
  by_cases hs : s = []
  · rw [if_pos hs, hs, N_nil, zero_add]
  · rw [if_neg hs, foldl_addStep_N, ite_key_sum_eq_N o k hnd]

theorem add_dom (s o : Sol) (hnd : (o.map Prod.fst).Nodup) (k : ℤ) :
    dom (add s o) k = dom s k ∪ dom o k := by
  rw [add]
  by_cases hs : s = []
  · rw [if_pos hs, hs, dom_nil, Finset.empty_union]
  · rw [if_neg hs, foldl_addStep_dom, ite_key_union_eq_dom o k hnd]

theorem add_F (s o : Sol) (ho : SolWF o) (k : ℤ) (t : Tile) :
    F (add s o) k t = F s k t + F o k t := by
  rw [add]
  by_cases hs : s = []
  · rw [if_pos hs, hs, F_nil, zero_add]
  · rw [if_neg hs, foldl_addStep_F, ite_key_fsum_eq_F o k t ho.1 ho.2]

theorem add_keys (s o : Sol) : keys (add s o) = keys s ∪ keys o := by
  rw [add]
  by_cases hs : s = []
  · rw [if_pos hs, hs, keys_nil, Finset.empty_union]
  · rw [if_neg hs, foldl_addStep_keys]

end Sol

theorem dset_keys_list {K : Type} [DecidableEq K] {V : Type} (d : List (K × V))
    (k : K) (v : V) :
    (dset d k v).map Prod.fst
      = if k ∈ d.map Prod.fst then d.map Prod.fst else d.map Prod.fst ++ [k] := by
  induction d with
  | nil => simp [dset]
  | cons p rest ih =>
    obtain ⟨k₀, v₀⟩ := p
    by_cases h : k₀ = k
    · simp [dset, h]
    · simp only [dset, if_neg h, List.map_cons, ih]
      by_cases h2 : k ∈ rest.map Prod.fst
      · simp [h2, Ne.symm h]
      · simp [h2, Ne.symm h]

theorem dset_nodup_keys {K : Type} [DecidableEq K] {V : Type} (d : List (K × V))
    (k : K) (v : V) (h : (d.map Prod.fst).Nodup) :
    ((dset d k v).map Prod.fst).Nodup := by
  rw [dset_keys_list]
  by_cases h2 : k ∈ d.map Prod.fst
  · simpa [h2] using h
  · rw [if_neg h2]
    exact List.Nodup.append h (List.nodup_singleton k)
      (by simpa [List.disjoint_singleton] using h2)

theorem mem_dset {K : Type} [DecidableEq K] {V : Type} {d : List (K × V)} {k : K}
    {v : V} {p : K × V} (h : p ∈ dset d k v) : p ∈ d ∨ p = (k, v) := by
  induction d with
  | nil => simpa [dset] using h
  | cons q rest ih =>
    obtain ⟨k₀, v₀⟩ := q
    by_cases h0 : k₀ = k
    · rw [dset] at h
      simp only [if_pos h0] at h
      rcases List.mem_cons.mp h with rfl | h1
      · exact Or.inr rfl
      · exact Or.inl (List.mem_cons_of_mem _ h1)
    · rw [dset] at h
      simp only [if_neg h0] at h
      rcases List.mem_cons.mp h with rfl | h1
      · exact Or.inl (List.mem_cons_self _ _)
      · rcases ih h1 with h2 | h2
        · exact Or.inl (List.mem_cons_of_mem _ h2)
        · exact Or.inr h2

theorem dget_mem_or_default {K : Type} [DecidableEq K] {V : Type} (d : List (K × V))
    (k : K) (dflt : V) : dget d k dflt = dflt ∨ ∃ p ∈ d, dget d k dflt = p.2 := by
  induction d with
  | nil => exact Or.inl rfl
  | cons q rest ih =>
    by_cases h : q.1 = k
    · refine Or.inr ⟨q, List.mem_cons_self q rest, ?_⟩
      show (if q.1 = k then q.2 else dget rest k dflt) = q.2
      rw [if_pos h]
    · have hd : dget (q :: rest) k dflt = dget rest k dflt := by
        show (if q.1 = k then q.2 else dget rest k dflt) = _
        rw [if_neg h]
      rcases ih with h1 | ⟨p, hp, h1⟩
      · exact Or.inl (hd.trans h1)
      · exact Or.inr ⟨p, List.mem_cons_of_mem _ hp, hd.trans h1⟩

namespace Sol

theorem fAdd_nodup (f g : FDict) (h : (f.map Prod.fst).Nodup) :
    ((fAdd f g).map Prod.fst).Nodup := by
  induction g generalizing f with
  | nil => exact h
  | cons q rest ih => exact ih _ (dset_nodup_keys _ _ _ h)

theorem dget_inner_nodup {s : Sol} (hWF : SolWF s) (k : ℤ) :
    (((dget s k ([], 0)).1).map Prod.fst).Nodup := by
  rcases dget_mem_or_default s k ([], 0) with h | ⟨p, hp, h⟩
  · rw [h]
    exact List.nodup_nil
  · rw [h]
    exact hWF.2 p hp

theorem addStep_WF {acc : Sol} (hacc : SolWF acc) (p : ℤ × (FDict × ℤ)) :
    SolWF (addStep acc p) := by
  constructor
  · exact dset_nodup_keys _ _ _ hacc.1
  · intro r hr
    rcases mem_dset hr with h | h
    · exact hacc.2 r h
    · rw [h]
      exact fAdd_nodup _ _ (dget_inner_nodup hacc p.1)

theorem addWF {s o : Sol} (hs : SolWF s) (ho : SolWF o) : SolWF (add s o) := by
  rw [add]
  by_cases hempty : s = []
  · rw [if_pos hempty]
    exact ho
  · rw [if_neg hempty]
    clear hempty
    have key : ∀ (o acc : Sol), SolWF acc → SolWF (o.foldl addStep acc) := by
      intro o
      induction o with
      | nil => intro acc hacc; exact hacc
      | cons p rest ih =>
        intro acc hacc
        rw [List.foldl_cons]
        exact ih _ (addStep_WF hacc p)
    exact key o s hs

end Sol

theorem mem_foldr_union {α β : Type} [DecidableEq β] (l : List α) (f : α → Finset β)
    (t : β) : (t ∈ (l.map f).foldr (· ∪ ·) ∅) ↔ ∃ x ∈ l, t ∈ f x := by
  induction l with
  | nil => simp
  | cons a rest ih => simp [ih]

theorem solWF_cons {q : ℤ × (FDict × ℤ)} {rest : Sol} (h : SolWF (q :: rest)) :
    SolWF rest :=
  ⟨(List.nodup_cons.mp (by simpa using h.1)).2,
    fun r hr => h.2 r (List.mem_cons_of_mem _ hr)⟩

namespace Sol

theorem N_single (e : ℤ × (FDict × ℤ)) (k : ℤ) :
    N [e] k = if e.1 = k then e.2.2 else 0 := by
  show (if e.1 = k then e.2 else ([], 0)).2 = _
  by_cases h : e.1 = k
  · rw [if_pos h, if_pos h]
  · rw [if_neg h, if_neg h]

theorem dom_single (e : ℤ × (FDict × ℤ)) (k : ℤ) :
    dom [e] k = if e.1 = k then (e.2.1.map Prod.fst).toFinset else ∅ := by
  show ((if e.1 = k then e.2 else ([], 0)).1.map Prod.fst).toFinset = _
  by_cases h : e.1 = k
  · rw [if_pos h, if_pos h]
  · rw [if_neg h, if_neg h]
    rfl

theorem F_single (e : ℤ × (FDict × ℤ)) (k : ℤ) (t : Tile) :
    F [e] k t = if e.1 = k then dget e.2.1 t 0 else 0 := by
  show dget (if e.1 = k then e.2 else ([], 0)).1 t 0 = _
  by_cases h : e.1 = k
  · rw [if_pos h, if_pos h]
  · rw [if_neg h, if_neg h]
    rfl

theorem keys_single (e : ℤ × (FDict × ℤ)) : keys [e] = {e.1} := rfl

theorem map_scale_get (f : FDict) (c : ℤ) (t : Tile) :
    dget (f.map fun p => (p.1, p.2 * c)) t 0 = dget f t 0 * c := by
  induction f with
  | nil => simp [dget]
  | cons q rest ih =>
    show (if q.1 = t then q.2 * c else dget (rest.map _) t 0) = _
    by_cases h : q.1 = t
    · rw [if_pos h]
      show _ = (if q.1 = t then q.2 else dget rest t 0) * c
      rw [if_pos h]
    · rw [if_neg h, ih]
      show _ = (if q.1 = t then q.2 else dget rest t 0) * c
      rw [if_neg h]

theorem map_scale_keys (f : FDict) (c : ℤ) :
    (f.map fun p => (p.1, p.2 * c)).map Prod.fst = f.map Prod.fst := by
  rw [List.map_map]
  rfl

theorem fold_dset_scale_get (oF : FDict) (n : ℤ) (d : List (Tile × ℤ)) (t : Tile)
    (hnd : (oF.map Prod.fst).Nodup) :
    dget (oF.foldl (fun acc p => dset acc p.1 (p.2 * n)) d) t 0
      = if t ∈ oF.map Prod.fst then dget oF t 0 * n else dget d t 0 := by
  induction oF generalizing d with
  | nil => simp
  | cons q rest ih =>
    rw [List.map_cons, List.nodup_cons] at hnd
    rw [List.foldl_cons, ih _ hnd.2]
    by_cases hq : q.1 = t
    · rw [if_neg fun hm => hnd.1 (hq ▸ hm), if_pos (by simp [hq]), ← hq,
        dget_dset_self]
      show q.2 * n = (if q.1 = q.1 then q.2 else dget rest q.1 0) * n
      rw [if_pos rfl]
    · by_cases hm : t ∈ rest.map Prod.fst
      · rw [if_pos hm, if_pos (by simp [hm])]
        show dget rest t 0 * n = (if q.1 = t then q.2 else dget rest t 0) * n
        rw [if_neg hq]
      · have hnm : t ∉ (q :: rest).map Prod.fst := by
          simp only [List.map_cons, List.mem_cons, not_or]
          exact ⟨fun hh => hq hh.symm, hm⟩
        rw [if_neg hm, if_neg hnm, dget_dset_ne _ _ _ _ _ fun hh => hq hh.symm]

theorem fMul_get (f : FDict) (n : ℤ) (oF : FDict) (oN : ℤ) (t : Tile)
    (hnd : (oF.map Prod.fst).Nodup) :
    dget (fMul f n oF oN) t 0
      = if t ∈ oF.map Prod.fst then dget oF t 0 * n else dget f t 0 * oN := by
  rw [fMul, fold_dset_scale_get _ _ _ _ hnd]
  by_cases h : t ∈ oF.map Prod.fst
  · rw [if_pos h, if_pos h]
  · rw [if_neg h, if_neg h, map_scale_get]

theorem fold_dset_scale_keys (oF : FDict) (n : ℤ) (d : List (Tile × ℤ)) :
    ((oF.foldl (fun acc p => dset acc p.1 (p.2 * n)) d).map Prod.fst).toFinset
      = (d.map Prod.fst).toFinset ∪ (oF.map Prod.fst).toFinset := by
  induction oF generalizing d with
  | nil => simp
  | cons q rest ih =>
    rw [List.foldl_cons, ih, dset_keys]
    simp only [List.map_cons, List.toFinset_cons]
    rw [Finset.insert_union, Finset.union_insert]

theorem fMul_keys (f : FDict) (n : ℤ) (oF : FDict) (oN : ℤ) :
    ((fMul f n oF oN).map Prod.fst).toFinset
      = (f.map Prod.fst).toFinset ∪ (oF.map Prod.fst).toFinset := by
  rw [fMul, fold_dset_scale_keys, map_scale_keys]

theorem fold_dset_scale_nodup (oF : FDict) (n : ℤ) (d : List (Tile × ℤ))
    (h : (d.map Prod.fst).Nodup) :
    ((oF.foldl (fun acc p => dset acc p.1 (p.2 * n)) d).map Prod.fst).Nodup := by
  induction oF generalizing d with
  | nil => exact h
  | cons q rest ih =>
    rw [List.foldl_cons]
    exact ih _ (dset_nodup_keys _ _ _ h)

theorem fMul_nodup (f : FDict) (n : ℤ) (oF : FDict) (oN : ℤ)
    (h : (f.map Prod.fst).Nodup) : ((fMul f n oF oN).map Prod.fst).Nodup := by
  rw [fMul]
  exact fold_dset_scale_nodup _ _ _ (by rw [map_scale_keys]; exact h)

theorem mulEntry_WF {p q : ℤ × (FDict × ℤ)} (hp : (p.2.1.map Prod.fst).Nodup) :
    SolWF [mulEntry p q] := by
  refine ⟨by simp, fun r hr => ?_⟩
  rcases List.mem_singleton.mp hr with rfl
  exact fMul_nodup _ _ _ _ hp

theorem innerFold_N (o : Sol) (p : ℤ × (FDict × ℤ)) (res : Sol) (k : ℤ) :
    N (o.foldl (fun res q => add res [mulEntry p q]) res) k
      = N res k + (o.map fun q => if p.1 + q.1 = k then p.2.2 * q.2.2 else 0).sum := by
  induction o generalizing res with
  | nil => simp
  | cons q rest ih =>
    rw [List.foldl_cons, ih, add_N _ _ (by simp), N_single]
    simp only [mulEntry, List.map_cons, List.sum_cons]
    ring

theorem outerFold_N (s o : Sol) (res : Sol) (k : ℤ) :
    N (s.foldl (fun res p => o.foldl (fun res q => add res [mulEntry p q]) res) res) k
      = N res k
        + (s.map fun p =>
            (o.map fun q => if p.1 + q.1 = k then p.2.2 * q.2.2 else 0).sum).sum := by
  induction s generalizing res with
  | nil => simp
  | cons p rest ih =>
    rw [List.foldl_cons, ih, innerFold_N]
    simp only [List.map_cons, List.sum_cons]
    ring

theorem mul_N_list (s o : Sol) (k : ℤ) :
    N (mul s o) k
      = (s.map fun p =>
          (o.map fun q => if p.1 + q.1 = k then p.2.2 * q.2.2 else 0).sum).sum := by
  rw [mul, outerFold_N, N_nil, zero_add]

theorem innerFold_keys (o : Sol) (p : ℤ × (FDict × ℤ)) (res : Sol) :
    keys (o.foldl (fun res q => add res [mulEntry p q]) res)
      = res.keys ∪ (o.map fun q => {p.1 + q.1}).foldr (· ∪ ·) ∅ := by
  induction o generalizing res with
  | nil => simp [keys]
  | cons q rest ih =>
    rw [List.foldl_cons, ih, add_keys, keys_single]
    simp only [mulEntry, List.map_cons, List.foldr_cons]
    rw [Finset.union_assoc]

theorem outerFold_keys (s o : Sol) (res : Sol) :
    keys (s.foldl (fun res p => o.foldl (fun res q => add res [mulEntry p q]) res) res)
      = res.keys
        ∪ (s.map fun p => (o.map fun q => {p.1 + q.1}).foldr (· ∪ ·) ∅).foldr
            (· ∪ ·) ∅ := by
  induction s generalizing res with
  | nil => simp [keys]
  | cons p rest ih =>
    rw [List.foldl_cons, ih, innerFold_keys]
    rw [List.map_cons, List.foldr_cons, Finset.union_assoc]

theorem mul_keys_mem (s o : Sol) (k : ℤ) :
    k ∈ keys (mul s o) ↔ ∃ p ∈ s, ∃ q ∈ o, p.1 + q.1 = k := by
  rw [mul, outerFold_keys, keys_nil]
  simp only [Finset.empty_union]
  rw [mem_foldr_union]
  constructor
  · rintro ⟨p, hp, hk⟩
    rw [mem_foldr_union] at hk
    obtain ⟨q, hq, hk⟩ := hk
    exact ⟨p, hp, q, hq, (Finset.mem_singleton.mp hk).symm⟩
  · rintro ⟨p, hp, q, hq, hk⟩
    refine ⟨p, hp, ?_⟩
    rw [mem_foldr_union]
    exact ⟨q, hq, Finset.mem_singleton.mpr hk.symm⟩

theorem innerFold_dom (o : Sol) (p : ℤ × (FDict × ℤ)) (res : Sol) (k : ℤ) :
    dom (o.foldl (fun res q => add res [mulEntry p q]) res) k
      = dom res k
        ∪ (o.map fun q =>
            if p.1 + q.1 = k
            then (p.2.1.map Prod.fst).toFinset ∪ (q.2.1.map Prod.fst).toFinset
            else ∅).foldr (· ∪ ·) ∅ := by
  induction o generalizing res with
  | nil => simp
  | cons q rest ih =>
    rw [List.foldl_cons, ih, add_dom _ _ (by simp), dom_single]
    simp only [List.map_cons, List.foldr_cons]
    have hh : (if (mulEntry p q).1 = k
          then ((mulEntry p q).2.1.map Prod.fst).toFinset else ∅)
        = (if p.1 + q.1 = k
          then (p.2.1.map Prod.fst).toFinset ∪ (q.2.1.map Prod.fst).toFinset else ∅) := by
      show (if p.1 + q.1 = k
          then ((fMul p.2.1 p.2.2 q.2.1 q.2.2).map Prod.fst).toFinset else ∅) = _
      by_cases h : p.1 + q.1 = k
      · rw [if_pos h, if_pos h]
        exact fMul_keys _ _ _ _
      · rw [if_neg h, if_neg h]
    rw [hh, Finset.union_assoc]

theorem outerFold_dom (s o : Sol) (res : Sol) (k : ℤ) :
    dom (s.foldl (fun res p => o.foldl (fun res q => add res [mulEntry p q]) res) res) k
      = dom res k
        ∪ (s.map fun p =>
            (o.map fun q =>
              if p.1 + q.1 = k
              then (p.2.1.map Prod.fst).toFinset ∪ (q.2.1.map Prod.fst).toFinset
              else ∅).foldr (· ∪ ·) ∅).foldr (· ∪ ·) ∅ := by
  induction s generalizing res with
  | nil => simp
  | cons p rest ih =>
    rw [List.foldl_cons, ih, innerFold_dom]
    rw [List.map_cons, List.foldr_cons, Finset.union_assoc]

theorem mul_dom_mem (s o : Sol) (k : ℤ) (t : Tile) :
    t ∈ dom (mul s o) k
      ↔ ∃ p ∈ s, ∃ q ∈ o, p.1 + q.1 = k ∧
          (t ∈ (p.2.1.map Prod.fst).toFinset ∨ t ∈ (q.2.1.map Prod.fst).toFinset) := by
  rw [mul, outerFold_dom, dom_nil]
  simp only [Finset.empty_union]
  rw [mem_foldr_union]
  constructor
  · rintro ⟨p, hp, ht⟩
    rw [mem_foldr_union] at ht
    obtain ⟨q, hq, ht⟩ := ht
    by_cases h : p.1 + q.1 = k
    · rw [if_pos h] at ht
      exact ⟨p, hp, q, hq, h, Finset.mem_union.mp ht⟩
    · rw [if_neg h] at ht
      exact absurd ht (Finset.not_mem_empty t)
  · rintro ⟨p, hp, q, hq, hk, ht⟩
    refine ⟨p, hp, ?_⟩
    rw [mem_foldr_union]
    refine ⟨q, hq, ?_⟩
    rw [if_pos hk]
    exact Finset.mem_union.mpr ht

theorem innerFold_F (o : Sol) (hWFo : SolWF o) (p : ℤ × (FDict × ℤ))
    (hp : (p.2.1.map Prod.fst).Nodup) (res : Sol) (k : ℤ) (t : Tile) :
    F (o.foldl (fun res q => add res [mulEntry p q]) res) k t
      = F res k t
        + (o.map fun q =>
            if p.1 + q.1 = k
            then (if t ∈ q.2.1.map Prod.fst then dget q.2.1 t 0 * p.2.2
                  else dget p.2.1 t 0 * q.2.2)
            else 0).sum := by
  induction o generalizing res with
  | nil => simp
  | cons q rest ih =>
    have hq1 : (q.2.1.map Prod.fst).Nodup := hWFo.2 q (List.mem_cons_self q rest)
    have hWFrest : SolWF rest := solWF_cons hWFo
    rw [List.foldl_cons, ih hWFrest, add_F _ _ (mulEntry_WF hp), F_single]
    simp only [List.map_cons, List.sum_cons]
    have hh : (if (mulEntry p q).1 = k then dget (mulEntry p q).2.1 t 0 else 0)
        = (if p.1 + q.1 = k
          then (if t ∈ q.2.1.map Prod.fst then dget q.2.1 t 0 * p.2.2
                else dget p.2.1 t 0 * q.2.2)
          else 0) := by
      show (if p.1 + q.1 = k then dget (fMul p.2.1 p.2.2 q.2.1 q.2.2) t 0 else 0) = _
      by_cases h : p.1 + q.1 = k
      · rw [if_pos h, if_pos h]
        exact fMul_get _ _ _ _ _ hq1
      · rw [if_neg h, if_neg h]
    rw [hh]
    ring

theorem outerFold_F (s o : Sol) (hWFo : SolWF o)
    (hs : ∀ p ∈ s, (p.2.1.map Prod.fst).Nodup) (res : Sol) (k : ℤ) (t : Tile) :
    F (s.foldl (fun res p => o.foldl (fun res q => add res [mulEntry p q]) res) res) k t
      = F res k t
        + (s.map fun p =>
            (o.map fun q =>
              if p.1 + q.1 = k
              then (if t ∈ q.2.1.map Prod.fst then dget q.2.1 t 0 * p.2.2
                    else dget p.2.1 t 0 * q.2.2)
              else 0).sum).sum := by
  induction s generalizing res with
  | nil => simp
  | cons p rest ih =>
    rw [List.foldl_cons,
      ih fun r hr => hs r (List.mem_cons_of_mem _ hr),
      innerFold_F o hWFo p (hs p (List.mem_cons_self p rest))]
    simp only [List.map_cons, List.sum_cons]
    ring

theorem mul_F_list (s o : Sol) (hWFs : SolWF s) (hWFo : SolWF o) (k : ℤ) (t : Tile) :
    F (mul s o) k t
      = (s.map fun p =>
          (o.map fun q =>
            if p.1 + q.1 = k
            then (if t ∈ q.2.1.map Prod.fst then dget q.2.1 t 0 * p.2.2
                  else dget p.2.1 t 0 * q.2.2)
            else 0).sum).sum := by
  rw [mul, outerFold_F s o hWFo hWFs.2, F_nil, zero_add]

theorem mulWF {s o : Sol} (hs : SolWF s) : SolWF (mul s o) := by
  rw [mul]
  have key : ∀ (s' res : Sol), (∀ p ∈ s', (p.2.1.map Prod.fst).Nodup) → SolWF res →
      SolWF (s'.foldl
        (fun res p => o.foldl (fun res q => add res [mulEntry p q]) res) res) := by
    intro s'
    induction s' with
    | nil => intro res _ hres; exact hres
    | cons p rest ih =>
      intro res hin hres
      rw [List.foldl_cons]
      refine ih _ (fun r hr => hin r (List.mem_cons_of_mem _ hr)) ?_
      have hp : (p.2.1.map Prod.fst).Nodup := hin p (List.mem_cons_self p rest)
      have inner : ∀ (o' res : Sol), SolWF res →
          SolWF (o'.foldl (fun res q => add res [mulEntry p q]) res) := by
        intro o'
        induction o' with
        | nil => intro res hres; exact hres
        | cons q orest oih =>
          intro res hres
          rw [List.foldl_cons]
          exact oih _ (addWF hres (mulEntry_WF hp))
      exact inner o res hres
  exact key s [] hs.2 ⟨List.nodup_nil, by simp⟩

end Sol

namespace Sol

theorem mem_keys_iff (s : Sol) (a : ℤ) : a ∈ keys s ↔ ∃ p ∈ s, p.1 = a := by
  simp [keys, List.mem_map]

theorem N_entry {s : Sol} (hs : SolWF s) {p : ℤ × (FDict × ℤ)} (hp : p ∈ s) :
    N s p.1 = p.2.2 := by
  rw [N, dget_of_mem hs.1 hp]

theorem dom_entry {s : Sol} (hs : SolWF s) {p : ℤ × (FDict × ℤ)} (hp : p ∈ s) :
    dom s p.1 = (p.2.1.map Prod.fst).toFinset := by
  rw [dom, dget_of_mem hs.1 hp]

theorem F_entry {s : Sol} (hs : SolWF s) {p : ℤ × (FDict × ℤ)} (hp : p ∈ s)
    (t : Tile) : F s p.1 t = dget p.2.1 t 0 := by
  rw [F, dget_of_mem hs.1 hp]

theorem subset_tiles_of_mem {s : Sol} {p : ℤ × (FDict × ℤ)} (hp : p ∈ s) :
    (p.2.1.map Prod.fst).toFinset ⊆ tiles s := by
  induction s with
  | nil => cases hp
  | cons q rest ih =>
    rcases List.mem_cons.mp hp with rfl | hp'
    · exact Finset.subset_union_left
    · exact (ih hp').trans Finset.subset_union_right

theorem dom_subset_tiles (s : Sol) (k : ℤ) : dom s k ⊆ tiles s := by
  rcases dget_mem_or_default s k ([], 0) with h | ⟨p, hp, h⟩
  · rw [dom, h]
    simp
  · rw [dom, h]
    exact subset_tiles_of_mem hp

theorem tiles_mem_iff (s : Sol) (t : Tile) :
    t ∈ tiles s ↔ ∃ p ∈ s, t ∈ (p.2.1.map Prod.fst).toFinset := by
  induction s with
  | nil => simp [tiles]
  | cons q rest ih =>
    show t ∈ (q.2.1.map Prod.fst).toFinset ∪ tiles rest ↔ _
    rw [Finset.mem_union, ih]
    constructor
    · rintro (h | ⟨p, hp, h⟩)
      · exact ⟨q, List.mem_cons_self q rest, h⟩
      · exact ⟨p, List.mem_cons_of_mem _ hp, h⟩
    · rintro ⟨p, hp, h⟩
      rcases List.mem_cons.mp hp with rfl | hp'
      · exact Or.inl h
      · exact Or.inr ⟨p, hp', h⟩

theorem disjointTiles_not_mem {s o : Sol} (h : disjointTiles s o) {t : Tile}
    (ht : t ∈ tiles s) : t ∉ tiles o := fun ho =>
  Finset.not_mem_empty t (h ▸ Finset.mem_inter.mpr ⟨ht, ho⟩)

theorem ite_sum {α : Type} {P : Prop} [Decidable P] (S : Finset α) (f : α → ℤ) :
    (if P then ∑ i in S, f i else 0) = ∑ i in S, (if P then f i else 0) := by
  by_cases h : P <;> simp [h]

theorem mul_N (s o : Sol) (hs : SolWF s) (ho : SolWF o) (k : ℤ) :
    N (mul s o) k
      = ∑ a in keys s, ∑ b in keys o, (if a + b = k then N s a * N o b else 0) := by
  rw [mul_N_list]
  simp only [N]
  rw [list_sum_eq_keys_sum s
    (fun a e => ∑ b in keys o, if a + b = k then e.2 * (dget o b ([], 0)).2 else 0)
    hs.1]
  refine congrArg List.sum (List.map_congr_left fun p hp => ?_)
  exact (list_sum_eq_keys_sum o
    (fun b e => if p.1 + b = k then p.2.2 * e.2 else 0) ho.1).symm

theorem mul_F (s o : Sol) (hs : SolWF s) (ho : SolWF o) (k : ℤ) (t : Tile) :
    F (mul s o) k t
      = ∑ a in keys s, ∑ b in keys o,
          (if a + b = k
            then (if t ∈ dom o b then F o b t * N s a else F s a t * N o b)
            else 0) := by
  rw [mul_F_list s o hs ho]
  simp only [F, N, dom]
  rw [list_sum_eq_keys_sum s
    (fun a e => ∑ b in keys o,
      if a + b = k
      then (if t ∈ ((dget o b ([], 0)).1.map Prod.fst).toFinset
            then dget (dget o b ([], 0)).1 t 0 * e.2
            else dget e.1 t 0 * (dget o b ([], 0)).2)
      else 0)
    hs.1]
  refine congrArg List.sum (List.map_congr_left fun p hp => ?_)
  have hcong : (o.map fun q =>
      if p.1 + q.1 = k
      then (if t ∈ q.2.1.map Prod.fst then dget q.2.1 t 0 * p.2.2
            else dget p.2.1 t 0 * q.2.2)
      else 0)
      = (o.map fun q =>
      if p.1 + q.1 = k
      then (if t ∈ (q.2.1.map Prod.fst).toFinset then dget q.2.1 t 0 * p.2.2
            else dget p.2.1 t 0 * q.2.2)
      else 0) := by
    refine List.map_congr_left fun q hq => ?_
    by_cases h : p.1 + q.1 = k
    · rw [if_pos h, if_pos h]
      by_cases ht' : t ∈ q.2.1.map Prod.fst
      · rw [if_pos ht', if_pos (List.mem_toFinset.mpr ht')]
      · rw [if_neg ht', if_neg fun hh => ht' (List.mem_toFinset.mp hh)]
    · rw [if_neg h, if_neg h]
  rw [hcong]
  exact (list_sum_eq_keys_sum o
    (fun b e => if p.1 + b = k
      then (if t ∈ (e.1.map Prod.fst).toFinset
            then dget e.1 t 0 * p.2.2
            else dget p.2.1 t 0 * e.2)
      else 0) ho.1).symm

theorem mul_F_disjoint (s o : Sol) (hs : SolWF s) (ho : SolWF o)
    (hdisj : disjointTiles s o) (k : ℤ) (t : Tile) :
    F (mul s o) k t
      = ∑ a in keys s, ∑ b in keys o,
          (if a + b = k then F s a t * N o b + F o b t * N s a else 0) := by
  rw [mul_F s o hs ho]
  refine Finset.sum_congr rfl fun a ha => Finset.sum_congr rfl fun b hb => ?_
  by_cases h : a + b = k
  · rw [if_pos h, if_pos h]
    by_cases ht : t ∈ dom o b
    · have hts : t ∉ tiles s := fun hts =>
        disjointTiles_not_mem hdisj hts (dom_subset_tiles o b ht)
      have : F s a t = 0 :=
        F_not_mem_dom fun hd => hts (dom_subset_tiles s a hd)
      rw [if_pos ht, this, zero_mul, zero_add]
    · have : F o b t = 0 := F_not_mem_dom ht
      rw [if_neg ht, this, zero_mul, add_zero]
  · rw [if_neg h, if_neg h]

theorem mul_keys_mem_keys (s o : Sol) (k : ℤ) :
    k ∈ keys (mul s o) ↔ ∃ a ∈ keys s, ∃ b ∈ keys o, a + b = k := by
  rw [mul_keys_mem]
  constructor
  · rintro ⟨p, hp, q, hq, hk⟩
    exact ⟨p.1, (mem_keys_iff s p.1).mpr ⟨p, hp, rfl⟩,
      q.1, (mem_keys_iff o q.1).mpr ⟨q, hq, rfl⟩, hk⟩
  · rintro ⟨a, ha, b, hb, hk⟩
    obtain ⟨p, hp, hpa⟩ := (mem_keys_iff s a).mp ha
    obtain ⟨q, hq, hqb⟩ := (mem_keys_iff o b).mp hb
    exact ⟨p, hp, q, hq, by rw [hpa, hqb]; exact hk⟩

theorem mul_dom_mem_keys (s o : Sol) (hs : SolWF s) (ho : SolWF o) (k : ℤ)
    (t : Tile) :
    t ∈ dom (mul s o) k
      ↔ ∃ a ∈ keys s, ∃ b ∈ keys o, a + b = k ∧ (t ∈ dom s a ∨ t ∈ dom o b) := by
  rw [mul_dom_mem]
  constructor
  · rintro ⟨p, hp, q, hq, hk, ht⟩
    refine ⟨p.1, (mem_keys_iff s p.1).mpr ⟨p, hp, rfl⟩,
      q.1, (mem_keys_iff o q.1).mpr ⟨q, hq, rfl⟩, hk, ?_⟩
    rw [dom_entry hs hp, dom_entry ho hq]
    exact ht
  · rintro ⟨a, ha, b, hb, hk, ht⟩
    obtain ⟨p, hp, hpa⟩ := (mem_keys_iff s a).mp ha
    obtain ⟨q, hq, hqb⟩ := (mem_keys_iff o b).mp hb
    subst hpa
    subst hqb
    refine ⟨p, hp, q, hq, hk, ?_⟩
    rw [dom_entry hs hp, dom_entry ho hq] at ht
    exact ht

theorem tiles_mem_doms {x : Sol} (hx : SolWF x) (t : Tile) :
    t ∈ tiles x ↔ ∃ k ∈ keys x, t ∈ dom x k := by
  rw [tiles_mem_iff]
  constructor
  · rintro ⟨p, hp, ht⟩
    refine ⟨p.1, (mem_keys_iff x p.1).mpr ⟨p, hp, rfl⟩, ?_⟩
    rw [dom_entry hx hp]
    exact ht
  · rintro ⟨k, hk, ht⟩
    obtain ⟨p, hp, hpk⟩ := (mem_keys_iff x k).mp hk
    subst hpk
    rw [dom_entry hx hp] at ht
    exact ⟨p, hp, ht⟩

theorem tiles_mul_subset (s o : Sol) (hs : SolWF s) (ho : SolWF o) :
    tiles (mul s o) ⊆ tiles s ∪ tiles o := by
  intro t ht
  rw [tiles_mem_doms (mulWF hs) t] at ht
  obtain ⟨k, hk, ht⟩ := ht
  rw [mul_dom_mem_keys s o hs ho] at ht
  obtain ⟨a, ha, b, hb, hab, hd⟩ := ht
  rcases hd with hd | hd
  · exact Finset.mem_union_left _ (dom_subset_tiles s a hd)
  · exact Finset.mem_union_right _ (dom_subset_tiles o b hd)

end Sol

namespace Sol

theorem ite_swap (P Q : Prop) [Decidable P] [Decidable Q] (v : ℤ) :
    (if P then (if Q then v else 0) else 0)
      = (if Q then (if P then v else 0) else 0) := by
  by_cases h1 : P <;> by_cases h2 : Q <;> simp [h1, h2]

theorem triple_expand (K A B C : Finset ℤ) (k : ℤ)
    (hK : ∀ a ∈ A, ∀ b ∈ B, a + b ∈ K) (m : ℤ → ℤ → ℤ) (w : ℤ → ℤ) :
    (∑ x in K, ∑ c in C, if x + c = k
        then (∑ a in A, ∑ b in B, if a + b = x then m a b else 0) * w c else 0)
      = ∑ a in A, ∑ b in B, ∑ c in C, (if a + b + c = k then m a b * w c else 0) := by
  have step1 : ∀ x c : ℤ, (if x + c = k
        then (∑ a in A, ∑ b in B, if a + b = x then m a b else 0) * w c else 0)
      = ∑ a in A, ∑ b in B,
          (if a + b = x then (if x + c = k then m a b * w c else 0) else 0) := by
    intro x c
    rw [Finset.sum_mul, ite_sum]
    refine Finset.sum_congr rfl fun a ha => ?_
    rw [Finset.sum_mul, ite_sum]
    refine Finset.sum_congr rfl fun b hb => ?_
    by_cases h1 : a + b = x <;> by_cases h2 : x + c = k <;> simp [h1, h2]
  calc
    (∑ x in K, ∑ c in C, if x + c = k
        then (∑ a in A, ∑ b in B, if a + b = x then m a b else 0) * w c else 0)
        = ∑ x in K, ∑ c in C, ∑ a in A, ∑ b in B,
            (if a + b = x then (if x + c = k then m a b * w c else 0) else 0) :=
      Finset.sum_congr rfl fun x _ => Finset.sum_congr rfl fun c _ => step1 x c
    _ = ∑ x in K, ∑ a in A, ∑ c in C, ∑ b in B,
            (if a + b = x then (if x + c = k then m a b * w c else 0) else 0) :=
      Finset.sum_congr rfl fun x _ => Finset.sum_comm
    _ = ∑ a in A, ∑ x in K, ∑ c in C, ∑ b in B,
            (if a + b = x then (if x + c = k then m a b * w c else 0) else 0) :=
      Finset.sum_comm
    _ = ∑ a in A, ∑ x in K, ∑ b in B, ∑ c in C,
            (if a + b = x then (if x + c = k then m a b * w c else 0) else 0) :=
      Finset.sum_congr rfl fun a _ => Finset.sum_congr rfl fun x _ => Finset.sum_comm
    _ = ∑ a in A, ∑ b in B, ∑ x in K, ∑ c in C,
            (if a + b = x then (if x + c = k then m a b * w c else 0) else 0) :=
      Finset.sum_congr rfl fun a _ => Finset.sum_comm
    _ = ∑ a in A, ∑ b in B, ∑ c in C, ∑ x in K,
            (if a + b = x then (if x + c = k then m a b * w c else 0) else 0) :=
      Finset.sum_congr rfl fun a _ => Finset.sum_congr rfl fun b _ => Finset.sum_comm
    _ = ∑ a in A, ∑ b in B, ∑ c in C, (if a + b + c = k then m a b * w c else 0) := by
      refine Finset.sum_congr rfl fun a ha => Finset.sum_congr rfl fun b hb =>
        Finset.sum_congr rfl fun c hc => ?_
      rw [show (∑ x in K, if a + b = x
            then (if x + c = k then m a b * w c else 0) else 0)
          = (if a + b ∈ K then (if a + b + c = k then m a b * w c else 0) else 0)
        from Finset.sum_ite_eq K (a + b)
          (fun x => if x + c = k then m a b * w c else 0)]
      rw [if_pos (hK a ha b hb)]

theorem triple_expand_right (K A B C : Finset ℤ) (k : ℤ)
    (hK : ∀ b ∈ B, ∀ c ∈ C, b + c ∈ K) (m : ℤ → ℤ → ℤ) (w : ℤ → ℤ) :
    (∑ a in A, ∑ y in K, if a + y = k
        then w a * (∑ b in B, ∑ c in C, if b + c = y then m b c else 0) else 0)
      = ∑ a in A, ∑ b in B, ∑ c in C, (if a + (b + c) = k then w a * m b c else 0) := by
  have step1 : ∀ a y : ℤ, (if a + y = k
        then w a * (∑ b in B, ∑ c in C, if b + c = y then m b c else 0) else 0)
      = ∑ b in B, ∑ c in C,
          (if b + c = y then (if a + y = k then w a * m b c else 0) else 0) := by
    intro a y
    rw [Finset.mul_sum, ite_sum]
    refine Finset.sum_congr rfl fun b hb => ?_
    rw [Finset.mul_sum, ite_sum]
    refine Finset.sum_congr rfl fun c hc => ?_
    by_cases h1 : b + c = y <;> by_cases h2 : a + y = k <;> simp [h1, h2]
  calc
    (∑ a in A, ∑ y in K, if a + y = k
        then w a * (∑ b in B, ∑ c in C, if b + c = y then m b c else 0) else 0)
        = ∑ a in A, ∑ y in K, ∑ b in B, ∑ c in C,
            (if b + c = y then (if a + y = k then w a * m b c else 0) else 0) :=
      Finset.sum_congr rfl fun a _ => Finset.sum_congr rfl fun y _ => step1 a y
    _ = ∑ a in A, ∑ b in B, ∑ y in K, ∑ c in C,
            (if b + c = y then (if a + y = k then w a * m b c else 0) else 0) :=
      Finset.sum_congr rfl fun a _ => Finset.sum_comm
    _ = ∑ a in A, ∑ b in B, ∑ c in C, ∑ y in K,
            (if b + c = y then (if a + y = k then w a * m b c else 0) else 0) :=
      Finset.sum_congr rfl fun a _ => Finset.sum_congr rfl fun b _ => Finset.sum_comm
    _ = ∑ a in A, ∑ b in B, ∑ c in C, (if a + (b + c) = k then w a * m b c else 0) := by
      refine Finset.sum_congr rfl fun a ha => Finset.sum_congr rfl fun b hb =>
        Finset.sum_congr rfl fun c hc => ?_
      rw [show (∑ y in K, if b + c = y
            then (if a + y = k then w a * m b c else 0) else 0)
          = (if b + c ∈ K then (if a + (b + c) = k then w a * m b c else 0) else 0)
        from Finset.sum_ite_eq K (b + c)
          (fun y => if a + y = k then w a * m b c else 0)]
      rw [if_pos (hK b hb c hc)]

end Sol

namespace Sol

theorem equiv_of {s o : Sol} (hk : keys s = keys o) (hN : ∀ k, N s k = N o k)
    (hd : ∀ k, dom s k = dom o k) (hF : ∀ k t, F s k t = F o k t) : equiv s o :=
  ⟨hk, fun k _ => ⟨hN k, hd k, fun t _ => hF k t⟩⟩

theorem F_not_mem_keys {s : Sol} {k : ℤ} (h : k ∉ keys s) (t : Tile) : F s k t = 0 :=
  F_not_mem_dom (by rw [dom_not_mem h]; exact Finset.not_mem_empty t)

theorem disjointTiles_symm {s o : Sol} (h : disjointTiles s o) : disjointTiles o s := by
  unfold disjointTiles at h ⊢
  rw [Finset.inter_comm]
  exact h

theorem oneWF : SolWF one := ⟨by simp [one], by simp [one]⟩

theorem keys_one : keys one = {0} := rfl

theorem N_one_zero : N one 0 = 1 := rfl

theorem dom_one (k : ℤ) : dom one k = ∅ := by
  show ((dget one k ([], 0)).1.map Prod.fst).toFinset = ∅
  by_cases h : k = 0
  · subst h
    rfl
  · show ((if (0 : ℤ) = k then (([] : FDict), (1 : ℤ)) else dget [] k ([], 0)).1.map
      Prod.fst).toFinset = ∅
    rw [if_neg fun hh => h hh.symm]
    rfl

theorem add_comm_equiv (s o : Sol) (hs : SolWF s) (ho : SolWF o) :
    equiv (add s o) (add o s) := by
  refine equiv_of ?_ ?_ ?_ ?_
  · rw [add_keys, add_keys, Finset.union_comm]
  · intro k
    rw [add_N s o ho.1, add_N o s hs.1, add_comm]
  · intro k
    rw [add_dom s o ho.1, add_dom o s hs.1, Finset.union_comm]
  · intro k t
    rw [add_F s o ho, add_F o s hs, add_comm]

theorem add_assoc_equiv (s o r : Sol) (hs : SolWF s) (ho : SolWF o) (hr : SolWF r) :
    equiv (add (add s o) r) (add s (add o r)) := by
  refine equiv_of ?_ ?_ ?_ ?_
  · rw [add_keys, add_keys, add_keys, add_keys, Finset.union_assoc]
  · intro k
    rw [add_N _ r hr.1, add_N s o ho.1, add_N s _ (addWF ho hr).1, add_N o r hr.1,
      add_assoc]
  · intro k
    rw [add_dom _ r hr.1, add_dom s o ho.1, add_dom s _ (addWF ho hr).1,
      add_dom o r hr.1, Finset.union_assoc]
  · intro k t
    rw [add_F _ r hr, add_F s o ho, add_F s _ (addWF ho hr), add_F o r hr, add_assoc]

theorem mul_comm_equiv (s o : Sol) (hs : SolWF s) (ho : SolWF o)
    (hdisj : disjointTiles s o) : equiv (mul s o) (mul o s) := by
  refine equiv_of ?_ ?_ ?_ ?_
  · refine Finset.ext fun k => ?_
    rw [mul_keys_mem_keys, mul_keys_mem_keys]
    constructor
    · rintro ⟨a, ha, b, hb, hk⟩
      exact ⟨b, hb, a, ha, by rw [add_comm]; exact hk⟩
    · rintro ⟨b, hb, a, ha, hk⟩
      exact ⟨a, ha, b, hb, by rw [add_comm]; exact hk⟩
  · intro k
    rw [mul_N s o hs ho, mul_N o s ho hs]
    rw [Finset.sum_comm]
    refine Finset.sum_congr rfl fun b hb => Finset.sum_congr rfl fun a ha => ?_
    rw [add_comm a b, mul_comm (N s a) (N o b)]
  · intro k
    refine Finset.ext fun t => ?_
    rw [mul_dom_mem_keys s o hs ho, mul_dom_mem_keys o s ho hs]
    constructor
    · rintro ⟨a, ha, b, hb, hk, hd⟩
      exact ⟨b, hb, a, ha, by rw [add_comm]; exact hk, hd.symm⟩
    · rintro ⟨b, hb, a, ha, hk, hd⟩
      exact ⟨a, ha, b, hb, by rw [add_comm]; exact hk, hd.symm⟩
  · intro k t
    rw [mul_F_disjoint s o hs ho hdisj, mul_F_disjoint o s ho hs
      (disjointTiles_symm hdisj)]
    rw [Finset.sum_comm]
    refine Finset.sum_congr rfl fun b hb => Finset.sum_congr rfl fun a ha => ?_
    by_cases h : a + b = k
    · rw [if_pos h, if_pos (by rw [add_comm]; exact h)]
      ring
    · rw [if_neg h, if_neg (by rw [add_comm]; exact h)]

theorem mul_one_equiv (s : Sol) (hs : SolWF s) : equiv (mul s one) s := by
  refine equiv_of ?_ ?_ ?_ ?_
  · refine Finset.ext fun k => ?_
    rw [mul_keys_mem_keys, keys_one]
    constructor
    · rintro ⟨a, ha, b, hb, hk⟩
      rw [Finset.mem_singleton] at hb
      subst hb
      rw [add_zero] at hk
      subst hk
      exact ha
    · intro hk
      exact ⟨k, hk, 0, Finset.mem_singleton_self 0, add_zero k⟩
  · intro k
    rw [mul_N s one hs oneWF, keys_one, Finset.sum_congr rfl fun a (_ : a ∈ keys s) =>
      Finset.sum_singleton (f := fun b => if a + b = k then N s a * N one b else 0) 0]
    have : ∀ a ∈ keys s, (if a + 0 = k then N s a * N one 0 else 0)
        = (if a = k then N s a else 0) := by
      intro a ha
      rw [add_zero, N_one_zero, mul_one]
    rw [Finset.sum_congr rfl this, Finset.sum_ite_eq' (keys s) k (fun a => N s a)]
    by_cases hk : k ∈ keys s
    · rw [if_pos hk]
    · rw [if_neg hk, N_not_mem hk]
  · intro k
    refine Finset.ext fun t => ?_
    rw [mul_dom_mem_keys s one hs oneWF, keys_one]
    constructor
    · rintro ⟨a, ha, b, hb, hk, hd | hd⟩
      · rw [Finset.mem_singleton] at hb
        subst hb
        rw [add_zero] at hk
        subst hk
        exact hd
      · rw [dom_one] at hd
        exact absurd hd (Finset.not_mem_empty t)
    · intro ht
      have hk : k ∈ keys s := by
        by_contra hk
        rw [dom_not_mem hk] at ht
        exact Finset.not_mem_empty t ht
      exact ⟨k, hk, 0, Finset.mem_singleton_self 0, add_zero k, Or.inl ht⟩
  · intro k t
    rw [mul_F s one hs oneWF, keys_one, Finset.sum_congr rfl fun a (_ : a ∈ keys s) =>
      Finset.sum_singleton
        (f := fun b => if a + b = k
          then (if t ∈ dom one b then F one b t * N s a else F s a t * N one b)
          else 0) 0]
    have : ∀ a ∈ keys s, (if a + 0 = k
        then (if t ∈ dom one 0 then F one 0 t * N s a else F s a t * N one 0)
        else 0) = (if a = k then F s a t else 0) := by
      intro a ha
      rw [add_zero, dom_one, if_neg (Finset.not_mem_empty t), N_one_zero, mul_one]
    rw [Finset.sum_congr rfl this, Finset.sum_ite_eq' (keys s) k (fun a => F s a t)]
    by_cases hk : k ∈ keys s
    · rw [if_pos hk]
    · rw [if_neg hk, F_not_mem_keys hk]

theorem one_mul_equiv (s : Sol) (hs : SolWF s) : equiv (mul one s) s := by
  refine equiv_of ?_ ?_ ?_ ?_
  · refine Finset.ext fun k => ?_
    rw [mul_keys_mem_keys, keys_one]
    constructor
    · rintro ⟨b, hb, a, ha, hk⟩
      rw [Finset.mem_singleton] at hb
      subst hb
      rw [zero_add] at hk
      subst hk
      exact ha
    · intro hk
      exact ⟨0, Finset.mem_singleton_self 0, k, hk, zero_add k⟩
  · intro k
    rw [mul_N one s oneWF hs, keys_one,
      Finset.sum_singleton
        (f := fun b => ∑ a in keys s, if b + a = k then N one b * N s a else 0) 0]
    have : ∀ a ∈ keys s, (if 0 + a = k then N one 0 * N s a else 0)
        = (if a = k then N s a else 0) := by
      intro a ha
      rw [zero_add, N_one_zero, one_mul]
    rw [Finset.sum_congr rfl this, Finset.sum_ite_eq' (keys s) k (fun a => N s a)]
    by_cases hk : k ∈ keys s
    · rw [if_pos hk]
    · rw [if_neg hk, N_not_mem hk]
  · intro k
    refine Finset.ext fun t => ?_
    rw [mul_dom_mem_keys one s oneWF hs, keys_one]
    constructor
    · rintro ⟨b, hb, a, ha, hk, hd | hd⟩
      · rw [dom_one] at hd
        exact absurd hd (Finset.not_mem_empty t)
      · rw [Finset.mem_singleton] at hb
        subst hb
        rw [zero_add] at hk
        subst hk
        exact hd
    · intro ht
      have hk : k ∈ keys s := by
        by_contra hk
        rw [dom_not_mem hk] at ht
        exact Finset.not_mem_empty t ht
      exact ⟨0, Finset.mem_singleton_self 0, k, hk, zero_add k, Or.inr ht⟩
  · intro k t
    rw [mul_F one s oneWF hs, keys_one,
      Finset.sum_singleton
        (f := fun b => ∑ a in keys s, if b + a = k
          then (if t ∈ dom s a then F s a t * N one b else F one b t * N s a)
          else 0) 0]
    have : ∀ a ∈ keys s, (if 0 + a = k
        then (if t ∈ dom s a then F s a t * N one 0 else F one 0 t * N s a)
        else 0) = (if a = k then F s a t else 0) := by
      intro a ha
      rw [zero_add, N_one_zero]
      by_cases ht : t ∈ dom s a
      · rw [if_pos ht, mul_one]
      · have h0 : F one 0 t = 0 :=
          F_not_mem_dom (by rw [dom_one]; exact Finset.not_mem_empty t)
        rw [if_neg ht, F_not_mem_dom ht, h0, zero_mul]
    rw [Finset.sum_congr rfl this, Finset.sum_ite_eq' (keys s) k (fun a => F s a t)]
    by_cases hk : k ∈ keys s
    · rw [if_pos hk]
    · rw [if_neg hk, F_not_mem_keys hk]

end Sol

namespace Sol

theorem ite_add_split {P : Prop} [Decidable P] (u v : ℤ) :
    (if P then u + v else 0) = (if P then u else 0) + (if P then v else 0) := by
  by_cases h : P <;> simp [h]

theorem sum2_add_distrib (X C : Finset ℤ) (f g : ℤ → ℤ → ℤ) :
    (∑ x in X, ∑ c in C, (f x c + g x c))
      = (∑ x in X, ∑ c in C, f x c) + (∑ x in X, ∑ c in C, g x c) := by
  rw [← Finset.sum_add_distrib]
  refine Finset.sum_congr rfl fun x _ => ?_
  rw [← Finset.sum_add_distrib]

theorem sum3_add_distrib (A B C : Finset ℤ) (f g : ℤ → ℤ → ℤ → ℤ) :
    (∑ a in A, ∑ b in B, ∑ c in C, (f a b c + g a b c))
      = (∑ a in A, ∑ b in B, ∑ c in C, f a b c)
        + (∑ a in A, ∑ b in B, ∑ c in C, g a b c) := by
  rw [← Finset.sum_add_distrib]
  refine Finset.sum_congr rfl fun a _ => ?_
  rw [← Finset.sum_add_distrib]
  refine Finset.sum_congr rfl fun b _ => ?_
  rw [← Finset.sum_add_distrib]

theorem mem_keys_of_mem_dom {s : Sol} {k : ℤ} {t : Tile} (h : t ∈ dom s k) :
    k ∈ keys s := by
  by_contra hk
  rw [dom_not_mem hk] at h
  exact Finset.not_mem_empty t h

theorem disjointTiles_mul_left {s o r : Sol} (hs : SolWF s) (ho : SolWF o)
    (hsr : disjointTiles s r) (hor : disjointTiles o r) :
    disjointTiles (mul s o) r := by
  unfold disjointTiles
  rw [Finset.eq_empty_iff_forall_not_mem]
  intro t ht
  rw [Finset.mem_inter] at ht
  rcases Finset.mem_union.mp (tiles_mul_subset s o hs ho ht.1) with h | h
  · exact disjointTiles_not_mem hsr h ht.2
  · exact disjointTiles_not_mem hor h ht.2

theorem disjointTiles_mul_right {s o r : Sol} (ho : SolWF o) (hr : SolWF r)
    (hso : disjointTiles s o) (hsr : disjointTiles s r) :
    disjointTiles s (mul o r) := by
  unfold disjointTiles
  rw [Finset.eq_empty_iff_forall_not_mem]
  intro t ht
  rw [Finset.mem_inter] at ht
  rcases Finset.mem_union.mp (tiles_mul_subset o r ho hr ht.2) with h | h
  · exact disjointTiles_not_mem hso ht.1 h
  · exact disjointTiles_not_mem hsr ht.1 h

theorem tiles_add_subset (s o : Sol) (hs : SolWF s) (ho : SolWF o) :
    tiles (add s o) ⊆ tiles s ∪ tiles o := by
  intro t ht
  rw [tiles_mem_doms (addWF hs ho) t] at ht
  obtain ⟨k, hk, ht⟩ := ht
  rw [add_dom s o ho.1] at ht
  rcases Finset.mem_union.mp ht with h | h
  · exact Finset.mem_union_left _ (dom_subset_tiles s k h)
  · exact Finset.mem_union_right _ (dom_subset_tiles o k h)

theorem disjointTiles_add_left {s o r : Sol} (hs : SolWF s) (ho : SolWF o)
    (hsr : disjointTiles s r) (hor : disjointTiles o r) :
    disjointTiles (add s o) r := by
  unfold disjointTiles
  rw [Finset.eq_empty_iff_forall_not_mem]
  intro t ht
  rw [Finset.mem_inter] at ht
  rcases Finset.mem_union.mp (tiles_add_subset s o hs ho ht.1) with h | h
  · exact disjointTiles_not_mem hsr h ht.2
  · exact disjointTiles_not_mem hor h ht.2

theorem mul_assoc_equiv (s o r : Sol) (hs : SolWF s) (ho : SolWF o) (hr : SolWF r)
    (hso : disjointTiles s o) (hsr : disjointTiles s r) (hor : disjointTiles o r) :
    equiv (mul (mul s o) r) (mul s (mul o r)) := by
  have hKso : ∀ a ∈ keys s, ∀ b ∈ keys o, a + b ∈ keys (mul s o) :=
    fun a ha b hb => (mul_keys_mem_keys s o (a + b)).mpr ⟨a, ha, b, hb, rfl⟩
  have hKor : ∀ b ∈ keys o, ∀ c ∈ keys r, b + c ∈ keys (mul o r) :=
    fun b hb c hc => (mul_keys_mem_keys o r (b + c)).mpr ⟨b, hb, c, hc, rfl⟩
  have d12r : disjointTiles (mul s o) r := disjointTiles_mul_left hs ho hsr hor
  have ds23 : disjointTiles s (mul o r) := disjointTiles_mul_right ho hr hso hsr
  refine equiv_of ?_ ?_ ?_ ?_
  · refine Finset.ext fun k => ?_
    rw [mul_keys_mem_keys, mul_keys_mem_keys]
    constructor
    · rintro ⟨x, hx, c, hc, hk⟩
      obtain ⟨a, ha, b, hb, hab⟩ := (mul_keys_mem_keys s o x).mp hx
      refine ⟨a, ha, b + c, hKor b hb c hc, ?_⟩
      rw [← add_assoc, hab]
      exact hk
    · rintro ⟨a, ha, y, hy, hk⟩
      obtain ⟨b, hb, c, hc, hbc⟩ := (mul_keys_mem_keys o r y).mp hy
      refine ⟨a + b, hKso a ha b hb, c, hc, ?_⟩
      rw [add_assoc, hbc]
      exact hk
  · intro k
    rw [mul_N _ r (mulWF hs) hr, mul_N s _ hs (mulWF ho)]
    calc (∑ x in keys (mul s o), ∑ c in keys r,
            if x + c = k then N (mul s o) x * N r c else 0)
        = ∑ x in keys (mul s o), ∑ c in keys r,
            if x + c = k
            then (∑ a in keys s, ∑ b in keys o,
              if a + b = x then N s a * N o b else 0) * N r c
            else 0 :=
          Finset.sum_congr rfl fun x _ => Finset.sum_congr rfl fun c _ => by
            rw [mul_N s o hs ho]
      _ = ∑ a in keys s, ∑ b in keys o, ∑ c in keys r,
            (if a + b + c = k then N s a * N o b * N r c else 0) :=
          triple_expand (keys (mul s o)) (keys s) (keys o) (keys r) k hKso
            (fun a b => N s a * N o b) (fun c => N r c)
      _ = ∑ a in keys s, ∑ b in keys o, ∑ c in keys r,
            (if a + (b + c) = k then N s a * (N o b * N r c) else 0) := by
          refine Finset.sum_congr rfl fun a _ => Finset.sum_congr rfl fun b _ =>
            Finset.sum_congr rfl fun c _ => ?_
          rw [add_assoc, mul_assoc]
      _ = ∑ a in keys s, ∑ y in keys (mul o r),
            if a + y = k
            then N s a * (∑ b in keys o, ∑ c in keys r,
              if b + c = y then N o b * N r c else 0)
            else 0 :=
          (triple_expand_right (keys (mul o r)) (keys s) (keys o) (keys r) k hKor
            (fun b c => N o b * N r c) (fun a => N s a)).symm
      _ = ∑ a in keys s, ∑ y in keys (mul o r),
            if a + y = k then N s a * N (mul o r) y else 0 :=
          Finset.sum_congr rfl fun a _ => Finset.sum_congr rfl fun y _ => by
            rw [mul_N o r ho hr]
  · intro k
    refine Finset.ext fun t => ?_
    rw [mul_dom_mem_keys _ r (mulWF hs) hr, mul_dom_mem_keys s _ hs (mulWF ho)]
    constructor
    · rintro ⟨x, hx, c, hc, hk, hd⟩
      obtain ⟨a, ha, b, hb, hab⟩ := (mul_keys_mem_keys s o x).mp hx
      have hk3 : a + (b + c) = k := by rw [← add_assoc, hab]; exact hk
      rcases hd with hd | hd
      · rw [mul_dom_mem_keys s o hs ho] at hd
        obtain ⟨a1, ha1, b1, hb1, hab1, hd1⟩ := hd
        rcases hd1 with hd1 | hd1
        · exact ⟨a1, ha1, b1 + c, hKor b1 hb1 c hc,
            by rw [← add_assoc, hab1]; exact hk,
            Or.inl hd1⟩
        · refine ⟨a1, ha1, b1 + c, hKor b1 hb1 c hc,
            by rw [← add_assoc, hab1]; exact hk, Or.inr ?_⟩
          rw [mul_dom_mem_keys o r ho hr]
          exact ⟨b1, hb1, c, hc, rfl, Or.inl hd1⟩
      · refine ⟨a, ha, b + c, hKor b hb c hc, hk3, Or.inr ?_⟩
        rw [mul_dom_mem_keys o r ho hr]
        exact ⟨b, hb, c, hc, rfl, Or.inr hd⟩
    · rintro ⟨a, ha, y, hy, hk, hd⟩
      obtain ⟨b, hb, c, hc, hbc⟩ := (mul_keys_mem_keys o r y).mp hy
      have hk3 : a + b + c = k := by rw [add_assoc, hbc]; exact hk
      rcases hd with hd | hd
      · refine ⟨a + b, hKso a ha b hb, c, hc, hk3, Or.inl ?_⟩
        rw [mul_dom_mem_keys s o hs ho]
        exact ⟨a, ha, b, hb, rfl, Or.inl hd⟩
      · rw [mul_dom_mem_keys o r ho hr] at hd
        obtain ⟨b1, hb1, c1, hc1, hbc1, hd1⟩ := hd
        rcases hd1 with hd1 | hd1
        · refine ⟨a + b1, hKso a ha b1 hb1, c1, hc1,
            by rw [add_assoc, hbc1]; exact hk, Or.inl ?_⟩
          rw [mul_dom_mem_keys s o hs ho]
          exact ⟨a, ha, b1, hb1, rfl, Or.inr hd1⟩
        · exact ⟨a + b1, hKso a ha b1 hb1, c1, hc1,
            by rw [add_assoc, hbc1]; exact hk, Or.inr hd1⟩
  · intro k t
    have hL : F (mul (mul s o) r) k t
        = (∑ a in keys s, ∑ b in keys o, ∑ c in keys r,
            (if a + b + c = k
              then (F s a t * N o b + F o b t * N s a) * N r c else 0))
          + (∑ a in keys s, ∑ b in keys o, ∑ c in keys r,
            (if a + b + c = k then N s a * N o b * F r c t else 0)) := by
      rw [mul_F_disjoint _ r (mulWF hs) hr d12r]
      calc (∑ x in keys (mul s o), ∑ c in keys r,
              if x + c = k
              then F (mul s o) x t * N r c + F r c t * N (mul s o) x else 0)
          = ∑ x in keys (mul s o), ∑ c in keys r,
              ((if x + c = k
                then (∑ a in keys s, ∑ b in keys o,
                  if a + b = x then F s a t * N o b + F o b t * N s a else 0)
                    * N r c
                else 0)
              + (if x + c = k
                then (∑ a in keys s, ∑ b in keys o,
                  if a + b = x then N s a * N o b else 0) * F r c t
                else 0)) :=
            Finset.sum_congr rfl fun x _ => Finset.sum_congr rfl fun c _ => by
              rw [mul_F_disjoint s o hs ho hso, mul_N s o hs ho,
                mul_comm (F r c t), ite_add_split (P := x + c = k)]
        _ = (∑ x in keys (mul s o), ∑ c in keys r,
              if x + c = k
              then (∑ a in keys s, ∑ b in keys o,
                if a + b = x then F s a t * N o b + F o b t * N s a else 0)
                  * N r c
              else 0)
            + (∑ x in keys (mul s o), ∑ c in keys r,
              if x + c = k
              then (∑ a in keys s, ∑ b in keys o,
                if a + b = x then N s a * N o b else 0) * F r c t
              else 0) := sum2_add_distrib _ _ _ _
        _ = _ := by
            rw [triple_expand (keys (mul s o)) (keys s) (keys o) (keys r) k hKso
                (fun a b => F s a t * N o b + F o b t * N s a) (fun c => N r c),
              triple_expand (keys (mul s o)) (keys s) (keys o) (keys r) k hKso
                (fun a b => N s a * N o b) (fun c => F r c t)]
    have hR : F (mul s (mul o r)) k t
        = (∑ a in keys s, ∑ b in keys o, ∑ c in keys r,
            (if a + (b + c) = k then F s a t * (N o b * N r c) else 0))
          + (∑ a in keys s, ∑ b in keys o, ∑ c in keys r,
            (if a + (b + c) = k
              then N s a * (F o b t * N r c + F r c t * N o b) else 0)) := by
      rw [mul_F_disjoint s _ hs (mulWF ho) ds23]
      calc (∑ a in keys s, ∑ y in keys (mul o r),
              if a + y = k
              then F s a t * N (mul o r) y + F (mul o r) y t * N s a else 0)
          = ∑ a in keys s, ∑ y in keys (mul o r),
              ((if a + y = k
                then F s a t * (∑ b in keys o, ∑ c in keys r,
                  if b + c = y then N o b * N r c else 0)
                else 0)
              + (if a + y = k
                then N s a * (∑ b in keys o, ∑ c in keys r,
                  if b + c = y then F o b t * N r c + F r c t * N o b else 0)
                else 0)) :=
            Finset.sum_congr rfl fun a _ => Finset.sum_congr rfl fun y _ => by
              rw [mul_comm (F (mul o r) y t) (N s a), mul_N o r ho hr,
                mul_F_disjoint o r ho hr hor, ite_add_split (P := a + y = k)]
        _ = (∑ a in keys s, ∑ y in keys (mul o r),
              if a + y = k
              then F s a t * (∑ b in keys o, ∑ c in keys r,
                if b + c = y then N o b * N r c else 0)
              else 0)
            + (∑ a in keys s, ∑ y in keys (mul o r),
              if a + y = k
              then N s a * (∑ b in keys o, ∑ c in keys r,
                if b + c = y then F o b t * N r c + F r c t * N o b else 0)
              else 0) := sum2_add_distrib _ _ _ _
        _ = _ := by
            rw [triple_expand_right (keys (mul o r)) (keys s) (keys o) (keys r) k
                hKor (fun b c => N o b * N r c) (fun a => F s a t),
              triple_expand_right (keys (mul o r)) (keys s) (keys o) (keys r) k
                hKor (fun b c => F o b t * N r c + F r c t * N o b)
                (fun a => N s a)]
    rw [hL, hR, ← sum3_add_distrib, ← sum3_add_distrib]
    refine Finset.sum_congr rfl fun a _ => Finset.sum_congr rfl fun b _ =>
      Finset.sum_congr rfl fun c _ => ?_
    by_cases h : a + b + c = k
    · have h3 : a + (b + c) = k := by rw [← add_assoc]; exact h
      rw [if_pos h, if_pos h, if_pos h3, if_pos h3]
      ring
    · have h3 : ¬a + (b + c) = k := by rw [← add_assoc]; exact h
      rw [if_neg h, if_neg h, if_neg h3, if_neg h3]

theorem mul_add_distrib_equiv (s o r : Sol) (hs : SolWF s) (ho : SolWF o)
    (hr : SolWF r) (hsr : disjointTiles s r) (hor : disjointTiles o r) :
    equiv (mul (add s o) r) (add (mul s r) (mul o r)) := by
  have dar : disjointTiles (add s o) r := disjointTiles_add_left hs ho hsr hor
  refine equiv_of ?_ ?_ ?_ ?_
  · refine Finset.ext fun k => ?_
    rw [mul_keys_mem_keys (add s o) r k, add_keys s o,
      add_keys (mul s r) (mul o r), Finset.mem_union,
      mul_keys_mem_keys s r k, mul_keys_mem_keys o r k]
    constructor
    · rintro ⟨x, hx, c, hc, hk⟩
      rcases Finset.mem_union.mp hx with h | h
      · exact Or.inl ⟨x, h, c, hc, hk⟩
      · exact Or.inr ⟨x, h, c, hc, hk⟩
    · rintro (⟨x, hx, c, hc, hk⟩ | ⟨x, hx, c, hc, hk⟩)
      · exact ⟨x, Finset.mem_union_left _ hx, c, hc, hk⟩
      · exact ⟨x, Finset.mem_union_right _ hx, c, hc, hk⟩
  · intro k
    rw [mul_N _ r (addWF hs ho) hr, add_N (mul s r) (mul o r) (mulWF ho).1,
      mul_N s r hs hr, mul_N o r ho hr]
    calc (∑ x in keys (add s o), ∑ c in keys r,
            if x + c = k then N (add s o) x * N r c else 0)
        = ∑ x in keys (add s o), ∑ c in keys r,
            ((if x + c = k then N s x * N r c else 0)
              + (if x + c = k then N o x * N r c else 0)) :=
          Finset.sum_congr rfl fun x _ => Finset.sum_congr rfl fun c _ => by
            rw [add_N s o ho.1, add_mul, ite_add_split (P := x + c = k)]
      _ = (∑ x in keys (add s o), ∑ c in keys r,
            (if x + c = k then N s x * N r c else 0))
          + (∑ x in keys (add s o), ∑ c in keys r,
            (if x + c = k then N o x * N r c else 0)) := sum2_add_distrib _ _ _ _
      _ = (∑ x in keys s, ∑ c in keys r, (if x + c = k then N s x * N r c else 0))
          + (∑ x in keys o, ∑ c in keys r,
            (if x + c = k then N o x * N r c else 0)) := by
          rw [add_keys s o]
          have h1 : (∑ x in keys s ∪ keys o, ∑ c in keys r,
              (if x + c = k then N s x * N r c else 0))
              = ∑ x in keys s, ∑ c in keys r,
                (if x + c = k then N s x * N r c else 0) :=
            (Finset.sum_subset Finset.subset_union_left fun x _ hx =>
              Finset.sum_eq_zero fun c _ => by
                rw [N_not_mem hx, zero_mul, ite_self]).symm
          have h2 : (∑ x in keys s ∪ keys o, ∑ c in keys r,
              (if x + c = k then N o x * N r c else 0))
              = ∑ x in keys o, ∑ c in keys r,
                (if x + c = k then N o x * N r c else 0) :=
            (Finset.sum_subset Finset.subset_union_right fun x _ hx =>
              Finset.sum_eq_zero fun c _ => by
                rw [N_not_mem hx, zero_mul, ite_self]).symm
          rw [h1, h2]
  · intro k
    refine Finset.ext fun t => ?_
    rw [mul_dom_mem_keys (add s o) r (addWF hs ho) hr,
      add_dom (mul s r) (mul o r) (mulWF ho).1, Finset.mem_union,
      mul_dom_mem_keys s r hs hr, mul_dom_mem_keys o r ho hr]
    constructor
    · rintro ⟨x, hx, c, hc, hk, hd⟩
      rcases hd with hd | hd
      · rw [add_dom s o ho.1, Finset.mem_union] at hd
        rcases hd with hd | hd
        · exact Or.inl ⟨x, mem_keys_of_mem_dom hd, c, hc, hk, Or.inl hd⟩
        · exact Or.inr ⟨x, mem_keys_of_mem_dom hd, c, hc, hk, Or.inl hd⟩
      · rw [add_keys s o, Finset.mem_union] at hx
        rcases hx with h | h
        · exact Or.inl ⟨x, h, c, hc, hk, Or.inr hd⟩
        · exact Or.inr ⟨x, h, c, hc, hk, Or.inr hd⟩
    · rintro (⟨x, hx, c, hc, hk, hd⟩ | ⟨x, hx, c, hc, hk, hd⟩)
      · refine ⟨x, by rw [add_keys s o]; exact Finset.mem_union_left _ hx,
          c, hc, hk, ?_⟩
        rcases hd with hd | hd
        · exact Or.inl (by rw [add_dom s o ho.1]; exact Finset.mem_union_left _ hd)
        · exact Or.inr hd
      · refine ⟨x, by rw [add_keys s o]; exact Finset.mem_union_right _ hx,
          c, hc, hk, ?_⟩
        rcases hd with hd | hd
        · exact Or.inl (by rw [add_dom s o ho.1]; exact Finset.mem_union_right _ hd)
        · exact Or.inr hd
  · intro k t
    rw [mul_F_disjoint _ r (addWF hs ho) hr dar,
      add_F (mul s r) (mul o r) (mulWF ho), mul_F_disjoint s r hs hr hsr,
      mul_F_disjoint o r ho hr hor]
    calc (∑ x in keys (add s o), ∑ c in keys r,
            if x + c = k
            then F (add s o) x t * N r c + F r c t * N (add s o) x else 0)
        = ∑ x in keys (add s o), ∑ c in keys r,
            ((if x + c = k then F s x t * N r c + F r c t * N s x else 0)
              + (if x + c = k then F o x t * N r c + F r c t * N o x else 0)) :=
          Finset.sum_congr rfl fun x _ => Finset.sum_congr rfl fun c _ => by
            rw [add_F s o ho, add_N s o ho.1,
              show (F s x t + F o x t) * N r c + F r c t * (N s x + N o x)
                  = (F s x t * N r c + F r c t * N s x)
                    + (F o x t * N r c + F r c t * N o x) from by ring,
              ite_add_split (P := x + c = k)]
      _ = (∑ x in keys (add s o), ∑ c in keys r,
            (if x + c = k then F s x t * N r c + F r c t * N s x else 0))
          + (∑ x in keys (add s o), ∑ c in keys r,
            (if x + c = k then F o x t * N r c + F r c t * N o x else 0)) :=
          sum2_add_distrib _ _ _ _
      _ = (∑ x in keys s, ∑ c in keys r,
            (if x + c = k then F s x t * N r c + F r c t * N s x else 0))
          + (∑ x in keys o, ∑ c in keys r,
            (if x + c = k then F o x t * N r c + F r c t * N o x else 0)) := by
          rw [add_keys s o]
          have h1 : (∑ x in keys s ∪ keys o, ∑ c in keys r,
              (if x + c = k then F s x t * N r c + F r c t * N s x else 0))
              = ∑ x in keys s, ∑ c in keys r,
                (if x + c = k then F s x t * N r c + F r c t * N s x else 0) :=
            (Finset.sum_subset Finset.subset_union_left fun x _ hx =>
              Finset.sum_eq_zero fun c _ => by
                rw [N_not_mem hx, F_not_mem_keys hx, zero_mul, mul_zero,
                  add_zero, ite_self]).symm
          have h2 : (∑ x in keys s ∪ keys o, ∑ c in keys r,
              (if x + c = k then F o x t * N r c + F r c t * N o x else 0))
              = ∑ x in keys o, ∑ c in keys r,
                (if x + c = k then F o x t * N r c + F r c t * N o x else 0) :=
            (Finset.sum_subset Finset.subset_union_right fun x _ hx =>
              Finset.sum_eq_zero fun c _ => by
                rw [N_not_mem hx, F_not_mem_keys hx, zero_mul, mul_zero,
                  add_zero, ite_self]).symm
          rw [h1, h2]

end Sol

theorem mem_keys_cbf_fold (u bombs : ℤ) (sol : Sol) (acc : List (Tile × ℤ) × ℤ)
    (k : Tile) (h : k ∈ acc.1.map Prod.fst) :
    k ∈ ((sol.foldl (cbfStep u bombs) acc).1.map Prod.fst) := by
  induction sol generalizing acc with
  | nil => exact h
  | cons p rest ih =>
    rw [List.foldl_cons]
    refine ih _ ?_
    show k ∈ (dset (cbfInner (comb u (bombs - p.1)) acc.1 p.2.1) (-1, -1) _).map
      Prod.fst
    exact mem_keys_dset _ _ _ _ (mem_keys_cbfInner _ _ _ _ h)

theorem cbf_sentinel_mem (u bombs : ℤ) (sol : Sol) (acc : List (Tile × ℤ) × ℤ)
    (h : sol ≠ []) :
    ((-1 : ℤ), (-1 : ℤ)) ∈ ((sol.foldl (cbfStep u bombs) acc).1.map Prod.fst) := by
  match sol with
  | [] => exact absurd rfl h
  | p :: rest =>
    rw [List.foldl_cons]
    refine mem_keys_cbf_fold _ _ _ _ _ ?_
    show ((-1 : ℤ), (-1 : ℤ)) ∈
      (dset (cbfInner (comb u (bombs - p.1)) acc.1 p.2.1) (-1, -1) _).map Prod.fst
    exact mem_keys_dset_self _ _ _

/-! ### Spec-side lemmas: tile sets, satisfaction, layouts -/

theorem mem_tilesList {s : Finset Tile} {t : Tile} : t ∈ tilesList s ↔ t ∈ s := by
  rcases s with ⟨val, hnd⟩
  induction val using Quotient.inductionOn with
  | h l =>
    show t ∈ l.insertionSort tileLE ↔ _
    rw [(List.perm_insertionSort tileLE l).mem_iff]
    exact Iff.rfl

theorem tilesList_nodup (s : Finset Tile) : (tilesList s).Nodup := by
  rcases s with ⟨val, hnd⟩
  induction val using Quotient.inductionOn with
  | h l =>
    show (l.insertionSort tileLE).Nodup
    exact (List.perm_insertionSort tileLE l).nodup_iff.mpr hnd

theorem tileSet_nil : tileSet [] = ∅ := rfl

theorem tileSet_cons (e : BombEq) (G : List BombEq) :
    tileSet (e :: G) = e.tiles ∪ tileSet G := rfl

theorem tileSet_append (G₁ G₂ : List BombEq) :
    tileSet (G₁ ++ G₂) = tileSet G₁ ∪ tileSet G₂ := by
  induction G₁ with
  | nil => rw [List.nil_append, tileSet_nil, Finset.empty_union]
  | cons e G ih =>
    rw [List.cons_append, tileSet_cons, tileSet_cons, ih, Finset.union_assoc]

theorem mem_tileSet {G : List BombEq} {t : Tile} :
    t ∈ tileSet G ↔ ∃ e ∈ G, t ∈ e.tiles := by
  induction G with
  | nil => simp [tileSet_nil]
  | cons e G ih =>
    rw [tileSet_cons, Finset.mem_union, ih]
    simp [List.mem_cons, or_and_right, exists_or]

theorem tiles_subset_tileSet {G : List BombEq} {e : BombEq} (h : e ∈ G) :
    e.tiles ⊆ tileSet G := fun t ht => mem_tileSet.mpr ⟨e, h, ht⟩

theorem tileSet_perm {G G' : List BombEq} (h : G.Perm G') :
    tileSet G = tileSet G' := by
  refine Finset.ext fun t => ?_
  rw [mem_tileSet, mem_tileSet]
  constructor
  · rintro ⟨e, he, ht⟩
    exact ⟨e, h.mem_iff.mp he, ht⟩
  · rintro ⟨e, he, ht⟩
    exact ⟨e, h.mem_iff.mpr he, ht⟩

theorem satAll_nil (A : Finset Tile) : satAll A [] := fun e he => absurd he (List.not_mem_nil e)

theorem satAll_cons {A : Finset Tile} {e : BombEq} {G : List BombEq} :
    satAll A (e :: G) ↔ satisfies A e ∧ satAll A G := by
  constructor
  · intro h
    exact ⟨h e (List.mem_cons_self e G), fun f hf => h f (List.mem_cons_of_mem e hf)⟩
  · rintro ⟨h1, h2⟩ f hf
    rcases List.mem_cons.mp hf with rfl | hf
    · exact h1
    · exact h2 f hf

theorem satAll_append {A : Finset Tile} {G₁ G₂ : List BombEq} :
    satAll A (G₁ ++ G₂) ↔ satAll A G₁ ∧ satAll A G₂ := by
  constructor
  · intro h
    exact ⟨fun e he => h e (List.mem_append_left _ he),
      fun e he => h e (List.mem_append_right _ he)⟩
  · rintro ⟨h1, h2⟩ e he
    rcases List.mem_append.mp he with he | he
    · exact h1 e he
    · exact h2 e he

theorem satAll_perm {A : Finset Tile} {G G' : List BombEq} (h : G.Perm G') :
    satAll A G ↔ satAll A G' :=
  ⟨fun hs e he => hs e (h.mem_iff.mpr he), fun hs e he => hs e (h.mem_iff.mp he)⟩

theorem layouts_perm {G G' : List BombEq} (h : G.Perm G') (k : ℤ) :
    layouts G k = layouts G' k := by
  unfold layouts
  rw [tileSet_perm h]
  exact Finset.filter_congr fun A _ => by rw [satAll_perm h]

theorem specN_perm {G G' : List BombEq} (h : G.Perm G') (k : ℤ) :
    specN G k = specN G' k := by
  unfold specN
  rw [layouts_perm h]

theorem specF_perm {G G' : List BombEq} (h : G.Perm G') (k : ℤ) (t : Tile) :
    specF G k t = specF G' k t := by
  unfold specF
  rw [layouts_perm h]

theorem specN_nil (k : ℤ) : specN [] k = if k = 0 then 1 else 0 := by
  unfold specN layouts
  rw [tileSet_nil, Finset.powerset_empty, Finset.filter_singleton]
  by_cases hk : k = 0
  · subst hk
    rw [if_pos ⟨satAll_nil ∅, by simp⟩]
    rfl
  · rw [if_neg fun hc => hk (by simpa using hc.2.symm), if_neg hk]
    rfl

theorem specF_nil (k : ℤ) (t : Tile) : specF [] k t = 0 := by
  unfold specF layouts
  rw [tileSet_nil, Finset.powerset_empty, Finset.filter_singleton]
  by_cases hc : satAll ∅ [] ∧ ((∅ : Finset Tile).card : ℤ) = k
  · rw [if_pos hc, Finset.filter_singleton, if_neg (Finset.not_mem_empty t)]
    rfl
  · rw [if_neg hc]
    rfl

theorem mem_layouts {G : List BombEq} {k : ℤ} {A : Finset Tile} :
    A ∈ layouts G k ↔ A ⊆ tileSet G ∧ satAll A G ∧ (A.card : ℤ) = k := by
  unfold layouts
  rw [Finset.mem_filter, Finset.mem_powerset]

theorem specN_support {G : List BombEq} {k : ℤ}
    (h : ¬(0 ≤ k ∧ k ≤ ((tileSet G).card : ℤ))) : specN G k = 0 := by
  unfold specN
  rw [Finset.card_eq_zero.mpr (Finset.eq_empty_iff_forall_not_mem.mpr fun A hA => ?_)]
  · rfl
  · rw [mem_layouts] at hA
    refine h ⟨?_, ?_⟩
    · rw [← hA.2.2]
      exact Int.ofNat_nonneg A.card
    · rw [← hA.2.2]
      exact Int.ofNat_le.mpr (Finset.card_le_card hA.1)

theorem specF_support {G : List BombEq} {k : ℤ} (t : Tile)
    (h : ¬(0 ≤ k ∧ k ≤ ((tileSet G).card : ℤ))) : specF G k t = 0 := by
  unfold specF
  rw [Finset.card_eq_zero.mpr (Finset.eq_empty_iff_forall_not_mem.mpr fun A hA => ?_)]
  · rfl
  · rw [Finset.mem_filter, mem_layouts] at hA
    refine h ⟨?_, ?_⟩
    · rw [← hA.1.2.2]
      exact Int.ofNat_nonneg A.card
    · rw [← hA.1.2.2]
      exact Int.ofNat_le.mpr (Finset.card_le_card hA.1.1)

theorem specF_not_mem_tileSet {G : List BombEq} {k : ℤ} {t : Tile}
    (h : t ∉ tileSet G) : specF G k t = 0 := by
  unfold specF
  rw [Finset.card_eq_zero.mpr (Finset.eq_empty_iff_forall_not_mem.mpr fun A hA => ?_)]
  · rfl
  · rw [Finset.mem_filter, mem_layouts] at hA
    exact h (hA.1.1 hA.2)

theorem satisfies_congr_inter {A B : Finset Tile} {e : BombEq}
    (h : e.tiles ∩ A = e.tiles ∩ B) : satisfies A e ↔ satisfies B e := by
  unfold satisfies
  rw [h]

theorem satisfies_insert_not_mem {A : Finset Tile} {e : BombEq} {t : Tile}
    (h : t ∉ e.tiles) : satisfies (insert t A) e ↔ satisfies A e :=
  satisfies_congr_inter (Finset.inter_insert_of_not_mem h)

theorem satisfies_erase_not_mem {A : Finset Tile} {e : BombEq} {t : Tile}
    (h : t ∉ e.tiles) : satisfies (A.erase t) e ↔ satisfies A e :=
  satisfies_congr_inter (by
    refine Finset.ext fun x => ?_
    simp only [Finset.mem_inter, Finset.mem_erase]
    constructor
    · rintro ⟨hx1, _, hx2⟩
      exact ⟨hx1, hx2⟩
    · rintro ⟨hx1, hx2⟩
      exact ⟨hx1, fun hxt => h (hxt ▸ hx1), hx2⟩)

theorem satAll_erase_store {A : Finset Tile} {store : List BombEq} {lit : BombEq}
    (h : lit ∈ store) :
    satAll A store ↔ satAll A (store.erase lit) ∧ satisfies A lit := by
  rw [satAll_perm (List.perm_cons_erase h), satAll_cons, and_comm]

/-! ### Disjoint-area convolution of spec counts -/

theorem conv_sum_extend (S S' T T' : Finset ℤ) (m : ℤ → ℤ → ℤ) (k : ℤ)
    (hS : ∀ a ∈ S', a ∉ S → ∀ b, m a b = 0)
    (hT : ∀ a, ∀ b ∈ T', b ∉ T → m a b = 0) :
    (∑ a in S ∪ S', ∑ b in T ∪ T', if a + b = k then m a b else 0)
      = ∑ a in S, ∑ b in T, if a + b = k then m a b else 0 := by
  have hinner : ∀ a : ℤ, (∑ b in T ∪ T', if a + b = k then m a b else 0)
      = ∑ b in T, if a + b = k then m a b else 0 :=
    fun a => (Finset.sum_subset Finset.subset_union_left fun b hb hbn => by
      rcases Finset.mem_union.mp hb with hb | hb
      · exact absurd hb hbn
      · rw [hT a b hb hbn, ite_self]).symm
  rw [Finset.sum_congr rfl fun a _ => hinner a]
  exact (Finset.sum_subset Finset.subset_union_left fun a ha han => by
    rcases Finset.mem_union.mp ha with ha | ha
    · exact absurd ha han
    · exact Finset.sum_eq_zero fun b _ => by rw [hS a ha han b, ite_self]).symm

theorem conv_index_congr (S S' T T' : Finset ℤ) (f g : ℤ → ℤ) (k : ℤ)
    (hS : ∀ a, f a ≠ 0 → a ∈ S) (hS' : ∀ a, f a ≠ 0 → a ∈ S')
    (hT : ∀ b, g b ≠ 0 → b ∈ T) (hT' : ∀ b, g b ≠ 0 → b ∈ T') :
    (∑ a in S, ∑ b in T, if a + b = k then f a * g b else 0)
      = ∑ a in S', ∑ b in T', if a + b = k then f a * g b else 0 := by
  have h1 : (∑ a in S ∪ S', ∑ b in T ∪ T', if a + b = k then f a * g b else 0)
      = ∑ a in S, ∑ b in T, if a + b = k then f a * g b else 0 :=
    conv_sum_extend S S' T T' (fun a b => f a * g b) k
      (fun a _ han b => by
        show f a * g b = 0
        rw [show f a = 0 from by_contra fun hc => han (hS a hc), zero_mul])
      (fun a b _ hbn => by
        show f a * g b = 0
        rw [show g b = 0 from by_contra fun hc => hbn (hT b hc), mul_zero])
  have h2 : (∑ a in S' ∪ S, ∑ b in T' ∪ T, if a + b = k then f a * g b else 0)
      = ∑ a in S', ∑ b in T', if a + b = k then f a * g b else 0 :=
    conv_sum_extend S' S T' T (fun a b => f a * g b) k
      (fun a _ han b => by
        show f a * g b = 0
        rw [show f a = 0 from by_contra fun hc => han (hS' a hc), zero_mul])
      (fun a b _ hbn => by
        show f a * g b = 0
        rw [show g b = 0 from by_contra fun hc => hbn (hT' b hc), mul_zero])
  rw [← h1, ← h2, Finset.union_comm S S', Finset.union_comm T T']

theorem subset_union_inter_split {X T₁ T₂ : Finset Tile} (hX : X ⊆ T₁ ∪ T₂) :
    X = (X ∩ T₁) ∪ (X ∩ T₂) := by
  rw [← Finset.inter_union_distrib_left, Finset.inter_eq_left.mpr hX]

theorem inter_parts_disjoint {X T₁ T₂ : Finset Tile} (hdisj : T₁ ∩ T₂ = ∅) :
    Disjoint (X ∩ T₁) (X ∩ T₂) := by
  rw [Finset.disjoint_left]
  intro x hx1 hx2
  have : x ∈ T₁ ∩ T₂ :=
    Finset.mem_inter.mpr ⟨(Finset.mem_inter.mp hx1).2, (Finset.mem_inter.mp hx2).2⟩
  rw [hdisj] at this
  exact Finset.not_mem_empty x this

theorem satAll_inter {X : Finset Tile} {G : List BombEq} {T : Finset Tile}
    (hT : tileSet G ⊆ T) : satAll (X ∩ T) G ↔ satAll X G := by
  constructor
  · intro h e he
    refine (satisfies_congr_inter ?_).mp (h e he)
    refine Finset.ext fun x => ?_
    simp only [Finset.mem_inter]
    exact ⟨fun hh => ⟨hh.1, hh.2.1⟩,
      fun hh => ⟨hh.1, hh.2, hT (tiles_subset_tileSet he hh.1)⟩⟩
  · intro h e he
    refine (satisfies_congr_inter ?_).mp (h e he)
    refine Finset.ext fun x => ?_
    simp only [Finset.mem_inter]
    exact ⟨fun hh => ⟨hh.1, hh.2, hT (tiles_subset_tileSet he hh.1)⟩,
      fun hh => ⟨hh.1, hh.2.1⟩⟩

theorem satAll_union_right {A₁ A₂ : Finset Tile} {G : List BombEq}
    (h : ∀ x ∈ A₂, x ∉ tileSet G) : satAll (A₁ ∪ A₂) G ↔ satAll A₁ G := by
  constructor
  · intro hs e he
    refine (satisfies_congr_inter ?_).mp (hs e he)
    refine Finset.ext fun x => ?_
    simp only [Finset.mem_inter, Finset.mem_union]
    constructor
    · rintro ⟨hx1, hx2 | hx2⟩
      · exact ⟨hx1, hx2⟩
      · exact absurd (tiles_subset_tileSet he hx1) (h x hx2)
    · rintro ⟨hx1, hx2⟩
      exact ⟨hx1, Or.inl hx2⟩
  · intro hs e he
    refine (satisfies_congr_inter ?_).mp (hs e he)
    refine Finset.ext fun x => ?_
    simp only [Finset.mem_inter, Finset.mem_union]
    constructor
    · rintro ⟨hx1, hx2⟩
      exact ⟨hx1, Or.inl hx2⟩
    · rintro ⟨hx1, hx2 | hx2⟩
      · exact ⟨hx1, hx2⟩
      · exact absurd (tiles_subset_tileSet he hx1) (h x hx2)

theorem satAll_union_left {A₁ A₂ : Finset Tile} {G : List BombEq}
    (h : ∀ x ∈ A₁, x ∉ tileSet G) : satAll (A₁ ∪ A₂) G ↔ satAll A₂ G := by
  rw [Finset.union_comm]
  exact satAll_union_right h

theorem layouts_append_eq (G₁ G₂ : List BombEq)
    (hdisj : tileSet G₁ ∩ tileSet G₂ = ∅) (k : ℤ) :
    layouts (G₁ ++ G₂) k
      = (Finset.Icc (0 : ℤ) ((tileSet G₁).card : ℤ)).biUnion fun a =>
          (layouts G₁ a).biUnion fun A₁ =>
            (layouts G₂ (k - a)).image fun A₂ => A₁ ∪ A₂ := by
  refine Finset.ext fun X => ?_
  rw [mem_layouts, Finset.mem_biUnion]
  constructor
  · rintro ⟨hXsub, hXsat, hXcard⟩
    rw [tileSet_append] at hXsub
    rw [satAll_append] at hXsat
    have hsplit : X = (X ∩ tileSet G₁) ∪ (X ∩ tileSet G₂) :=
      subset_union_inter_split hXsub
    have hcards : X.card = (X ∩ tileSet G₁).card + (X ∩ tileSet G₂).card := by
      conv_lhs => rw [hsplit]
      exact Finset.card_union_of_disjoint (inter_parts_disjoint hdisj)
    refine ⟨((X ∩ tileSet G₁).card : ℤ), Finset.mem_Icc.mpr
      ⟨Int.ofNat_nonneg _, Int.ofNat_le.mpr
        (Finset.card_le_card Finset.inter_subset_right)⟩, ?_⟩
    rw [Finset.mem_biUnion]
    refine ⟨X ∩ tileSet G₁, ?_, ?_⟩
    · rw [mem_layouts]
      exact ⟨Finset.inter_subset_right, (satAll_inter subset_rfl).mpr hXsat.1, rfl⟩
    · rw [Finset.mem_image]
      refine ⟨X ∩ tileSet G₂, ?_, hsplit.symm⟩
      rw [mem_layouts]
      refine ⟨Finset.inter_subset_right, (satAll_inter subset_rfl).mpr hXsat.2, ?_⟩
      have : (X.card : ℤ) = ((X ∩ tileSet G₁).card : ℤ) + ((X ∩ tileSet G₂).card : ℤ) := by
        rw [hcards]
        push_cast
        ring
      omega
  · rintro ⟨a, ha, hX⟩
    rw [Finset.mem_biUnion] at hX
    obtain ⟨A₁, hA₁, hX⟩ := hX
    rw [Finset.mem_image] at hX
    obtain ⟨A₂, hA₂, rfl⟩ := hX
    rw [mem_layouts] at hA₁ hA₂
    obtain ⟨hA₁sub, hA₁sat, hA₁card⟩ := hA₁
    obtain ⟨hA₂sub, hA₂sat, hA₂card⟩ := hA₂
    have hd12 : Disjoint A₁ A₂ := by
      rw [Finset.disjoint_left]
      intro x hx1 hx2
      have : x ∈ tileSet G₁ ∩ tileSet G₂ :=
        Finset.mem_inter.mpr ⟨hA₁sub hx1, hA₂sub hx2⟩
      rw [hdisj] at this
      exact Finset.not_mem_empty x this
    refine ⟨?_, ?_, ?_⟩
    · rw [tileSet_append]
      exact Finset.union_subset (hA₁sub.trans Finset.subset_union_left)
        (hA₂sub.trans Finset.subset_union_right)
    · rw [satAll_append]
      constructor
      · refine (satAll_union_right fun x hx => ?_).mpr hA₁sat
        intro hxt
        have : x ∈ tileSet G₁ ∩ tileSet G₂ := Finset.mem_inter.mpr ⟨hxt, hA₂sub hx⟩
        rw [hdisj] at this
        exact Finset.not_mem_empty x this
      · refine (satAll_union_left fun x hx => ?_).mpr hA₂sat
        intro hxt
        have : x ∈ tileSet G₁ ∩ tileSet G₂ := Finset.mem_inter.mpr ⟨hA₁sub hx, hxt⟩
        rw [hdisj] at this
        exact Finset.not_mem_empty x this
    · rw [Finset.card_union_of_disjoint hd12]
      push_cast
      omega

namespace BombEq

theorem le_bombs_head {new old : BombEq} (h : le new old) :
    new.bombs = [new.bombs.headI] := by
  obtain ⟨a, ha⟩ := List.length_eq_one.mp h.2
  rw [ha]
  rfl

theorem sub_tiles (x y : BombEq) : (x.sub y).tiles = x.tiles \ y.tiles := rfl

theorem sub_bombs_mem (x y : BombEq) (v : ℤ) :
    v ∈ (x.sub y).bombs ↔
      (∃ u ∈ x.bombs, u - y.bombs.headI = v) ∧
        0 ≤ v ∧ v ≤ ((x.tiles \ y.tiles).card : ℤ) := by
  show v ∈ (ofFinset (x.tiles \ y.tiles) (x.bombs.map fun u => u - y.bombs.headI)).bombs ↔ _
  unfold ofFinset
  simp only [List.mem_filter, List.mem_map, decide_eq_true_eq]

theorem EqC_sub {x : BombEq} (y : BombEq) (hx : EqC x) : EqC (x.sub y) := by
  constructor
  · show ((x.bombs.map fun u => u - y.bombs.headI).filter _).Nodup
    exact (hx.1.map fun a b hab => by omega).filter _
  · intro b hb
    rw [sub_bombs_mem] at hb
    rw [sub_tiles]
    exact hb.2

theorem card_inter_split {old new : BombEq} (hsub : new.tiles ⊆ old.tiles)
    (A : Finset Tile) :
    (old.tiles ∩ A).card
      = ((old.tiles \ new.tiles) ∩ A).card + (new.tiles ∩ A).card := by
  have hdecomp : old.tiles ∩ A = ((old.tiles \ new.tiles) ∩ A) ∪ (new.tiles ∩ A) := by
    rw [← Finset.union_inter_distrib_right, Finset.sdiff_union_of_subset hsub]
  rw [hdecomp, Finset.card_union_of_disjoint]
  exact Finset.disjoint_left.mpr fun a ha hb =>
    (Finset.mem_sdiff.mp (Finset.mem_inter.mp ha).1).2 (Finset.mem_inter.mp hb).1

theorem satisfies_sub {A : Finset Tile} {old new : BombEq} (h : le new old)
    (hb : satisfies A new) : satisfies A old ↔ satisfies A (old.sub new) := by
  have hbs := le_bombs_head h
  have hcount : ((new.tiles ∩ A).card : ℤ) = new.bombs.headI := by
    unfold satisfies at hb
    rw [hbs] at hb
    simpa using hb
  have hsplit := card_inter_split h.1 A
  constructor
  · intro hold
    show (((old.sub new).tiles ∩ A).card : ℤ) ∈ (old.sub new).bombs
    rw [sub_tiles, sub_bombs_mem]
    refine ⟨⟨((old.tiles ∩ A).card : ℤ), hold, ?_⟩, ?_, ?_⟩
    · have : ((old.tiles ∩ A).card : ℤ)
          = (((old.tiles \ new.tiles) ∩ A).card : ℤ) + ((new.tiles ∩ A).card : ℤ) := by
        rw [hsplit]
        push_cast
        ring
      rw [this, hcount]
      ring
    · exact Int.ofNat_nonneg _
    · exact Int.ofNat_le.mpr (Finset.card_le_card (Finset.inter_subset_left))
  · intro hs
    have hs' := hs
    unfold satisfies at hs'
    rw [sub_tiles] at hs'
    rw [sub_bombs_mem] at hs'
    obtain ⟨⟨u, hu, huv⟩, _, _⟩ := hs'
    show ((old.tiles ∩ A).card : ℤ) ∈ old.bombs
    have : ((old.tiles ∩ A).card : ℤ) = u := by
      have hc : ((old.tiles ∩ A).card : ℤ)
          = (((old.tiles \ new.tiles) ∩ A).card : ℤ) + ((new.tiles ∩ A).card : ℤ) := by
        rw [hsplit]
        push_cast
        ring
      omega
    rw [this]
    exact hu

theorem satisfies_single_mem {A : Finset Tile} {t : Tile} :
    satisfies A (⟨{t}, [1]⟩ : BombEq) ↔ t ∈ A := by
  by_cases h : t ∈ A
  · simp [satisfies, Finset.singleton_inter_of_mem h, h]
  · simp [satisfies, Finset.singleton_inter_of_not_mem h, h]

theorem satisfies_single_not_mem {A : Finset Tile} {t : Tile} :
    satisfies A (⟨{t}, [0]⟩ : BombEq) ↔ t ∉ A := by
  by_cases h : t ∈ A
  · simp [satisfies, Finset.singleton_inter_of_mem h, h]
  · simp [satisfies, Finset.singleton_inter_of_not_mem h, h]

theorem satisfies_single01 {A : Finset Tile} {t : Tile} :
    satisfies A (⟨{t}, [0, 1]⟩ : BombEq) := by
  by_cases h : t ∈ A
  · simp [satisfies, Finset.singleton_inter_of_mem h]
  · simp [satisfies, Finset.singleton_inter_of_not_mem h]

theorem mkBombEq_single (t : Tile) (bs : List ℤ) :
    mkBombEq [t] bs = ⟨{t}, bs.filter fun b => 0 ≤ b ∧ b ≤ 1⟩ := by
  unfold mkBombEq
  have hts : ([t] : List Tile).toFinset = {t} := by simp
  rw [hts]
  simp

theorem mkBombEq_single01 (t : Tile) : mkBombEq [t] [0, 1] = ⟨{t}, [0, 1]⟩ := by
  rw [mkBombEq_single]
  norm_num

theorem mkBombEq_single0 (t : Tile) : mkBombEq [t] [0] = ⟨{t}, [0]⟩ := by
  rw [mkBombEq_single]
  norm_num

theorem mkBombEq_single1 (t : Tile) : mkBombEq [t] [1] = ⟨{t}, [1]⟩ := by
  rw [mkBombEq_single]
  norm_num

theorem bombs_complete {e : BombEq} (hlen : e.bombs.length = e.tiles.card + 1)
    (hc : EqC e) {v : ℤ} (h0 : 0 ≤ v) (h1 : v ≤ (e.tiles.card : ℤ)) :
    v ∈ e.bombs := by
  have hsub : e.bombs.toFinset ⊆ Finset.Icc (0 : ℤ) (e.tiles.card : ℤ) := fun b hb => by
    rcases hc.2 b (List.mem_toFinset.mp hb) with ⟨hb0, hb1⟩
    exact Finset.mem_Icc.mpr ⟨hb0, hb1⟩
  have hcard : e.bombs.toFinset.card = e.tiles.card + 1 := by
    rw [List.toFinset_card_of_nodup hc.1, hlen]
  have hIcc : (Finset.Icc (0 : ℤ) (e.tiles.card : ℤ)).card = e.tiles.card + 1 := by
    rw [Int.card_Icc]
    omega
  have heq : e.bombs.toFinset = Finset.Icc 0 (e.tiles.card : ℤ) :=
    Finset.eq_of_subset_of_card_le hsub (by rw [hcard, hIcc])
  exact List.mem_toFinset.mp (heq ▸ Finset.mem_Icc.mpr ⟨h0, h1⟩)

theorem satAll_split_iff {A : Finset Tile} {e : BombEq} (f : Tile → BombEq) :
    satAll A ((tilesList e.tiles).map f) ↔ ∀ t ∈ e.tiles, satisfies A (f t) := by
  constructor
  · intro h t ht
    exact h (f t) (List.mem_map.mpr ⟨t, mem_tilesList.mpr ht, rfl⟩)
  · intro h g hg
    obtain ⟨t, ht, rfl⟩ := List.mem_map.mp hg
    exact h t (mem_tilesList.mp ht)

theorem satisfies_split {A : Finset Tile} {e : BombEq} (hsp : e.isSplittable)
    (hc : EqC e) : satisfies A e ↔ satAll A e.split := by
  by_cases hlen : e.bombs.length > 1
  · have hlen' : e.bombs.length = e.tiles.card + 1 := by
      rcases hsp.2 with ⟨h1, _⟩ | h2
      · omega
      · exact h2
    rw [show e.split = (tilesList e.tiles).map fun t => mkBombEq [t] [0, 1] from by
      unfold split
      rw [if_pos hlen]]
    rw [satAll_split_iff]
    constructor
    · intro _ t _
      rw [mkBombEq_single01]
      exact satisfies_single01
    · intro _
      exact bombs_complete hlen' hc (Int.ofNat_nonneg _)
        (Int.ofNat_le.mpr (Finset.card_le_card (Finset.inter_subset_left)))
  · have hlen1 : e.bombs.length = 1 := by
      rcases hsp.2 with ⟨h1, _⟩ | h2
      · exact h1
      · omega
    have hsplit_eq : e.split = (tilesList e.tiles).map fun t =>
        mkBombEq [t] [if e.bombs.headI = 0 then 0 else 1] := by
      unfold split
      rw [if_neg hlen]
    have hbs : e.bombs = [e.bombs.headI] := by
      obtain ⟨a, ha⟩ := List.length_eq_one.mp hlen1
      rw [ha]
      rfl
    by_cases hz : e.bombs.headI = 0
    · rw [hsplit_eq, show (if e.bombs.headI = 0 then (0 : ℤ) else 1) = 0 from if_pos hz]
      rw [satAll_split_iff]
      have hsat : satisfies A e ↔ ((e.tiles ∩ A).card : ℤ) = 0 := by
        unfold satisfies
        rw [hbs, hz]
        simp
      rw [hsat]
      constructor
      · intro h t ht
        rw [mkBombEq_single0, satisfies_single_not_mem]
        intro hA
        have : t ∈ e.tiles ∩ A := Finset.mem_inter.mpr ⟨ht, hA⟩
        have hempty : e.tiles ∩ A = ∅ := Finset.card_eq_zero.mp (by exact_mod_cast h)
        rw [hempty] at this
        exact Finset.not_mem_empty t this
      · intro h
        have hempty : e.tiles ∩ A = ∅ := by
          rw [Finset.eq_empty_iff_forall_not_mem]
          intro t ht
          rcases Finset.mem_inter.mp ht with ⟨ht1, ht2⟩
          exact (satisfies_single_not_mem.mp (mkBombEq_single0 t ▸ h t ht1)) ht2
        rw [hempty]
        rfl
    · have hcardv : e.bombs.headI = (e.tiles.card : ℤ) := by
        rcases hsp.2 with ⟨_, hv | hv⟩ | h2
        · exact absurd hv hz
        · exact hv
        · have hcard0 : e.tiles.card = 0 := by omega
          have hmem : e.bombs.headI ∈ e.bombs := by
            rw [hbs]
            exact List.mem_singleton_self _
          have hrange := hc.2 _ hmem
          rw [hcard0] at hrange ⊢
          omega
      rw [hsplit_eq, show (if e.bombs.headI = 0 then (0 : ℤ) else 1) = 1 from if_neg hz]
      rw [satAll_split_iff]
      have hsat : satisfies A e ↔ ((e.tiles ∩ A).card : ℤ) = (e.tiles.card : ℤ) := by
        unfold satisfies
        rw [hbs, hcardv]
        simp
      rw [hsat]
      constructor
      · intro h t ht
        rw [mkBombEq_single1, satisfies_single_mem]
        have hsubs : e.tiles ∩ A = e.tiles :=
          Finset.eq_of_subset_of_card_le (Finset.inter_subset_left)
            (le_of_eq (by exact_mod_cast h.symm))
        have hmem : t ∈ e.tiles ∩ A := by
          rw [hsubs]
          exact ht
        exact (Finset.mem_inter.mp hmem).2
      · intro h
        have hsubs : e.tiles ∩ A = e.tiles := by
          rw [Finset.inter_eq_left]
          intro t ht
          exact satisfies_single_mem.mp (mkBombEq_single1 t ▸ h t ht)
        rw [hsubs]

theorem split_tileSet (e : BombEq) : tileSet e.split = e.tiles := by
  have hmap : ∀ (f : Tile → BombEq), (∀ t, (f t).tiles = {t}) →
      tileSet ((tilesList e.tiles).map f) = e.tiles := by
    intro f hf
    refine Finset.ext fun x => ?_
    rw [mem_tileSet]
    constructor
    · rintro ⟨g, hg, hx⟩
      obtain ⟨t, ht, rfl⟩ := List.mem_map.mp hg
      rw [hf t, Finset.mem_singleton] at hx
      exact hx ▸ mem_tilesList.mp ht
    · intro hx
      exact ⟨f x, List.mem_map.mpr ⟨x, mem_tilesList.mpr hx, rfl⟩, by
        rw [hf x]
        exact Finset.mem_singleton_self x⟩
  unfold split
  by_cases hlen : e.bombs.length > 1
  · rw [if_pos hlen]
    exact hmap _ fun t => by rw [mkBombEq_single01]
  · rw [if_neg hlen]
    refine hmap _ fun t => ?_
    by_cases hz : e.bombs.headI = 0
    · rw [show (if e.bombs.headI = 0 then (0 : ℤ) else 1) = 0 from if_pos hz,
        mkBombEq_single0]
    · rw [show (if e.bombs.headI = 0 then (0 : ℤ) else 1) = 1 from if_neg hz,
        mkBombEq_single1]

theorem split_EqC {e : BombEq} {p : BombEq} (hp : p ∈ e.split) : EqC p := by
  unfold split at hp
  by_cases hlen : e.bombs.length > 1
  · rw [if_pos hlen] at hp
    obtain ⟨t, _, rfl⟩ := List.mem_map.mp hp
    rw [mkBombEq_single01]
    refine ⟨by norm_num, ?_⟩
    intro b hb
    rcases List.mem_cons.mp hb with rfl | hb
    · norm_num
    · rcases List.mem_singleton.mp hb with rfl
      norm_num
  · rw [if_neg hlen] at hp
    obtain ⟨t, _, rfl⟩ := List.mem_map.mp hp
    by_cases hz : e.bombs.headI = 0
    · rw [show (if e.bombs.headI = 0 then (0 : ℤ) else 1) = 0 from if_pos hz,
        mkBombEq_single0]
      refine ⟨List.nodup_singleton 0, ?_⟩
      intro b hb
      rcases List.mem_singleton.mp hb with rfl
      norm_num
    · rw [show (if e.bombs.headI = 0 then (0 : ℤ) else 1) = 1 from if_neg hz,
        mkBombEq_single1]
      refine ⟨List.nodup_singleton 1, ?_⟩
      intro b hb
      rcases List.mem_singleton.mp hb with rfl
      norm_num

end BombEq

theorem union_inter_left {A₁ A₂ T₁ T₂ : Finset Tile} (hdisj : T₁ ∩ T₂ = ∅)
    (h1 : A₁ ⊆ T₁) (h2 : A₂ ⊆ T₂) : (A₁ ∪ A₂) ∩ T₁ = A₁ := by
  refine Finset.ext fun x => ?_
  simp only [Finset.mem_inter, Finset.mem_union]
  constructor
  · rintro ⟨hx | hx, hxt⟩
    · exact hx
    · have hmm : x ∈ T₁ ∩ T₂ := Finset.mem_inter.mpr ⟨hxt, h2 hx⟩
      rw [hdisj] at hmm
      exact absurd hmm (Finset.not_mem_empty x)
  · intro hx
    exact ⟨Or.inl hx, h1 hx⟩

theorem union_inter_right {A₁ A₂ T₁ T₂ : Finset Tile} (hdisj : T₁ ∩ T₂ = ∅)
    (h1 : A₁ ⊆ T₁) (h2 : A₂ ⊆ T₂) : (A₁ ∪ A₂) ∩ T₂ = A₂ := by
  rw [Finset.union_comm]
  exact union_inter_left (by rw [Finset.inter_comm]; exact hdisj) h2 h1

theorem specN_append (G₁ G₂ : List BombEq) (hdisj : tileSet G₁ ∩ tileSet G₂ = ∅)
    (k : ℤ) :
    specN (G₁ ++ G₂) k
      = ∑ a in Finset.Icc (0 : ℤ) ((tileSet G₁).card : ℤ),
          specN G₁ a * specN G₂ (k - a) := by
  have hmemrec : ∀ (a : ℤ) (A₁ : Finset Tile), A₁ ∈ layouts G₁ a →
      ∀ X ∈ (layouts G₂ (k - a)).image (fun A₂ => A₁ ∪ A₂),
        X ∩ tileSet G₁ = A₁ := by
    intro a A₁ hA₁ X hX
    obtain ⟨A₂, hA₂, rfl⟩ := Finset.mem_image.mp hX
    exact union_inter_left hdisj (mem_layouts.mp hA₁).1 (mem_layouts.mp hA₂).1
  have hcardrec : ∀ (a : ℤ) (X : Finset Tile),
      X ∈ ((layouts G₁ a).biUnion fun A₁ =>
        (layouts G₂ (k - a)).image fun A₂ => A₁ ∪ A₂) →
      ((X ∩ tileSet G₁).card : ℤ) = a := by
    intro a X hX
    obtain ⟨A₁, hA₁, hX⟩ := Finset.mem_biUnion.mp hX
    rw [hmemrec a A₁ hA₁ X hX]
    exact (mem_layouts.mp hA₁).2.2
  have hN : (layouts (G₁ ++ G₂) k).card
      = ∑ a in Finset.Icc (0 : ℤ) ((tileSet G₁).card : ℤ),
          (layouts G₁ a).card * (layouts G₂ (k - a)).card := by
    rw [layouts_append_eq G₁ G₂ hdisj k]
    rw [Finset.card_biUnion (fun a _ b _ hab => Finset.disjoint_left.mpr
      fun X hXa hXb => hab (by rw [← hcardrec a X hXa, ← hcardrec b X hXb]))]
    refine Finset.sum_congr rfl fun a _ => ?_
    rw [Finset.card_biUnion (fun A₁ h₁ A₁' h₁' hne => Finset.disjoint_left.mpr
      fun X hX hX' => hne (by rw [← hmemrec a A₁ h₁ X hX, ← hmemrec a A₁' h₁' X hX']))]
    have himg : ∀ A₁ ∈ layouts G₁ a,
        ((layouts G₂ (k - a)).image fun A₂ => A₁ ∪ A₂).card
          = (layouts G₂ (k - a)).card := by
      intro A₁ h₁
      refine Finset.card_image_of_injOn fun A₂ h₂ A₂' h₂' heq => ?_
      rw [← union_inter_right hdisj (mem_layouts.mp h₁).1
          (mem_layouts.mp (Finset.mem_coe.mp h₂)).1, heq,
        union_inter_right hdisj (mem_layouts.mp h₁).1
          (mem_layouts.mp (Finset.mem_coe.mp h₂')).1]
    rw [Finset.sum_congr rfl himg, Finset.sum_const, smul_eq_mul]
  unfold specN
  rw [hN]
  push_cast
  rfl

theorem specN_ne_zero_mem_Icc {G : List BombEq} {a : ℤ} (h : specN G a ≠ 0) :
    a ∈ Finset.Icc (0 : ℤ) ((tileSet G).card : ℤ) := by
  by_contra hc
  exact h (specN_support fun hcc => hc (Finset.mem_Icc.mpr hcc))

theorem conv_Icc (G₁ G₂ : List BombEq) (k : ℤ) :
    (∑ a in Finset.Icc (0 : ℤ) ((tileSet G₁).card : ℤ),
      ∑ b in Finset.Icc (0 : ℤ) ((tileSet G₂).card : ℤ),
        if a + b = k then specN G₁ a * specN G₂ b else 0)
      = ∑ a in Finset.Icc (0 : ℤ) ((tileSet G₁).card : ℤ),
          specN G₁ a * specN G₂ (k - a) := by
  refine Finset.sum_congr rfl fun a _ => ?_
  have hcond : ∀ b : ℤ, (if a + b = k then specN G₁ a * specN G₂ b else 0)
      = (if b = k - a then specN G₁ a * specN G₂ b else 0) := fun b => by
    by_cases h : a + b = k
    · rw [if_pos h, if_pos (by omega)]
    · rw [if_neg h, if_neg (by omega)]
  rw [Finset.sum_congr rfl fun b _ => hcond b,
    Finset.sum_ite_eq' (Finset.Icc (0 : ℤ) ((tileSet G₂).card : ℤ)) (k - a)
      (fun b => specN G₁ a * specN G₂ b)]
  by_cases hmem : k - a ∈ Finset.Icc (0 : ℤ) ((tileSet G₂).card : ℤ)
  · rw [if_pos hmem]
  · rw [if_neg hmem, specN_support fun hc => hmem (Finset.mem_Icc.mpr hc), mul_zero]

theorem specN_append_conv (G₁ G₂ : List BombEq)
    (hdisj : tileSet G₁ ∩ tileSet G₂ = ∅) (k : ℤ) (S T : Finset ℤ)
    (hS : ∀ a, specN G₁ a ≠ 0 → a ∈ S) (hT : ∀ b, specN G₂ b ≠ 0 → b ∈ T) :
    specN (G₁ ++ G₂) k
      = ∑ a in S, ∑ b in T, if a + b = k then specN G₁ a * specN G₂ b else 0 := by
  rw [conv_index_congr S (Finset.Icc 0 ((tileSet G₁).card : ℤ)) T
    (Finset.Icc 0 ((tileSet G₂).card : ℤ)) (specN G₁) (specN G₂) k
    hS (fun a ha => specN_ne_zero_mem_Icc ha) hT (fun b hb => specN_ne_zero_mem_Icc hb)]
  rw [conv_Icc G₁ G₂ k]
  exact specN_append G₁ G₂ hdisj k

theorem specF_as_specN {G : List BombEq} {u : Tile} (hu : u ∈ tileSet G) (k : ℤ) :
    specF G k u = specN (G ++ [(⟨{u}, [1]⟩ : BombEq)]) k := by
  unfold specF specN
  have hset : (layouts G k).filter (fun A => u ∈ A)
      = layouts (G ++ [(⟨{u}, [1]⟩ : BombEq)]) k := by
    refine Finset.ext fun A => ?_
    rw [Finset.mem_filter, mem_layouts, mem_layouts, tileSet_append, satAll_append]
    constructor
    · rintro ⟨⟨hsub, hsat, hcard⟩, hmem⟩
      refine ⟨hsub.trans Finset.subset_union_left, ⟨hsat, ?_⟩, hcard⟩
      intro e he
      rcases List.mem_cons.mp he with rfl | he
      · exact BombEq.satisfies_single_mem.mpr hmem
      · exact absurd he (List.not_mem_nil e)
    · rintro ⟨hsub, ⟨hsat, hlit⟩, hcard⟩
      refine ⟨⟨?_, hsat, hcard⟩, ?_⟩
      · intro x hx
        rcases Finset.mem_union.mp (hsub hx) with hx' | hx'
        · exact hx'
        · rw [tileSet_cons, tileSet_nil, Finset.union_empty] at hx'
          have hxu : x = u := Finset.mem_singleton.mp hx'
          exact hxu ▸ hu
      · exact BombEq.satisfies_single_mem.mp (hlit _ (List.mem_cons_self _ _))
  rw [hset]

theorem specF_ne_zero {G : List BombEq} {a : ℤ} {u : Tile} (h : specF G a u ≠ 0) :
    specN G a ≠ 0 := by
  intro hN
  apply h
  unfold specF
  unfold specN at hN
  have hempty : layouts G a = ∅ := Finset.card_eq_zero.mp (by exact_mod_cast hN)
  rw [hempty, Finset.filter_empty]
  rfl

theorem specF_append_conv (G₁ G₂ : List BombEq)
    (hdisj : tileSet G₁ ∩ tileSet G₂ = ∅) (k : ℤ) (u : Tile) (S T : Finset ℤ)
    (hS : ∀ a, specN G₁ a ≠ 0 → a ∈ S) (hT : ∀ b, specN G₂ b ≠ 0 → b ∈ T) :
    specF (G₁ ++ G₂) k u
      = ∑ a in S, ∑ b in T,
          if a + b = k
          then specF G₁ a u * specN G₂ b + specF G₂ b u * specN G₁ a
          else 0 := by
  by_cases hu1 : u ∈ tileSet G₁
  · have hu2 : u ∉ tileSet G₂ := fun hc => Finset.not_mem_empty u
      (hdisj ▸ Finset.mem_inter.mpr ⟨hu1, hc⟩)
    have hulit : u ∈ tileSet (G₁ ++ G₂) := by
      rw [tileSet_append]
      exact Finset.mem_union_left _ hu1
    rw [specF_as_specN hulit k]
    have hperm : ((G₁ ++ G₂) ++ [(⟨{u}, [1]⟩ : BombEq)]).Perm
        ((G₁ ++ [(⟨{u}, [1]⟩ : BombEq)]) ++ G₂) := by
      rw [List.append_assoc, List.append_assoc]
      exact List.Perm.append_left G₁ List.perm_append_comm
    rw [specN_perm hperm k]
    have hts1 : tileSet (G₁ ++ [(⟨{u}, [1]⟩ : BombEq)]) = tileSet G₁ := by
      rw [tileSet_append, tileSet_cons, tileSet_nil, Finset.union_empty]
      exact Finset.union_eq_left.mpr (Finset.singleton_subset_iff.mpr hu1)
    have hdisj' : tileSet (G₁ ++ [(⟨{u}, [1]⟩ : BombEq)]) ∩ tileSet G₂ = ∅ := by
      rw [hts1]
      exact hdisj
    have hS' : ∀ a, specN (G₁ ++ [(⟨{u}, [1]⟩ : BombEq)]) a ≠ 0 → a ∈ S := by
      intro a ha
      rw [← specF_as_specN hu1 a] at ha
      exact hS a (specF_ne_zero ha)
    rw [specN_append_conv _ G₂ hdisj' k S T hS' hT]
    refine Finset.sum_congr rfl fun a _ => Finset.sum_congr rfl fun b _ => ?_
    by_cases h : a + b = k
    · rw [if_pos h, if_pos h, ← specF_as_specN hu1 a,
        specF_not_mem_tileSet hu2, zero_mul, add_zero]
    · rw [if_neg h, if_neg h]
  · by_cases hu2 : u ∈ tileSet G₂
    · have hulit : u ∈ tileSet (G₁ ++ G₂) := by
        rw [tileSet_append]
        exact Finset.mem_union_right _ hu2
      rw [specF_as_specN hulit k, List.append_assoc]
      have hts2 : tileSet (G₂ ++ [(⟨{u}, [1]⟩ : BombEq)]) = tileSet G₂ := by
        rw [tileSet_append, tileSet_cons, tileSet_nil, Finset.union_empty]
        exact Finset.union_eq_left.mpr (Finset.singleton_subset_iff.mpr hu2)
      have hdisj' : tileSet G₁ ∩ tileSet (G₂ ++ [(⟨{u}, [1]⟩ : BombEq)]) = ∅ := by
        rw [hts2]
        exact hdisj
      have hT' : ∀ b, specN (G₂ ++ [(⟨{u}, [1]⟩ : BombEq)]) b ≠ 0 → b ∈ T := by
        intro b hb
        rw [← specF_as_specN hu2 b] at hb
        exact hT b (specF_ne_zero hb)
      rw [specN_append_conv G₁ _ hdisj' k S T hS hT']
      refine Finset.sum_congr rfl fun a _ => Finset.sum_congr rfl fun b _ => ?_
      by_cases h : a + b = k
      · rw [if_pos h, if_pos h, ← specF_as_specN hu2 b,
          specF_not_mem_tileSet hu1, zero_mul, zero_add, mul_comm]
      · rw [if_neg h, if_neg h]
    · have hu12 : u ∉ tileSet (G₁ ++ G₂) := by
        rw [tileSet_append]
        exact fun hc => (Finset.mem_union.mp hc).elim hu1 hu2
      rw [specF_not_mem_tileSet hu12]
      refine (Finset.sum_eq_zero fun a _ => Finset.sum_eq_zero fun b _ => ?_).symm
      rw [specF_not_mem_tileSet hu1, specF_not_mem_tileSet hu2, zero_mul, zero_mul,
        add_zero, ite_self]

/-! ### `group_constraints`: partition into disjoint areas -/

theorem takeWhile_length_le_filter {α : Type} (p : α → Bool) :
    ∀ l : List α, (l.takeWhile p).length ≤ (l.filter p).length := by
  intro l
  induction l with
  | nil => exact le_rfl
  | cons a l ih =>
    by_cases h : p a
    · rw [List.takeWhile_cons_of_pos h, List.filter_cons_of_pos h]
      exact Nat.succ_le_succ ih
    · rw [List.takeWhile_cons_of_neg h, List.filter_cons_of_neg h]
      exact Nat.zero_le _

theorem foldr_append_eq_flatten :
    ∀ rs : List Area, rs.foldr (fun a acc => a.1 ++ acc) [] = (rs.map Prod.fst).flatten := by
  intro rs
  induction rs with
  | nil => rfl
  | cons a rs ih => rw [List.foldr_cons, ih, List.map_cons, List.flatten_cons]

theorem foldr_union_mem (rs : List Area) (base : Finset Tile) (x : Tile) :
    (x ∈ rs.foldr (fun a acc => a.2 ∪ acc) base) ↔ (∃ a ∈ rs, x ∈ a.2) ∨ x ∈ base := by
  induction rs with
  | nil => simp
  | cons a rs ih =>
    rw [List.foldr_cons, Finset.mem_union, ih]
    simp only [List.mem_cons]
    constructor
    · rintro (hx | ⟨⟨b, hb, hx⟩ | hx⟩)
      · exact Or.inl ⟨a, Or.inl rfl, hx⟩
      · exact Or.inl ⟨b, Or.inr hb, hx⟩
      · exact Or.inr hx
    · rintro (⟨b, rfl | hb, hx⟩ | hx)
      · exact Or.inl hx
      · exact Or.inr (Or.inl ⟨b, hb, hx⟩)
      · exact Or.inr (Or.inr hx)

theorem perm_append_singleton_swap {α : Type} (X Y : List α) (e : α) :
    ((X ++ [e]) ++ Y).Perm ((X ++ Y) ++ [e]) := by
  rw [List.append_assoc, List.append_assoc]
  exact List.Perm.append_left X List.perm_append_comm

theorem groupStep_inv {gs : List Area} {pre : List BombEq} {e : BombEq}
    (hjoin : ((gs.map Prod.fst).flatten).Perm pre)
    (hprops : ∀ a ∈ gs, a.2 = tileSet a.1 ∧ a.1 ≠ [])
    (hpw : List.Pairwise (fun x y : Area => x.2 ∩ y.2 = ∅) gs) :
    (((groupStep gs e).map Prod.fst).flatten).Perm (pre ++ [e])
      ∧ (∀ a ∈ groupStep gs e, a.2 = tileSet a.1 ∧ a.1 ≠ [])
      ∧ List.Pairwise (fun x y : Area => x.2 ∩ y.2 = ∅) (groupStep gs e) := by
  have hsymm : ∀ {x y : Area}, x.2 ∩ y.2 = ∅ → y.2 ∩ x.2 = ∅ := fun h => by
    rw [Finset.inter_comm]
    exact h
  have hsymmR : Symmetric (fun x y : Area => x.2 ∩ y.2 = ∅) := fun x y h => by
    show y.2 ∩ x.2 = ∅
    rw [Finset.inter_comm]
    exact h
  cases hfil : gs.filter (fun a => sharesTile e a) with
  | nil =>
    have hstep : groupStep gs e = gs ++ [([e], e.tiles)] := by
      unfold groupStep
      rw [hfil]
    have hnone : ∀ a ∈ gs, ¬ sharesTile e a := by
      intro a ha hs
      have : a ∈ gs.filter (fun a => sharesTile e a) :=
        List.mem_filter.mpr ⟨ha, by simpa using hs⟩
      rw [hfil] at this
      exact absurd this (List.not_mem_nil a)
    rw [hstep]
    refine ⟨?_, ?_, ?_⟩
    · rw [List.map_append, List.flatten_append]
      exact hjoin.append_right _
    · intro a ha
      rcases List.mem_append.mp ha with ha | ha
      · exact hprops a ha
      · rcases List.mem_singleton.mp ha with rfl
        refine ⟨?_, by simp⟩
        rw [tileSet_cons, tileSet_nil, Finset.union_empty]
    · rw [List.pairwise_append]
      refine ⟨hpw, List.pairwise_singleton _ _, ?_⟩
      intro a ha b hb
      rcases List.mem_singleton.mp hb with rfl
      rw [Finset.eq_empty_iff_forall_not_mem]
      intro x hx
      rcases Finset.mem_inter.mp hx with ⟨hx1, hx2⟩
      exact hnone a ha ⟨x, hx2, hx1⟩
  | cons first rest =>
    have hstep : groupStep gs e
        = (gs.filter fun a => ¬ sharesTile e a).insertIdx
            (gs.takeWhile (fun a => ¬ sharesTile e a)).length
            (first.1 ++ rest.foldr (fun a acc => a.1 ++ acc) [] ++ [e],
              rest.foldr (fun a acc => a.2 ∪ acc) (first.2 ∪ e.tiles)) := by
      unfold groupStep
      rw [hfil]
    have hhitmem : ∀ a ∈ first :: rest, a ∈ gs ∧ sharesTile e a := by
      intro a ha
      rw [← hfil] at ha
      have := List.mem_filter.mp ha
      exact ⟨this.1, by simpa using this.2⟩
    have hnonmem : ∀ a ∈ gs.filter (fun a => ¬ sharesTile e a),
        a ∈ gs ∧ ¬ sharesTile e a := by
      intro a ha
      have := List.mem_filter.mp ha
      exact ⟨this.1, by simpa using this.2⟩
    have hlen : (gs.takeWhile (fun a => ¬ sharesTile e a)).length
        ≤ (gs.filter fun a => ¬ sharesTile e a).length :=
      takeWhile_length_le_filter _ gs
    have hperm_ins : (groupStep gs e).Perm
        ((first.1 ++ rest.foldr (fun a acc => a.1 ++ acc) [] ++ [e],
            rest.foldr (fun a acc => a.2 ∪ acc) (first.2 ∪ e.tiles))
          :: gs.filter fun a => ¬ sharesTile e a) := by
      rw [hstep]
      exact List.perm_insertIdx _ _ hlen
    have hsplit_perm : ((first :: rest) ++ (gs.filter fun a => ¬ sharesTile e a)).Perm gs := by
      have hp := List.filter_append_perm (fun a => decide (sharesTile e a)) gs
      have hnotfn : (fun x : Area => !decide (sharesTile e x))
          = (fun x : Area => decide (¬ sharesTile e x)) :=
        funext fun x => by rw [decide_not]
      rw [hnotfn] at hp
      rw [← hfil]
      exact hp
    refine ⟨?_, ?_, ?_⟩
    · refine ((hperm_ins.map Prod.fst).flatten).trans ?_
      rw [List.map_cons, List.flatten_cons, foldr_append_eq_flatten]
      refine List.Perm.trans (perm_append_singleton_swap _ _ e) ?_
      refine List.Perm.append_right [e] ?_
      have h1 : (first.1 ++ (rest.map Prod.fst).flatten)
            ++ ((gs.filter fun a => ¬ sharesTile e a).map Prod.fst).flatten
          = (((first :: rest) ++ (gs.filter fun a => ¬ sharesTile e a)).map
              Prod.fst).flatten := by
        rw [List.map_append, List.flatten_append, List.map_cons, List.flatten_cons]
      rw [h1]
      exact ((hsplit_perm.map Prod.fst).flatten).trans hjoin
    · intro a ha
      rcases List.mem_insertIdx hlen |>.mp (by rw [hstep] at ha; exact ha) with rfl | ha
      · constructor
        · refine Finset.ext fun x => ?_
          rw [foldr_union_mem, mem_tileSet]
          constructor
          · rintro (⟨b, hb, hx⟩ | hx)
            · have hbgs := (hhitmem b (List.mem_cons_of_mem first hb)).1
              rw [(hprops b hbgs).1, mem_tileSet] at hx
              obtain ⟨q, hq, hx⟩ := hx
              refine ⟨q, ?_, hx⟩
              rw [List.mem_append, List.mem_append]
              exact Or.inl (Or.inr (by
                rw [foldr_append_eq_flatten, List.mem_flatten]
                exact ⟨b.1, List.mem_map.mpr ⟨b, hb, rfl⟩, hq⟩))
            · rcases Finset.mem_union.mp hx with hx | hx
              · have hfgs := (hhitmem first (List.mem_cons_self first rest)).1
                rw [(hprops first hfgs).1, mem_tileSet] at hx
                obtain ⟨q, hq, hx⟩ := hx
                exact ⟨q, by
                  rw [List.mem_append, List.mem_append]
                  exact Or.inl (Or.inl hq), hx⟩
              · exact ⟨e, by
                  rw [List.mem_append]
                  exact Or.inr (List.mem_singleton_self e), hx⟩
          · rintro ⟨q, hq, hx⟩
            rw [List.mem_append, List.mem_append] at hq
            rcases hq with (hq | hq) | hq
            · refine Or.inr (Finset.mem_union_left _ ?_)
              have hfgs := (hhitmem first (List.mem_cons_self first rest)).1
              rw [(hprops first hfgs).1, mem_tileSet]
              exact ⟨q, hq, hx⟩
            · rw [foldr_append_eq_flatten, List.mem_flatten] at hq
              obtain ⟨l, hl, hq⟩ := hq
              obtain ⟨b, hb, rfl⟩ := List.mem_map.mp hl
              refine Or.inl ⟨b, hb, ?_⟩
              have hbgs := (hhitmem b (List.mem_cons_of_mem first hb)).1
              rw [(hprops b hbgs).1, mem_tileSet]
              exact ⟨q, hq, hx⟩
            · rcases List.mem_singleton.mp hq with rfl
              exact Or.inr (Finset.mem_union_right _ hx)
        · simp
      · exact hprops a (hnonmem a ha).1
    · rw [(hperm_ins.pairwise_iff fun h => hsymm h)]
      rw [List.pairwise_cons]
      constructor
      · intro b hb
        rw [Finset.eq_empty_iff_forall_not_mem]
        intro x hx
        rcases Finset.mem_inter.mp hx with ⟨hxM, hxb⟩
        rcases (foldr_union_mem _ _ x).mp hxM with ⟨a, ha, hxa⟩ | hx2
        · have hags := hhitmem a (List.mem_cons_of_mem first ha)
          have hane : a ≠ b := fun hab =>
            (hnonmem b hb).2 (hab ▸ hags.2)
          have hdisj := List.Pairwise.forall hsymmR hpw hags.1 (hnonmem b hb).1 hane
          rw [Finset.eq_empty_iff_forall_not_mem] at hdisj
          exact hdisj x (Finset.mem_inter.mpr ⟨hxa, hxb⟩)
        · rcases Finset.mem_union.mp hx2 with hx2 | hx2
          · have hags := hhitmem first (List.mem_cons_self first rest)
            have hane : first ≠ b := fun hab =>
              (hnonmem b hb).2 (hab ▸ hags.2)
            have hdisj := List.Pairwise.forall hsymmR hpw hags.1 (hnonmem b hb).1 hane
            rw [Finset.eq_empty_iff_forall_not_mem] at hdisj
            exact hdisj x (Finset.mem_inter.mpr ⟨hx2, hxb⟩)
          · exact (hnonmem b hb).2 ⟨x, hx2, hxb⟩
      · exact hpw.sublist (List.filter_sublist gs)

theorem foldl_groupStep_inv :
    ∀ (G : List BombEq) (gs : List Area) (pre : List BombEq),
      ((gs.map Prod.fst).flatten).Perm pre →
      (∀ a ∈ gs, a.2 = tileSet a.1 ∧ a.1 ≠ []) →
      List.Pairwise (fun x y : Area => x.2 ∩ y.2 = ∅) gs →
      (((G.foldl groupStep gs).map Prod.fst).flatten).Perm (pre ++ G)
        ∧ (∀ a ∈ G.foldl groupStep gs, a.2 = tileSet a.1 ∧ a.1 ≠ [])
        ∧ List.Pairwise (fun x y : Area => x.2 ∩ y.2 = ∅) (G.foldl groupStep gs) := by
  intro G
  induction G with
  | nil =>
    intro gs pre hjoin hprops hpw
    rw [List.append_nil]
    exact ⟨hjoin, hprops, hpw⟩
  | cons e G ih =>
    intro gs pre hjoin hprops hpw
    obtain ⟨hjoin', hprops', hpw'⟩ := groupStep_inv hjoin hprops hpw
    have := ih (groupStep gs e) (pre ++ [e]) hjoin' hprops' hpw'
    rw [List.append_assoc] at this
    exact this

theorem groupConstraints_flatten_perm (G : List BombEq) :
    ((groupConstraints G).flatten).Perm G := by
  have h := foldl_groupStep_inv G [] [] (List.Perm.refl []) (fun a ha => absurd ha
    (List.not_mem_nil a)) List.Pairwise.nil
  unfold groupConstraints
  have h1 := h.1
  rw [List.nil_append] at h1
  exact h1

theorem groupConstraints_nonempty {G : List BombEq} {grp : List BombEq}
    (h : grp ∈ groupConstraints G) : grp ≠ [] := by
  have hh := foldl_groupStep_inv G [] [] (List.Perm.refl []) (fun a ha => absurd ha
    (List.not_mem_nil a)) List.Pairwise.nil
  unfold groupConstraints at h
  obtain ⟨a, ha, rfl⟩ := List.mem_map.mp h
  exact (hh.2.1 a ha).2

theorem groupConstraints_pairwise (G : List BombEq) :
    List.Pairwise (fun g₁ g₂ => tileSet g₁ ∩ tileSet g₂ = ∅) (groupConstraints G) := by
  have hh := foldl_groupStep_inv G [] [] (List.Perm.refl []) (fun a ha => absurd ha
    (List.not_mem_nil a)) List.Pairwise.nil
  unfold groupConstraints
  rw [List.pairwise_map]
  refine hh.2.2.imp_of_mem ?_
  intro a b ha hb hab
  rw [← (hh.2.1 a ha).1, ← (hh.2.1 b hb).1]
  exact hab

theorem mem_flatten_tileSet {L : List (List BombEq)} {x : Tile} :
    x ∈ tileSet L.flatten ↔ ∃ l ∈ L, x ∈ tileSet l := by
  rw [mem_tileSet]
  constructor
  · rintro ⟨q, hq, hx⟩
    obtain ⟨l, hl, hq⟩ := List.mem_flatten.mp hq
    exact ⟨l, hl, mem_tileSet.mpr ⟨q, hq, hx⟩⟩
  · rintro ⟨l, hl, hx⟩
    obtain ⟨q, hq, hx⟩ := mem_tileSet.mp hx
    exact ⟨q, List.mem_flatten.mpr ⟨l, hl, hq⟩, hx⟩

/-! ### `find_tile_to_recurse_on` returns a tile of the group -/

theorem findTile_mem {grp : List BombEq} (hne : grp ≠ [])
    (htiles : ∀ e ∈ grp, e.tiles ≠ ∅) : findTile grp ∈ tileSet grp := by
  obtain ⟨e, grp', rfl⟩ : ∃ e grp', grp = e :: grp' := by
    cases grp with
    | nil => exact absurd rfl hne
    | cons e grp' => exact ⟨e, grp', rfl⟩
  unfold findTile
  let step : (Tile × List (Tile × ℕ)) → Tile → (Tile × List (Tile × ℕ)) := fun st t =>
    let c := dget st.2 t 0 + 1
    let counts := dset st.2 t c
    if c > dget counts st.1 0 then (t, counts) else (st.1, counts)
  show ((e :: grp').foldl (fun st e => (tilesList e.tiles).foldl step st)
    (((-1 : ℤ), (-1 : ℤ)), [(((-1 : ℤ), (-1 : ℤ)), (0 : ℕ))])).1 ∈ tileSet (e :: grp')
  have hstep : ∀ (st : Tile × List (Tile × ℕ)) (t : Tile), t ∈ tileSet (e :: grp') →
      (st.1 ∈ tileSet (e :: grp')
        ∨ (st.1 = ((-1 : ℤ), (-1 : ℤ)) ∧ dget st.2 ((-1 : ℤ), (-1 : ℤ)) 0 = 0)) →
      (step st t).1 ∈ tileSet (e :: grp') := by
    intro st t ht hR
    show (if dget st.2 t 0 + 1 > dget (dset st.2 t (dget st.2 t 0 + 1)) st.1 0
        then (t, dset st.2 t (dget st.2 t 0 + 1))
        else (st.1, dset st.2 t (dget st.2 t 0 + 1))).1 ∈ tileSet (e :: grp')
    by_cases hc : dget st.2 t 0 + 1 > dget (dset st.2 t (dget st.2 t 0 + 1)) st.1 0
    · rw [if_pos hc]
      exact ht
    · rw [if_neg hc]
      rcases hR with hR | ⟨hR1, hR2⟩
      · exact hR
      · by_cases hteq : t = ((-1 : ℤ), (-1 : ℤ))
        · rw [hR1]
          exact hteq ▸ ht
        · exfalso
          apply hc
          rw [hR1, dget_dset_ne st.2 t ((-1 : ℤ), (-1 : ℤ)) _ 0
            (fun hh => hteq hh.symm), hR2]
          exact Nat.succ_pos _
  have hkeep : ∀ (ts : List Tile) (st : Tile × List (Tile × ℕ)),
      (∀ t ∈ ts, t ∈ tileSet (e :: grp')) → st.1 ∈ tileSet (e :: grp') →
      (ts.foldl step st).1 ∈ tileSet (e :: grp') := by
    intro ts
    induction ts with
    | nil => intro st _ h1; exact h1
    | cons t ts ih =>
      intro st hts h1
      exact ih (step st t) (fun x hx => hts x (List.mem_cons_of_mem t hx))
        (hstep st t (hts t (List.mem_cons_self t ts)) (Or.inl h1))
  have houter : ∀ (gl : List BombEq) (st : Tile × List (Tile × ℕ)),
      (∀ q ∈ gl, q.tiles ⊆ tileSet (e :: grp')) → st.1 ∈ tileSet (e :: grp') →
      (gl.foldl (fun st q => (tilesList q.tiles).foldl step st) st).1
        ∈ tileSet (e :: grp') := by
    intro gl
    induction gl with
    | nil => intro st _ h1; exact h1
    | cons q gl ih =>
      intro st hgl h1
      exact ih _ (fun p hp => hgl p (List.mem_cons_of_mem q hp))
        (hkeep (tilesList q.tiles) st
          (fun t ht => hgl q (List.mem_cons_self q gl) (mem_tilesList.mp ht)) h1)
  rw [List.foldl_cons]
  have htl_ne : tilesList e.tiles ≠ [] := by
    obtain ⟨t, ht⟩ := Finset.nonempty_iff_ne_empty.mpr
      (htiles e (List.mem_cons_self e grp'))
    exact List.ne_nil_of_mem (mem_tilesList.mpr ht)
  have hfirst : ((tilesList e.tiles).foldl step
      (((-1 : ℤ), (-1 : ℤ)), [(((-1 : ℤ), (-1 : ℤ)), (0 : ℕ))])).1
        ∈ tileSet (e :: grp') := by
    have hts : ∀ t ∈ tilesList e.tiles, t ∈ tileSet (e :: grp') := fun t ht =>
      tiles_subset_tileSet (List.mem_cons_self e grp') (mem_tilesList.mp ht)
    match hts2 : tilesList e.tiles, htl_ne with
    | t :: ts, _ =>
      rw [List.foldl_cons]
      refine hkeep ts _ (fun x hx => ?_) (hstep _ t ?_ (Or.inr ⟨rfl, ?_⟩))
      · rw [hts2] at hts
        exact hts x (List.mem_cons_of_mem t hx)
      · rw [hts2] at hts
        exact hts t (List.mem_cons_self t ts)
      · rw [dget, if_pos rfl]
  refine houter grp' _ (fun q hq => tiles_subset_tileSet (List.mem_cons_of_mem e hq)) ?_
  -- the state after the first inner fold
  exact hfirst

/-! ### The closed form for a single equation -/

theorem tileSet_single (e : BombEq) : tileSet [e] = e.tiles := by
  rw [tileSet_cons, tileSet_nil, Finset.union_empty]

theorem layouts_single_of_not_mem {e : BombEq} {k : ℤ} (hkb : k ∉ e.bombs) :
    layouts [e] k = ∅ := by
  rw [Finset.eq_empty_iff_forall_not_mem]
  intro A hA
  rw [mem_layouts, tileSet_single] at hA
  obtain ⟨hsub, hsat, hcard⟩ := hA
  have hsatis := hsat e (List.mem_cons_self e [])
  unfold satisfies at hsatis
  rw [Finset.inter_eq_right.mpr hsub, hcard] at hsatis
  exact hkb hsatis

theorem specN_single (e : BombEq) (k : ℤ) :
    specN [e] k = if k ∈ e.bombs then comb ((e.tiles.card : ℤ)) k else 0 := by
  by_cases hkb : k ∈ e.bombs
  · rw [if_pos hkb]
    by_cases hk0 : 0 ≤ k ∧ k ≤ (e.tiles.card : ℤ)
    · have hset : layouts [e] k = Finset.powersetCard k.toNat e.tiles := by
        refine Finset.ext fun A => ?_
        rw [mem_layouts, Finset.mem_powersetCard, tileSet_single]
        constructor
        · rintro ⟨hsub, _, hcard⟩
          exact ⟨hsub, by omega⟩
        · rintro ⟨hsub, hcard⟩
          refine ⟨hsub, ?_, by omega⟩
          intro f hf
          rcases List.mem_cons.mp hf with rfl | hf
          · unfold satisfies
            rw [Finset.inter_eq_right.mpr hsub]
            have hck : (A.card : ℤ) = k := by omega
            rw [hck]
            exact hkb
          · exact absurd hf (List.not_mem_nil f)
      unfold specN
      rw [hset, Finset.card_powersetCard]
      unfold comb
      rw [if_neg (by omega)]
      have harg : ((e.tiles.card : ℤ)).toNat = e.tiles.card := by omega
      rw [harg]
    · rw [specN_support (by rw [tileSet_single]; exact hk0)]
      unfold comb
      rw [if_pos (by omega)]
  · rw [if_neg hkb]
    unfold specN
    rw [layouts_single_of_not_mem hkb]
    rfl

theorem specF_single (e : BombEq) (k : ℤ) (t : Tile) :
    specF [e] k t
      = if k ∈ e.bombs ∧ t ∈ e.tiles
        then comb ((e.tiles.card : ℤ) - 1) (k - 1) else 0 := by
  by_cases hmem : k ∈ e.bombs ∧ t ∈ e.tiles
  · obtain ⟨hkb, hte⟩ := hmem
    rw [if_pos ⟨hkb, hte⟩]
    have hcpos : 1 ≤ e.tiles.card := Finset.card_pos.mpr ⟨t, hte⟩
    by_cases hrange : 1 ≤ k ∧ k ≤ (e.tiles.card : ℤ)
    · have hbij : ((layouts [e] k).filter fun A => t ∈ A).card
          = (Finset.powersetCard (k.toNat - 1) (e.tiles.erase t)).card := by
        refine Finset.card_bij (fun A _ => A.erase t) ?_ ?_ ?_
        · intro A hA
          rw [Finset.mem_filter, mem_layouts, tileSet_single] at hA
          obtain ⟨⟨hsub, _, hcard⟩, htA⟩ := hA
          rw [Finset.mem_powersetCard]
          constructor
          · intro x hx
            rcases Finset.mem_erase.mp hx with ⟨hxt, hxA⟩
            exact Finset.mem_erase.mpr ⟨hxt, hsub hxA⟩
          · rw [Finset.card_erase_of_mem htA]
            omega
        · intro A hA A' hA' heq
          have heq' : A.erase t = A'.erase t := heq
          rw [Finset.mem_filter] at hA hA'
          rw [← Finset.insert_erase hA.2, heq', Finset.insert_erase hA'.2]
        · intro B hB
          rw [Finset.mem_powersetCard] at hB
          obtain ⟨hBsub, hBcard⟩ := hB
          have htB : t ∉ B := fun hc => (Finset.mem_erase.mp (hBsub hc)).1 rfl
          have hBsub' : insert t B ⊆ e.tiles := by
            intro x hx
            rcases Finset.mem_insert.mp hx with rfl | hx
            · exact hte
            · exact (Finset.mem_erase.mp (hBsub hx)).2
          have hcardins : ((insert t B).card : ℤ) = k := by
            rw [Finset.card_insert_of_not_mem htB]
            push_cast
            omega
          refine ⟨insert t B, ?_, Finset.erase_insert htB⟩
          rw [Finset.mem_filter, mem_layouts, tileSet_single]
          refine ⟨⟨hBsub', ?_, hcardins⟩, Finset.mem_insert_self t B⟩
          intro f hf
          rcases List.mem_cons.mp hf with rfl | hf
          · unfold satisfies
            rw [Finset.inter_eq_right.mpr hBsub', hcardins]
            exact hkb
          · exact absurd hf (List.not_mem_nil f)
      unfold specF
      rw [hbij, Finset.card_powersetCard, Finset.card_erase_of_mem hte]
      unfold comb
      rw [if_neg (by omega)]
      have h1 : ((e.tiles.card : ℤ) - 1).toNat = e.tiles.card - 1 := by omega
      have h2 : (k - 1).toNat = k.toNat - 1 := by omega
      rw [h1, h2]
    · have hzero : ((layouts [e] k).filter fun A => t ∈ A).card = 0 := by
        rw [Finset.card_eq_zero, Finset.eq_empty_iff_forall_not_mem]
        intro A hA
        rw [Finset.mem_filter, mem_layouts, tileSet_single] at hA
        obtain ⟨⟨hsub, _, hcard⟩, htA⟩ := hA
        have h1 : 1 ≤ A.card := Finset.card_pos.mpr ⟨t, htA⟩
        have h2 : A.card ≤ e.tiles.card := Finset.card_le_card hsub
        exact hrange (by omega)
      unfold specF
      rw [hzero]
      unfold comb
      rw [if_pos (by omega)]
      rfl
  · rw [if_neg hmem]
    rcases not_and_or.mp hmem with hkb | hte
    · unfold specF
      rw [layouts_single_of_not_mem hkb, Finset.filter_empty]
      rfl
    · exact specF_not_mem_tileSet (by rw [tileSet_single]; exact hte)

theorem singletonSol_exact (e : BombEq) (hnd : e.bombs.Nodup) :
    SolWF (singletonSol e) ∧ Sol.tiles (singletonSol e) ⊆ e.tiles
      ∧ (∀ k, Sol.N (singletonSol e) k = specN [e] k)
      ∧ ∀ k t, Sol.F (singletonSol e) k t = specF [e] k t := by
  unfold singletonSol
  let entry : ℤ → ℤ × (FDict × ℤ) := fun b =>
    (b, ((tilesList e.tiles).map fun t =>
          (t, comb ((e.tiles.card : ℤ) - 1) (b - 1)),
        comb (e.tiles.card : ℤ) b))
  let step : Sol → ℤ → Sol := fun acc b => Sol.add acc [entry b]
  show SolWF (e.bombs.foldl step []) ∧ Sol.tiles (e.bombs.foldl step []) ⊆ e.tiles
      ∧ (∀ k, Sol.N (e.bombs.foldl step []) k = specN [e] k)
      ∧ ∀ k t, Sol.F (e.bombs.foldl step []) k t = specF [e] k t
  have hfst : ∀ b : ℤ, (((tilesList e.tiles).map fun t =>
      (t, comb ((e.tiles.card : ℤ) - 1) (b - 1))).map Prod.fst)
        = tilesList e.tiles := by
    intro b
    rw [List.map_map]
    have hc : (Prod.fst ∘ fun t : Tile =>
        (t, comb ((e.tiles.card : ℤ) - 1) (b - 1))) = id := funext fun t => rfl
    rw [hc, List.map_id]
  have hWFe : ∀ b : ℤ, SolWF [entry b] := by
    intro b
    refine ⟨List.nodup_singleton b, ?_⟩
    intro p hp
    rcases List.mem_singleton.mp hp with rfl
    show ((((tilesList e.tiles).map fun t =>
      (t, comb ((e.tiles.card : ℤ) - 1) (b - 1))).map Prod.fst)).Nodup
    rw [hfst b]
    exact tilesList_nodup e.tiles
  have hNe : ∀ (b k : ℤ), Sol.N [entry b] k
      = if b = k then comb (e.tiles.card : ℤ) k else 0 := by
    intro b k
    show (dget [entry b] k ([], 0)).2 = _
    rw [dget]
    by_cases h : b = k
    · rw [if_pos h, if_pos h, h]
    · rw [if_neg h, if_neg h]
      rfl
  have hdgetmap : ∀ (c : ℤ) (t : Tile),
      dget ((tilesList e.tiles).map fun t => (t, c)) t 0
        = if t ∈ e.tiles then c else 0 := by
    intro c t
    have hgen : ∀ ts : List Tile, dget (ts.map fun t => (t, c)) t 0
        = if t ∈ ts then c else 0 := by
      intro ts
      induction ts with
      | nil => simp [dget]
      | cons t0 ts ih =>
        rw [List.map_cons, dget]
        by_cases h : t0 = t
        · rw [if_pos h, if_pos (h ▸ List.mem_cons_self t0 ts)]
        · rw [if_neg h, ih]
          by_cases hm : t ∈ ts
          · rw [if_pos hm, if_pos (List.mem_cons_of_mem t0 hm)]
          · rw [if_neg hm, if_neg (by
              intro hc
              rcases List.mem_cons.mp hc with hc | hc
              · exact h hc.symm
              · exact hm hc)]
    rw [hgen (tilesList e.tiles)]
    by_cases hm : t ∈ e.tiles
    · rw [if_pos (mem_tilesList.mpr hm), if_pos hm]
    · rw [if_neg (fun hc => hm (mem_tilesList.mp hc)), if_neg hm]
  have hFe : ∀ (b k : ℤ) (t : Tile), Sol.F [entry b] k t
      = if b = k ∧ t ∈ e.tiles
        then comb ((e.tiles.card : ℤ) - 1) (k - 1) else 0 := by
    intro b k t
    show dget (dget [entry b] k ([], 0)).1 t 0 = _
    rw [dget]
    by_cases h : b = k
    · rw [if_pos h]
      show dget ((tilesList e.tiles).map fun t =>
        (t, comb ((e.tiles.card : ℤ) - 1) (b - 1))) t 0 = _
      rw [hdgetmap (comb ((e.tiles.card : ℤ) - 1) (b - 1)) t]
      by_cases hm : t ∈ e.tiles
      · rw [if_pos hm, if_pos ⟨h, hm⟩, h]
      · rw [if_neg hm, if_neg fun hc => hm hc.2]
    · rw [if_neg h, if_neg fun hc => h hc.1]
      rfl
  have htilese : ∀ b : ℤ, Sol.tiles [entry b] ⊆ e.tiles := by
    intro b x hx
    have hx' : x ∈ (((tilesList e.tiles).map fun t =>
        (t, comb ((e.tiles.card : ℤ) - 1) (b - 1))).map Prod.fst).toFinset ∪ ∅ := hx
    rw [hfst b, Finset.union_empty, List.mem_toFinset] at hx'
    exact mem_tilesList.mp hx'
  have hfold : ∀ (bs : List ℤ) (acc : Sol), bs.Nodup → SolWF acc →
      SolWF (bs.foldl step acc)
        ∧ Sol.tiles (bs.foldl step acc) ⊆ Sol.tiles acc ∪ e.tiles
        ∧ (∀ k, Sol.N (bs.foldl step acc) k
            = Sol.N acc k + (if k ∈ bs then comb ((e.tiles.card : ℤ)) k else 0))
        ∧ ∀ k t, Sol.F (bs.foldl step acc) k t
            = Sol.F acc k t + (if k ∈ bs ∧ t ∈ e.tiles
                then comb ((e.tiles.card : ℤ) - 1) (k - 1) else 0) := by
    intro bs
    induction bs with
    | nil =>
      intro acc _ hWF
      refine ⟨hWF, Finset.subset_union_left, fun k => ?_, fun k t => ?_⟩
      · rw [List.foldl_nil, if_neg (List.not_mem_nil k), add_zero]
      · rw [List.foldl_nil, if_neg fun hc => List.not_mem_nil k hc.1, add_zero]
    | cons b bs ih =>
      intro acc hndb hWF
      have hndb' : bs.Nodup := (List.nodup_cons.mp hndb).2
      have hbnb : b ∉ bs := (List.nodup_cons.mp hndb).1
      have hWF' : SolWF (step acc b) := Sol.addWF hWF (hWFe b)
      obtain ⟨ihWF, ihtiles, ihN, ihF⟩ := ih (step acc b) hndb' hWF'
      rw [List.foldl_cons]
      refine ⟨ihWF, ?_, fun k => ?_, fun k t => ?_⟩
      · refine ihtiles.trans ?_
        intro x hx
        rcases Finset.mem_union.mp hx with hx | hx
        · have hsub := Sol.tiles_add_subset acc [entry b] hWF (hWFe b) hx
          rcases Finset.mem_union.mp hsub with hx | hx
          · exact Finset.mem_union_left _ hx
          · exact Finset.mem_union_right _ (htilese b hx)
        · exact Finset.mem_union_right _ hx
      · rw [ihN k]
        show Sol.N (Sol.add acc [entry b]) k + _ = _
        rw [Sol.add_N acc [entry b] (List.nodup_singleton _) k, hNe b k]
        by_cases hk : b = k
        · rw [if_pos hk, if_neg (fun hc => hbnb (by rw [hk]; exact hc)),
            if_pos (by rw [← hk]; exact List.mem_cons_self b bs), add_zero]
        · rw [if_neg hk, add_zero]
          by_cases hm : k ∈ bs
          · rw [if_pos hm, if_pos (List.mem_cons_of_mem b hm)]
          · rw [if_neg hm, if_neg (by
              intro hc
              rcases List.mem_cons.mp hc with hc | hc
              · exact hk hc.symm
              · exact hm hc)]
      · rw [ihF k t]
        show Sol.F (Sol.add acc [entry b]) k t + _ = _
        rw [Sol.add_F acc [entry b] (hWFe b) k t, hFe b k t]
        by_cases ht : t ∈ e.tiles
        · by_cases hk : b = k
          · rw [if_pos (⟨hk, ht⟩ : b = k ∧ t ∈ e.tiles),
              if_neg (fun hc => hbnb (by rw [hk]; exact hc.1)), add_zero,
              if_pos (⟨by rw [← hk]; exact List.mem_cons_self b bs, ht⟩ :
                k ∈ b :: bs ∧ t ∈ e.tiles)]
          · rw [if_neg (fun (hc : b = k ∧ t ∈ e.tiles) => hk hc.1), add_zero]
            by_cases hm : k ∈ bs
            · rw [if_pos (⟨hm, ht⟩ : k ∈ bs ∧ t ∈ e.tiles),
                if_pos (⟨List.mem_cons_of_mem b hm, ht⟩ :
                  k ∈ b :: bs ∧ t ∈ e.tiles)]
            · rw [if_neg (fun (hc : k ∈ bs ∧ t ∈ e.tiles) => hm hc.1), if_neg (by
                intro hc
                rcases List.mem_cons.mp hc.1 with hcc | hcc
                · exact hk hcc.symm
                · exact hm hcc)]
        · rw [if_neg (fun (hc : b = k ∧ t ∈ e.tiles) => ht hc.2),
            if_neg (fun (hc : k ∈ bs ∧ t ∈ e.tiles) => ht hc.2), add_zero,
            if_neg (fun (hc : k ∈ b :: bs ∧ t ∈ e.tiles) => ht hc.2)]
  obtain ⟨hWF, htiles, hN, hF⟩ := hfold e.bombs []
    hnd ⟨List.nodup_nil, fun p hp => absurd hp (List.not_mem_nil p)⟩
  refine ⟨hWF, ?_, fun k => ?_, fun k t => ?_⟩
  · refine htiles.trans ?_
    intro x hx
    rcases Finset.mem_union.mp hx with hx | hx
    · exact absurd hx (Finset.not_mem_empty x)
    · exact hx
  · rw [hN k, specN_single]
    show Sol.N [] k + _ = _
    rw [show Sol.N [] k = 0 from rfl, zero_add]
  · rw [hF k t, specF_single]
    show Sol.F [] k t + _ = _
    rw [show Sol.F [] k t = 0 from rfl, zero_add]

/-! ### The recursion step of `solve_area` -/

namespace Sol

theorem litSol_WF (b : ℤ) (t : Tile) : SolWF [(b, ([(t, b)], 1))] := by
  refine ⟨List.nodup_singleton b, ?_⟩
  intro p hp
  rcases List.mem_singleton.mp hp with rfl
  exact List.nodup_singleton t

theorem litSol_keys (b : ℤ) (t : Tile) : keys [(b, ([(t, b)], 1))] = {b} := rfl

theorem litSol_tiles (b : ℤ) (t : Tile) : tiles [(b, ([(t, b)], 1))] = {t} := by
  show (([(t, b)].map Prod.fst).toFinset : Finset Tile) ∪ ∅ = {t}
  rw [Finset.union_empty]
  rfl

theorem litSol_N (b k : ℤ) (t : Tile) :
    N [(b, ([(t, b)], 1))] k = if b = k then 1 else 0 := by
  show (dget [(b, ([(t, b)], 1))] k ([], 0)).2 = _
  rw [dget]
  by_cases h : b = k
  · rw [if_pos h, if_pos h]
  · rw [if_neg h, if_neg h]
    rfl

theorem litSol_F (b k : ℤ) (t u : Tile) :
    F [(b, ([(t, b)], 1))] k u = if b = k ∧ t = u then b else 0 := by
  show dget (dget [(b, ([(t, b)], 1))] k ([], 0)).1 u 0 = _
  rw [dget]
  by_cases h : b = k
  · rw [if_pos h]
    show dget [(t, b)] u 0 = _
    rw [dget]
    by_cases ht : t = u
    · rw [if_pos ht, if_pos ⟨h, ht⟩]
    · rw [if_neg ht, if_neg fun hc => ht hc.2]
      rfl
  · rw [if_neg h, if_neg fun hc => h hc.1]
    rfl

theorem litMul_WF (b : ℤ) (t : Tile) (sub : Sol) :
    SolWF (mul [(b, ([(t, b)], 1))] sub) := mulWF (litSol_WF b t)

theorem litMul_tiles (b : ℤ) (t : Tile) (sub : Sol) (hsub : SolWF sub) :
    tiles (mul [(b, ([(t, b)], 1))] sub) ⊆ {t} ∪ tiles sub := by
  refine (tiles_mul_subset [(b, ([(t, b)], 1))] sub (litSol_WF b t) hsub).trans ?_
  rw [litSol_tiles]

theorem litMul_N (b : ℤ) (t : Tile) (sub : Sol) (hsub : SolWF sub) (k : ℤ) :
    N (mul [(b, ([(t, b)], 1))] sub) k = N sub (k - b) := by
  rw [mul_N _ sub (litSol_WF b t) hsub, litSol_keys,
    Finset.sum_singleton (f := fun a => ∑ y in keys sub,
      if a + y = k then N [(b, ([(t, b)], 1))] a * N sub y else 0) b]
  have hterm : ∀ y ∈ keys sub, (if b + y = k then N [(b, ([(t, b)], 1))] b * N sub y else 0)
      = if y = k - b then N sub y else 0 := by
    intro y _
    by_cases h : b + y = k
    · rw [if_pos h, if_pos (show y = k - b by omega), litSol_N, if_pos rfl, one_mul]
    · rw [if_neg h, if_neg (show ¬ y = k - b by omega)]
  rw [Finset.sum_congr rfl hterm,
    Finset.sum_ite_eq' (keys sub) (k - b) (fun y => N sub y)]
  by_cases hm : k - b ∈ keys sub
  · rw [if_pos hm]
  · rw [if_neg hm, N_not_mem hm]

theorem litMul_F (b : ℤ) (t : Tile) (sub : Sol) (hsub : SolWF sub)
    (hdisjt : t ∉ tiles sub) (k : ℤ) (u : Tile) :
    F (mul [(b, ([(t, b)], 1))] sub) k u
      = if u = t then b * N sub (k - b) else F sub (k - b) u := by
  have hdisj : disjointTiles [(b, ([(t, b)], 1))] sub := by
    unfold disjointTiles
    rw [litSol_tiles, Finset.eq_empty_iff_forall_not_mem]
    intro x hx
    rcases Finset.mem_inter.mp hx with ⟨hx1, hx2⟩
    rcases Finset.mem_singleton.mp hx1 with rfl
    exact hdisjt hx2
  rw [mul_F_disjoint _ sub (litSol_WF b t) hsub hdisj, litSol_keys,
    Finset.sum_singleton (f := fun a => ∑ y in keys sub,
      if a + y = k
      then F [(b, ([(t, b)], 1))] a u * N sub y + F sub y u * N [(b, ([(t, b)], 1))] a
      else 0) b]
  by_cases hu : u = t
  · have hFu : F sub (k - b) u = 0 :=
      F_not_mem_dom fun hd => hdisjt (by rw [← hu]; exact dom_subset_tiles sub (k - b) hd)
    have hterm : ∀ y ∈ keys sub, (if b + y = k
        then F [(b, ([(t, b)], 1))] b u * N sub y + F sub y u * N [(b, ([(t, b)], 1))] b
        else 0) = if y = k - b then b * N sub y + F sub y u else 0 := by
      intro y _
      by_cases h : b + y = k
      · rw [if_pos h, if_pos (show y = k - b by omega), litSol_F, if_pos ⟨rfl, hu.symm⟩,
          litSol_N, if_pos rfl, mul_one]
      · rw [if_neg h, if_neg (show ¬ y = k - b by omega)]
    rw [if_pos hu, Finset.sum_congr rfl hterm,
      Finset.sum_ite_eq' (keys sub) (k - b) (fun y => b * N sub y + F sub y u)]
    by_cases hm : k - b ∈ keys sub
    · rw [if_pos hm, hFu, add_zero]
    · rw [if_neg hm, N_not_mem hm, mul_zero]
  · have hterm : ∀ y ∈ keys sub, (if b + y = k
        then F [(b, ([(t, b)], 1))] b u * N sub y + F sub y u * N [(b, ([(t, b)], 1))] b
        else 0) = if y = k - b then F sub y u else 0 := by
      intro y _
      by_cases h : b + y = k
      · rw [if_pos h, if_pos (show y = k - b by omega), litSol_F,
          if_neg (fun hc => hu hc.2.symm), litSol_N, if_pos rfl, mul_one,
          zero_mul, zero_add]
      · rw [if_neg h, if_neg (show ¬ y = k - b by omega)]
    rw [if_neg hu, Finset.sum_congr rfl hterm,
      Finset.sum_ite_eq' (keys sub) (k - b) (fun y => F sub y u)]
    by_cases hm : k - b ∈ keys sub
    · rw [if_pos hm]
    · rw [if_neg hm, F_not_mem_keys hm]

theorem add_nil_left (o : Sol) : add [] o = o := by
  rw [add, if_pos rfl]

end Sol

theorem lit_tiles (t : Tile) (b : ℤ) : (⟨{t}, [b]⟩ : BombEq).tiles = {t} := rfl

theorem layouts_append_lit (grp : List BombEq) (t : Tile) (b : ℤ)
    (ht : t ∈ tileSet grp) (k : ℤ) :
    layouts (grp ++ [(⟨{t}, [b]⟩ : BombEq)]) k
      = (layouts grp k).filter fun A => satisfies A (⟨{t}, [b]⟩ : BombEq) := by
  have hts : tileSet (grp ++ [(⟨{t}, [b]⟩ : BombEq)]) = tileSet grp := by
    rw [tileSet_append, tileSet_single, lit_tiles]
    exact Finset.union_eq_left.mpr (Finset.singleton_subset_iff.mpr ht)
  refine Finset.ext fun A => ?_
  rw [Finset.mem_filter, mem_layouts, mem_layouts, hts, satAll_append]
  constructor
  · rintro ⟨hsub, ⟨hsat, hlit⟩, hcard⟩
    exact ⟨⟨hsub, hsat, hcard⟩, hlit _ (List.mem_cons_self _ _)⟩
  · rintro ⟨⟨hsub, hsat, hcard⟩, hlit⟩
    refine ⟨hsub, ⟨hsat, ?_⟩, hcard⟩
    intro f hf
    rcases List.mem_cons.mp hf with rfl | hf
    · exact hlit
    · exact absurd hf (List.not_mem_nil f)

theorem spec_split (grp : List BombEq) (t : Tile) (ht : t ∈ tileSet grp) (k : ℤ) :
    (specN grp k = specN (grp ++ [(⟨{t}, [0]⟩ : BombEq)]) k
        + specN (grp ++ [(⟨{t}, [1]⟩ : BombEq)]) k)
      ∧ ∀ u, specF grp k u
          = specF (grp ++ [(⟨{t}, [0]⟩ : BombEq)]) k u
            + specF (grp ++ [(⟨{t}, [1]⟩ : BombEq)]) k u := by
  have hl0 : layouts (grp ++ [(⟨{t}, [0]⟩ : BombEq)]) k
      = (layouts grp k).filter fun A => t ∉ A := by
    rw [layouts_append_lit grp t 0 ht k]
    exact Finset.filter_congr fun A _ => BombEq.satisfies_single_not_mem
  have hl1 : layouts (grp ++ [(⟨{t}, [1]⟩ : BombEq)]) k
      = (layouts grp k).filter fun A => t ∈ A := by
    rw [layouts_append_lit grp t 1 ht k]
    exact Finset.filter_congr fun A _ => BombEq.satisfies_single_mem
  constructor
  · unfold specN
    rw [hl0, hl1]
    have hsplitc := Finset.filter_card_add_filter_neg_card_eq_card
      (s := layouts grp k) (p := fun A => t ∈ A)
    push_cast at hsplitc
    omega
  · intro u
    unfold specF
    rw [hl0, hl1, Finset.filter_comm, Finset.filter_comm (fun A => t ∈ A)]
    have hsplitc := Finset.filter_card_add_filter_neg_card_eq_card
      (s := (layouts grp k).filter fun A => u ∈ A) (p := fun A => t ∈ A)
    push_cast at hsplitc
    omega

theorem EqOK_tiles_nonempty {e : BombEq} (h : EqOK e) : e.tiles ≠ ∅ := by
  intro hc
  obtain ⟨himp, hsp, hnd, hrange⟩ := h
  apply hsp
  have hbne : e.bombs ≠ [] := himp
  obtain ⟨b0, bs, hbs⟩ : ∃ b0 bs, e.bombs = b0 :: bs := by
    cases hb : e.bombs with
    | nil => exact absurd hb hbne
    | cons b0 bs => exact ⟨b0, bs, rfl⟩
  have hb0 : b0 = 0 := by
    have := hrange b0 (by rw [hbs]; exact List.mem_cons_self b0 bs)
    rw [hc] at this
    simp at this
    omega
  have hbs0 : bs = [] := by
    cases hbsc : bs with
    | nil => rfl
    | cons b1 bs' =>
      exfalso
      have hb1 : b1 = 0 := by
        have := hrange b1 (by
          rw [hbs, hbsc]
          exact List.mem_cons_of_mem b0 (List.mem_cons_self b1 bs'))
        rw [hc] at this
        simp at this
        omega
      rw [hbs, hbsc, hb0, hb1] at hnd
      exact (List.nodup_cons.mp hnd).1 (List.mem_cons_self 0 bs')
  refine ⟨by rw [hc]; simp, Or.inl ⟨by rw [hbs, hbs0]; rfl, Or.inl ?_⟩⟩
  rw [hbs, hbs0, hb0]
  rfl

namespace BombEq

theorem scan_true_not_mem {new : BombEq} :
    ∀ {store : List BombEq}, (scan new store).2.2 = true → new ∉ store := by
  intro store
  induction store with
  | nil => simp
  | cons old rest ih =>
    intro h
    rw [scan] at h
    by_cases h1 : new = old
    · simp [h1] at h
    · by_cases h2 : le new old
      · simp only [if_neg h1, if_pos h2] at h
        simp only [List.mem_cons, not_or]
        exact ⟨h1, ih h⟩
      · by_cases h3 : le old new
        · simp [h1, h2, h3] at h
        · simp only [if_neg h1, if_neg h2, if_neg h3] at h
          simp only [List.mem_cons, not_or]
          exact ⟨h1, ih h⟩

theorem foldl_erase_sublist :
    ∀ (marked store : List BombEq), (marked.foldl List.erase store).Sublist store := by
  intro marked
  induction marked with
  | nil => intro store; exact List.Sublist.refl store
  | cons m ms ih =>
    intro store
    exact (ih (store.erase m)).trans (store.erase_sublist m)

theorem scan_cons_eq {new old : BombEq} (rest : List BombEq) (h : new = old) :
    scan new (old :: rest) = ([], [], false) := by
  rw [scan, if_pos h]

theorem scan_cons_mark {new old : BombEq} (rest : List BombEq) (h1 : ¬ new = old)
    (h2 : le new old) :
    scan new (old :: rest)
      = ((old.sub new) :: (scan new rest).1, old :: (scan new rest).2.1,
          (scan new rest).2.2) := by
  rw [scan, if_neg h1, if_pos h2]

theorem scan_cons_stop {new old : BombEq} (rest : List BombEq) (h1 : ¬ new = old)
    (h2 : ¬ le new old) (h3 : le old new) :
    scan new (old :: rest) = ([new.sub old], [], false) := by
  rw [scan, if_neg h1, if_neg h2, if_pos h3]

theorem scan_cons_skip {new old : BombEq} (rest : List BombEq) (h1 : ¬ new = old)
    (h2 : ¬ le new old) (h3 : ¬ le old new) :
    scan new (old :: rest) = scan new rest := by
  rw [scan, if_neg h1, if_neg h2, if_neg h3]

theorem scan_marked_sublist (new : BombEq) :
    ∀ store : List BombEq, (scan new store).2.1.Sublist store := by
  intro store
  induction store with
  | nil => exact List.nil_sublist []
  | cons old rest ih =>
    by_cases h1 : new = old
    · rw [scan_cons_eq rest h1]
      exact List.nil_sublist _
    · by_cases h2 : le new old
      · rw [scan_cons_mark rest h1 h2]
        exact ih.cons₂ old
      · by_cases h3 : le old new
        · rw [scan_cons_stop rest h1 h2 h3]
          exact List.nil_sublist _
        · rw [scan_cons_skip rest h1 h2 h3]
          exact ih.cons old

theorem foldl_erase_cons_of_ne {ms : List BombEq} {a : BombEq} :
    ∀ {l : List BombEq}, (∀ x ∈ ms, x ≠ a) →
      ms.foldl List.erase (a :: l) = a :: ms.foldl List.erase l := by
  induction ms with
  | nil => intro l _; rfl
  | cons m ms ih =>
    intro l h
    have hma : m ≠ a := h m (List.mem_cons_self m ms)
    show ms.foldl List.erase ((a :: l).erase m) = a :: ms.foldl List.erase (l.erase m)
    have hne : ¬((a == m) = true) := by
      simp only [beq_iff_eq]
      exact fun hh => hma hh.symm
    rw [List.erase_cons, if_neg hne]
    exact ih fun x hx => h x (List.mem_cons_of_mem m hx)

theorem scan_rem_props {new : BombEq} :
    ∀ {store : List BombEq}, store.Nodup → (scan new store).2.2 = true →
      ∀ q ∈ (scan new store).2.1.foldl List.erase store,
        q ≠ new ∧ ¬ le new q ∧ ¬ le q new := by
  intro store
  induction store with
  | nil => intro _ _ q hq; exact absurd hq (List.not_mem_nil q)
  | cons old rest ih =>
    intro hnd hflag q hq
    have hndr : rest.Nodup := (List.nodup_cons.mp hnd).2
    have hold_nm : old ∉ rest := (List.nodup_cons.mp hnd).1
    by_cases h1 : new = old
    · rw [scan_cons_eq rest h1] at hflag
      exact Bool.noConfusion hflag
    · by_cases h2 : le new old
      · rw [scan_cons_mark rest h1 h2] at hflag hq
        have hq' : q ∈ (scan new rest).2.1.foldl List.erase rest := by
          have : (old :: (scan new rest).2.1).foldl List.erase (old :: rest)
              = (scan new rest).2.1.foldl List.erase rest := by
            rw [List.foldl_cons, List.erase_cons_head]
          rw [← this]
          exact hq
        exact ih hndr hflag q hq'
      · by_cases h3 : le old new
        · rw [scan_cons_stop rest h1 h2 h3] at hflag
          exact Bool.noConfusion hflag
        · rw [scan_cons_skip rest h1 h2 h3] at hflag hq
          have hrem : (scan new rest).2.1.foldl List.erase (old :: rest)
              = old :: (scan new rest).2.1.foldl List.erase rest :=
            foldl_erase_cons_of_ne fun x hx hxa =>
              hold_nm (hxa ▸ (scan_marked_sublist new rest).mem hx)
          rw [hrem] at hq
          rcases List.mem_cons.mp hq with rfl | hq
          · exact ⟨fun h => h1 h.symm, h2, h3⟩
          · exact ih hndr hflag q hq

theorem scan_sat {new : BombEq} :
    ∀ {store : List BombEq}, store.Nodup → ∀ A, satisfies A new →
      (satAll A store ↔
        satAll A ((scan new store).2.1.foldl List.erase store) ∧
          satAll A (scan new store).1) := by
  intro store
  induction store with
  | nil =>
    intro _ A _
    exact ⟨fun h => ⟨h, satAll_nil A⟩, fun h => h.1⟩
  | cons old rest ih =>
    intro hnd A hA
    have hndr : rest.Nodup := (List.nodup_cons.mp hnd).2
    have hold_nm : old ∉ rest := (List.nodup_cons.mp hnd).1
    by_cases h1 : new = old
    · rw [scan_cons_eq rest h1]
      exact ⟨fun h => ⟨h, satAll_nil A⟩, fun h => h.1⟩
    · by_cases h2 : le new old
      · rw [scan_cons_mark rest h1 h2]
        show satAll A (old :: rest) ↔
          satAll A ((old :: (scan new rest).2.1).foldl List.erase (old :: rest)) ∧
            satAll A ((old.sub new) :: (scan new rest).1)
        rw [show (old :: (scan new rest).2.1).foldl List.erase (old :: rest)
            = (scan new rest).2.1.foldl List.erase rest from by
          rw [List.foldl_cons, List.erase_cons_head]]
        rw [satAll_cons, satAll_cons, ih hndr A hA, satisfies_sub h2 hA]
        tauto
      · by_cases h3 : le old new
        · rw [scan_cons_stop rest h1 h2 h3]
          show satAll A (old :: rest) ↔
            satAll A (([] : List BombEq).foldl List.erase (old :: rest)) ∧
              satAll A [new.sub old]
          show satAll A (old :: rest) ↔ satAll A (old :: rest) ∧ satAll A [new.sub old]
          constructor
          · intro hs
            refine ⟨hs, ?_⟩
            rw [satAll_cons]
            exact ⟨(satisfies_sub h3 (satAll_cons.mp hs).1).mp hA, satAll_nil A⟩
          · exact fun h => h.1
        · rw [scan_cons_skip rest h1 h2 h3]
          rw [show (scan new rest).2.1.foldl List.erase (old :: rest)
              = old :: (scan new rest).2.1.foldl List.erase rest from
            foldl_erase_cons_of_ne fun x hx hxa =>
              hold_nm (hxa ▸ (scan_marked_sublist new rest).mem hx)]
          rw [satAll_cons, satAll_cons, ih hndr A hA]
          tauto

theorem scan_recover {new : BombEq} :
    ∀ {store : List BombEq}, store.Nodup → (scan new store).2.2 = false →
      ∀ A, satAll A ((scan new store).2.1.foldl List.erase store) →
        satAll A (scan new store).1 → satisfies A new := by
  intro store
  induction store with
  | nil => intro _ hflag; exact Bool.noConfusion hflag
  | cons old rest ih =>
    intro hnd hflag A hrem hpush
    have hndr : rest.Nodup := (List.nodup_cons.mp hnd).2
    have hold_nm : old ∉ rest := (List.nodup_cons.mp hnd).1
    by_cases h1 : new = old
    · rw [scan_cons_eq rest h1] at hrem
      exact h1 ▸ (satAll_cons.mp hrem).1
    · by_cases h2 : le new old
      · rw [scan_cons_mark rest h1 h2] at hflag hrem hpush
        have hrem' : satAll A ((scan new rest).2.1.foldl List.erase rest) := by
          rw [show (old :: (scan new rest).2.1).foldl List.erase (old :: rest)
              = (scan new rest).2.1.foldl List.erase rest from by
            rw [List.foldl_cons, List.erase_cons_head]] at hrem
          exact hrem
        exact ih hndr hflag A hrem' (satAll_cons.mp hpush).2
      · by_cases h3 : le old new
        · rw [scan_cons_stop rest h1 h2 h3] at hrem hpush
          exact (satisfies_sub h3 (satAll_cons.mp hrem).1).mpr (satAll_cons.mp hpush).1
        · rw [scan_cons_skip rest h1 h2 h3] at hflag hrem hpush
          rw [show (scan new rest).2.1.foldl List.erase (old :: rest)
              = old :: (scan new rest).2.1.foldl List.erase rest from
            foldl_erase_cons_of_ne fun x hx hxa =>
              hold_nm (hxa ▸ (scan_marked_sublist new rest).mem hx)] at hrem
          exact ih hndr hflag A (satAll_cons.mp hrem).2 hpush

theorem scan_tileSet {new : BombEq} :
    ∀ {store : List BombEq}, store.Nodup →
      tileSet ((scan new store).2.1.foldl List.erase store)
          ∪ tileSet (scan new store).1
          ∪ (if (scan new store).2.2 = true then new.tiles else ∅)
        = tileSet store ∪ new.tiles := by
  intro store
  induction store with
  | nil =>
    intro _
    show (∅ : Finset Tile) ∪ ∅ ∪ new.tiles = ∅ ∪ new.tiles
    rw [Finset.empty_union, Finset.empty_union]
  | cons old rest ih =>
    intro hnd
    have hndr : rest.Nodup := (List.nodup_cons.mp hnd).2
    have hold_nm : old ∉ rest := (List.nodup_cons.mp hnd).1
    by_cases h1 : new = old
    · rw [scan_cons_eq rest h1]
      show tileSet (old :: rest) ∪ tileSet ([] : List BombEq) ∪ ∅ = _
      rw [tileSet_nil, Finset.union_empty, Finset.union_empty, tileSet_cons, h1]
      refine Finset.ext fun x => ?_
      simp only [Finset.mem_union]
      tauto
    · by_cases h2 : le new old
      · rw [scan_cons_mark rest h1 h2]
        show tileSet ((old :: (scan new rest).2.1).foldl List.erase (old :: rest))
            ∪ tileSet ((old.sub new) :: (scan new rest).1)
            ∪ (if (scan new rest).2.2 = true then new.tiles else ∅)
          = tileSet (old :: rest) ∪ new.tiles
        rw [show (old :: (scan new rest).2.1).foldl List.erase (old :: rest)
            = (scan new rest).2.1.foldl List.erase rest from by
          rw [List.foldl_cons, List.erase_cons_head]]
        rw [tileSet_cons, sub_tiles, tileSet_cons]
        have ihx := Finset.ext_iff.mp (ih hndr)
        refine Finset.ext fun x => ?_
        have hx := ihx x
        simp only [Finset.mem_union, Finset.mem_sdiff] at hx ⊢
        tauto
      · by_cases h3 : le old new
        · rw [scan_cons_stop rest h1 h2 h3]
          show tileSet (old :: rest) ∪ tileSet [new.sub old] ∪ ∅
            = tileSet (old :: rest) ∪ new.tiles
          rw [Finset.union_empty, tileSet_cons, tileSet_cons, tileSet_nil,
            Finset.union_empty, sub_tiles]
          refine Finset.ext fun x => ?_
          simp only [Finset.mem_union, Finset.mem_sdiff]
          tauto
        · rw [scan_cons_skip rest h1 h2 h3]
          rw [show (scan new rest).2.1.foldl List.erase (old :: rest)
              = old :: (scan new rest).2.1.foldl List.erase rest from
            foldl_erase_cons_of_ne fun x hx hxa =>
              hold_nm (hxa ▸ (scan_marked_sublist new rest).mem hx)]
          rw [tileSet_cons, tileSet_cons]
          have ihx := Finset.ext_iff.mp (ih hndr)
          refine Finset.ext fun x => ?_
          have hx := ihx x
          simp only [Finset.mem_union] at hx ⊢
          tauto

theorem scan_pushed_EqC {new : BombEq} :
    ∀ {store : List BombEq}, (∀ e ∈ store, EqC e) → EqC new →
      ∀ p ∈ (scan new store).1, EqC p := by
  intro store
  induction store with
  | nil => intro _ _ p hp; exact absurd hp (List.not_mem_nil p)
  | cons old rest ih =>
    intro hstore hnew p hp
    have hrest : ∀ e ∈ rest, EqC e := fun e he => hstore e (List.mem_cons_of_mem old he)
    by_cases h1 : new = old
    · rw [scan_cons_eq rest h1] at hp
      exact absurd hp (List.not_mem_nil p)
    · by_cases h2 : le new old
      · rw [scan_cons_mark rest h1 h2] at hp
        rcases List.mem_cons.mp hp with rfl | hp
        · exact EqC_sub new (hstore old (List.mem_cons_self old rest))
        · exact ih hrest hnew p hp
      · by_cases h3 : le old new
        · rw [scan_cons_stop rest h1 h2 h3] at hp
          rcases List.mem_cons.mp hp with rfl | hp
          · exact EqC_sub old hnew
          · exact absurd hp (List.not_mem_nil p)
        · rw [scan_cons_skip rest h1 h2 h3] at hp
          exact ih hrest hnew p hp

theorem integrateFuel_storeOK :
    ∀ (fuel : ℕ) (store stack store' : List BombEq),
      integrateFuel fuel store stack = some (store', true) →
      StoreOK store → StoreOK store' := by
  intro fuel
  induction fuel with
  | zero => intro store stack store' h; simp [integrateFuel] at h
  | succ fuel ih =>
    intro store stack store' h hOK
    match stack with
    | [] =>
      rw [integrateFuel] at h
      injection h with h1
      injection h1 with h2 h3
      subst h2
      exact hOK
    | new :: rest =>
      rw [integrateFuel] at h
      by_cases himp : new.isImpossible
      · rw [if_pos himp] at h
        injection h with h1
        injection h1 with h2 h3
        exact Bool.noConfusion h3
      · rw [if_neg himp] at h
        by_cases hsp : new.isSplittable
        · rw [if_pos hsp] at h
          exact ih _ _ _ h hOK
        · rw [if_neg hsp] at h
          refine ih _ _ _ h ?_
          have hsub := foldl_erase_sublist (scan new store).2.1 store
          have hOK' : StoreOK ((scan new store).2.1.foldl List.erase store) :=
            ⟨hOK.1.sublist hsub, fun e he => hOK.2 e (hsub.mem he)⟩
          by_cases hadd : (scan new store).2.2 = true
          · rw [if_pos hadd]
            have hnm : new ∉ (scan new store).2.1.foldl List.erase store :=
              fun hmem => scan_true_not_mem hadd (hsub.mem hmem)
            refine ⟨?_, ?_⟩
            · rw [List.nodup_append]
              exact ⟨hOK'.1, List.nodup_singleton new, by
                simpa [List.disjoint_singleton] using hnm⟩
            · intro e he
              rcases List.mem_append.mp he with he | he
              · exact hOK'.2 e he
              · rcases List.mem_singleton.mp he with rfl
                exact ⟨himp, hsp⟩
          · rw [if_neg hadd]
            exact hOK'

theorem integrateFuel_step {fuel : ℕ} {store : List BombEq} {new : BombEq}
    {rest : List BombEq} (himp : ¬ new.isImpossible) (hsp : ¬ new.isSplittable) :
    integrateFuel (fuel + 1) store (new :: rest)
      = integrateFuel fuel
          (if (scan new store).2.2 = true
            then (scan new store).2.1.foldl List.erase store ++ [new]
            else (scan new store).2.1.foldl List.erase store)
          ((scan new store).1.reverse ++ rest) := by
  rw [integrateFuel, if_neg himp, if_neg hsp]

theorem GroupOK_sublist {l l' : List BombEq} (hsub : l'.Sublist l)
    (h : GroupOK l) : GroupOK l' :=
  ⟨h.1.sublist hsub, fun e he => h.2.1 e (hsub.mem he),
    fun e he f hf hef => h.2.2 e (hsub.mem he) f (hsub.mem hf) hef⟩

theorem integrateFuel_main :
    ∀ (fuel : ℕ) (store stack store' : List BombEq),
      integrateFuel fuel store stack = some (store', true) →
      GroupOK store → (∀ e ∈ stack, EqC e) →
      GroupOK store'
        ∧ (∀ A, (satAll A store ∧ satAll A stack) ↔ satAll A store')
        ∧ tileSet store' = tileSet store ∪ tileSet stack := by
  intro fuel
  induction fuel with
  | zero => intro store stack store' h; simp [integrateFuel] at h
  | succ fuel ih =>
    intro store stack store' h hOK hstack
    match stack with
    | [] =>
      rw [integrateFuel] at h
      injection h with h1
      injection h1 with h2 h3
      subst h2
      refine ⟨hOK, fun A => ⟨fun hh => hh.1, fun hh => ⟨hh, satAll_nil A⟩⟩, ?_⟩
      rw [tileSet_nil, Finset.union_empty]
    | new :: rest =>
      have hnewC : EqC new := hstack new (List.mem_cons_self new rest)
      have hrestC : ∀ e ∈ rest, EqC e := fun e he =>
        hstack e (List.mem_cons_of_mem new he)
      rw [integrateFuel] at h
      by_cases himp : new.isImpossible
      · rw [if_pos himp] at h
        injection h with h1
        injection h1 with h2 h3
        exact Bool.noConfusion h3
      · rw [if_neg himp] at h
        by_cases hsp : new.isSplittable
        · rw [if_pos hsp] at h
          have hstack' : ∀ e ∈ new.split.reverse ++ rest, EqC e := by
            intro e he
            rcases List.mem_append.mp he with he | he
            · exact split_EqC (List.mem_reverse.mp he)
            · exact hrestC e he
          obtain ⟨hOK', hsat', hts'⟩ := ih _ _ _ h hOK hstack'
          refine ⟨hOK', ?_, ?_⟩
          · intro A
            rw [← hsat' A, satAll_cons, satAll_append,
              satAll_perm (List.reverse_perm new.split),
              satisfies_split hsp hnewC]
          · rw [hts', tileSet_append, tileSet_perm (List.reverse_perm new.split),
              split_tileSet, tileSet_cons]
        · rw [if_neg hsp] at h
          have hstep : integrateFuel fuel
              (if (scan new store).2.2 = true
                then (scan new store).2.1.foldl List.erase store ++ [new]
                else (scan new store).2.1.foldl List.erase store)
              ((scan new store).1.reverse ++ rest) = some (store', true) := h
          have hsub := foldl_erase_sublist (scan new store).2.1 store
          have hremOK : GroupOK ((scan new store).2.1.foldl List.erase store) :=
            GroupOK_sublist hsub hOK
          have hstack' : ∀ e ∈ (scan new store).1.reverse ++ rest, EqC e := by
            intro e he
            rcases List.mem_append.mp he with he | he
            · exact scan_pushed_EqC (fun q hq => (hOK.2.1 q hq).2.2) hnewC e
                (List.mem_reverse.mp he)
            · exact hrestC e he
          by_cases hadd : (scan new store).2.2 = true
          · rw [if_pos hadd] at hstep
            have hnm : new ∉ (scan new store).2.1.foldl List.erase store :=
              fun hmem => scan_true_not_mem hadd (hsub.mem hmem)
            have hOK'' : GroupOK
                ((scan new store).2.1.foldl List.erase store ++ [new]) := by
              refine ⟨?_, ?_, ?_⟩
              · rw [List.nodup_append]
                exact ⟨hremOK.1, List.nodup_singleton new, by
                  simpa [List.disjoint_singleton] using hnm⟩
              · intro e he
                rcases List.mem_append.mp he with he | he
                · exact hremOK.2.1 e he
                · rcases List.mem_singleton.mp he with rfl
                  exact ⟨himp, hsp, hnewC⟩
              · intro e he f hf hef
                rcases List.mem_append.mp he with he | he
                · rcases List.mem_append.mp hf with hf | hf
                  · exact hremOK.2.2 e he f hf hef
                  · rcases List.mem_singleton.mp hf with rfl
                    exact (scan_rem_props hOK.1 hadd e he).2.2
                · rcases List.mem_singleton.mp he with rfl
                  rcases List.mem_append.mp hf with hf | hf
                  · exact (scan_rem_props hOK.1 hadd f hf).2.1
                  · rcases List.mem_singleton.mp hf with rfl
                    exact absurd rfl hef
            obtain ⟨hOK', hsat', hts'⟩ := ih _ _ _ hstep hOK'' hstack'
            refine ⟨hOK', ?_, ?_⟩
            · intro A
              rw [← hsat' A]
              constructor
              · rintro ⟨hs, hns⟩
                have hnew := (satAll_cons.mp hns).1
                have hrest := (satAll_cons.mp hns).2
                have hsc := (scan_sat hOK.1 A hnew).mp hs
                refine ⟨satAll_append.mpr ⟨hsc.1,
                  satAll_cons.mpr ⟨hnew, satAll_nil A⟩⟩, satAll_append.mpr ⟨?_, hrest⟩⟩
                exact (satAll_perm (List.reverse_perm _)).mpr hsc.2
              · rintro ⟨hs'', hw⟩
                have hrem := (satAll_append.mp hs'').1
                have hnew := (satAll_cons.mp (satAll_append.mp hs'').2).1
                have hpush := (satAll_perm (List.reverse_perm _)).mp
                  (satAll_append.mp hw).1
                have hrest := (satAll_append.mp hw).2
                exact ⟨(scan_sat hOK.1 A hnew).mpr ⟨hrem, hpush⟩,
                  satAll_cons.mpr ⟨hnew, hrest⟩⟩
            · have hscan := @scan_tileSet new store hOK.1
              rw [if_pos hadd] at hscan
              rw [hts', tileSet_append, tileSet_append,
                tileSet_perm (List.reverse_perm _), tileSet_cons, tileSet_cons,
                tileSet_nil]
              have hscanx := Finset.ext_iff.mp hscan
              refine Finset.ext fun x => ?_
              have hx := hscanx x
              simp only [Finset.mem_union, Finset.union_empty] at hx ⊢
              tauto
          · rw [if_neg hadd] at hstep
            have hflag : (scan new store).2.2 = false := by
              revert hadd
              cases (scan new store).2.2 <;> simp
            obtain ⟨hOK', hsat', hts'⟩ := ih _ _ _ hstep hremOK hstack'
            refine ⟨hOK', ?_, ?_⟩
            · intro A
              rw [← hsat' A]
              constructor
              · rintro ⟨hs, hns⟩
                have hnew := (satAll_cons.mp hns).1
                have hrest := (satAll_cons.mp hns).2
                have hsc := (scan_sat hOK.1 A hnew).mp hs
                refine ⟨hsc.1, satAll_append.mpr ⟨?_, hrest⟩⟩
                exact (satAll_perm (List.reverse_perm _)).mpr hsc.2
              · rintro ⟨hrem, hw⟩
                have hpush := (satAll_perm (List.reverse_perm _)).mp
                  (satAll_append.mp hw).1
                have hrest := (satAll_append.mp hw).2
                have hnew := scan_recover hOK.1 hflag A hrem hpush
                exact ⟨(scan_sat hOK.1 A hnew).mpr ⟨hrem, hpush⟩,
                  satAll_cons.mpr ⟨hnew, hrest⟩⟩
            · have hscan := @scan_tileSet new store hOK.1
              rw [hflag] at hscan
              rw [show (if (false = true) then new.tiles else ∅) = ∅ from rfl] at hscan
              rw [hts', tileSet_append, tileSet_perm (List.reverse_perm _),
                tileSet_cons]
              have hscanx := Finset.ext_iff.mp hscan
              refine Finset.ext fun x => ?_
              have hx := hscanx x
              simp only [Finset.mem_union, Finset.union_empty] at hx ⊢
              tauto

theorem integrateFuel_unsat :
    ∀ (fuel : ℕ) (store stack store' : List BombEq),
      integrateFuel fuel store stack = some (store', false) →
      GroupOK store → (∀ e ∈ stack, EqC e) →
      ∀ A, satAll A store → satAll A stack → False := by
  intro fuel
  induction fuel with
  | zero => intro store stack store' h; simp [integrateFuel] at h
  | succ fuel ih =>
    intro store stack store' h hOK hstack A hsA hkA
    match stack with
    | [] =>
      rw [integrateFuel] at h
      injection h with h1
      injection h1 with h2 h3
      exact Bool.noConfusion h3
    | new :: rest =>
      have hnewC : EqC new := hstack new (List.mem_cons_self new rest)
      have hrestC : ∀ e ∈ rest, EqC e := fun e he =>
        hstack e (List.mem_cons_of_mem new he)
      have hnew := (satAll_cons.mp hkA).1
      have hrest := (satAll_cons.mp hkA).2
      rw [integrateFuel] at h
      by_cases himp : new.isImpossible
      · unfold satisfies at hnew
        rw [himp] at hnew
        exact absurd hnew (List.not_mem_nil _)
      · rw [if_neg himp] at h
        by_cases hsp : new.isSplittable
        · rw [if_pos hsp] at h
          have hstack' : ∀ e ∈ new.split.reverse ++ rest, EqC e := by
            intro e he
            rcases List.mem_append.mp he with he | he
            · exact split_EqC (List.mem_reverse.mp he)
            · exact hrestC e he
          refine ih _ _ _ h hOK hstack' A hsA (satAll_append.mpr ⟨?_, hrest⟩)
          exact (satAll_perm (List.reverse_perm _)).mpr
            ((satisfies_split hsp hnewC).mp hnew)
        · rw [if_neg hsp] at h
          have hstep : integrateFuel fuel
              (if (scan new store).2.2 = true
                then (scan new store).2.1.foldl List.erase store ++ [new]
                else (scan new store).2.1.foldl List.erase store)
              ((scan new store).1.reverse ++ rest) = some (store', false) := h
          have hsub := foldl_erase_sublist (scan new store).2.1 store
          have hremOK : GroupOK ((scan new store).2.1.foldl List.erase store) :=
            GroupOK_sublist hsub hOK
          have hstack' : ∀ e ∈ (scan new store).1.reverse ++ rest, EqC e := by
            intro e he
            rcases List.mem_append.mp he with he | he
            · exact scan_pushed_EqC (fun q hq => (hOK.2.1 q hq).2.2) hnewC e
                (List.mem_reverse.mp he)
            · exact hrestC e he
          have hsc := (scan_sat hOK.1 A hnew).mp hsA
          have hw : satAll A ((scan new store).1.reverse ++ rest) :=
            satAll_append.mpr ⟨(satAll_perm (List.reverse_perm _)).mpr hsc.2, hrest⟩
          by_cases hadd : (scan new store).2.2 = true
          · rw [if_pos hadd] at hstep
            have hnm : new ∉ (scan new store).2.1.foldl List.erase store :=
              fun hmem => scan_true_not_mem hadd (hsub.mem hmem)
            have hOK'' : GroupOK
                ((scan new store).2.1.foldl List.erase store ++ [new]) := by
              refine ⟨?_, ?_, ?_⟩
              · rw [List.nodup_append]
                exact ⟨hremOK.1, List.nodup_singleton new, by
                  simpa [List.disjoint_singleton] using hnm⟩
              · intro e he
                rcases List.mem_append.mp he with he | he
                · exact hremOK.2.1 e he
                · rcases List.mem_singleton.mp he with rfl
                  exact ⟨himp, hsp, hnewC⟩
              · intro e he f hf hef
                rcases List.mem_append.mp he with he | he
                · rcases List.mem_append.mp hf with hf | hf
                  · exact hremOK.2.2 e he f hf hef
                  · rcases List.mem_singleton.mp hf with rfl
                    exact (scan_rem_props hOK.1 hadd e he).2.2
                · rcases List.mem_singleton.mp he with rfl
                  rcases List.mem_append.mp hf with hf | hf
                  · exact (scan_rem_props hOK.1 hadd f hf).2.1
                  · rcases List.mem_singleton.mp hf with rfl
                    exact absurd rfl hef
            exact ih _ _ _ hstep hOK'' hstack' A
              (satAll_append.mpr ⟨hsc.1, satAll_cons.mpr ⟨hnew, satAll_nil A⟩⟩) hw
          · rw [if_neg hadd] at hstep
            exact ih _ _ _ hstep hremOK hstack' A hsc.1 hw

theorem integrateFuel_false :
    ∀ (fuel : ℕ) (store stack store' : List BombEq),
      integrateFuel fuel store stack = some (store', false) →
      GroupOK store → (∀ e ∈ stack, EqC e) →
      GroupOK store' ∧ tileSet store' ⊆ tileSet store ∪ tileSet stack := by
  intro fuel
  induction fuel with
  | zero => intro store stack store' h; simp [integrateFuel] at h
  | succ fuel ih =>
    intro store stack store' h hOK hstack
    match stack with
    | [] =>
      rw [integrateFuel] at h
      injection h with h1
      injection h1 with h2 h3
      exact Bool.noConfusion h3
    | new :: rest =>
      have hnewC : EqC new := hstack new (List.mem_cons_self new rest)
      have hrestC : ∀ e ∈ rest, EqC e := fun e he =>
        hstack e (List.mem_cons_of_mem new he)
      rw [integrateFuel] at h
      by_cases himp : new.isImpossible
      · rw [if_pos himp] at h
        injection h with h1
        injection h1 with h2 h3
        subst h2
        exact ⟨hOK, fun x hx => Finset.mem_union_left _ hx⟩
      · rw [if_neg himp] at h
        by_cases hsp : new.isSplittable
        · rw [if_pos hsp] at h
          have hstack2 : ∀ e ∈ new.split.reverse ++ rest, EqC e := by
            intro e he
            rcases List.mem_append.mp he with he | he
            · exact split_EqC (List.mem_reverse.mp he)
            · exact hrestC e he
          obtain ⟨hOK2, hts2⟩ := ih _ _ _ h hOK hstack2
          refine ⟨hOK2, hts2.trans ?_⟩
          rw [tileSet_append, tileSet_perm (List.reverse_perm new.split),
            split_tileSet, tileSet_cons]
        · rw [if_neg hsp] at h
          have hstep : integrateFuel fuel
              (if (scan new store).2.2 = true
                then (scan new store).2.1.foldl List.erase store ++ [new]
                else (scan new store).2.1.foldl List.erase store)
              ((scan new store).1.reverse ++ rest) = some (store', false) := h
          have hsub := foldl_erase_sublist (scan new store).2.1 store
          have hremOK : GroupOK ((scan new store).2.1.foldl List.erase store) :=
            GroupOK_sublist hsub hOK
          have hstack2 : ∀ e ∈ (scan new store).1.reverse ++ rest, EqC e := by
            intro e he
            rcases List.mem_append.mp he with he | he
            · exact scan_pushed_EqC (fun q hq => (hOK.2.1 q hq).2.2) hnewC e
                (List.mem_reverse.mp he)
            · exact hrestC e he
          have hscan := @scan_tileSet new store hOK.1
          by_cases hadd : (scan new store).2.2 = true
          · rw [if_pos hadd] at hstep
            rw [if_pos hadd] at hscan
            have hnm : new ∉ (scan new store).2.1.foldl List.erase store :=
              fun hmem => scan_true_not_mem hadd (hsub.mem hmem)
            have hOK2pre : GroupOK
                ((scan new store).2.1.foldl List.erase store ++ [new]) := by
              refine ⟨?_, ?_, ?_⟩
              · rw [List.nodup_append]
                exact ⟨hremOK.1, List.nodup_singleton new, by
                  simpa [List.disjoint_singleton] using hnm⟩
              · intro e he
                rcases List.mem_append.mp he with he | he
                · exact hremOK.2.1 e he
                · rcases List.mem_singleton.mp he with rfl
                  exact ⟨himp, hsp, hnewC⟩
              · intro e he f hf hef
                rcases List.mem_append.mp he with he | he
                · rcases List.mem_append.mp hf with hf | hf
                  · exact hremOK.2.2 e he f hf hef
                  · rcases List.mem_singleton.mp hf with rfl
                    exact (scan_rem_props hOK.1 hadd e he).2.2
                · rcases List.mem_singleton.mp he with rfl
                  rcases List.mem_append.mp hf with hf | hf
                  · exact (scan_rem_props hOK.1 hadd f hf).2.1
                  · rcases List.mem_singleton.mp hf with rfl
                    exact absurd rfl hef
            obtain ⟨hOK2, hts2⟩ := ih _ _ _ hstep hOK2pre hstack2
            refine ⟨hOK2, hts2.trans ?_⟩
            rw [tileSet_append, tileSet_single, tileSet_append,
              tileSet_perm (List.reverse_perm (scan new store).1), tileSet_cons]
            intro x hx
            have hsx := Finset.ext_iff.mp hscan x
            simp only [Finset.mem_union] at hx hsx ⊢
            tauto
          · rw [if_neg hadd] at hstep
            have hflag : (scan new store).2.2 = false := by
              revert hadd
              cases (scan new store).2.2 <;> simp
            rw [hflag] at hscan
            rw [show (if (false = true) then new.tiles else ∅) = ∅ from rfl] at hscan
            obtain ⟨hOK2, hts2⟩ := ih _ _ _ hstep hremOK hstack2
            refine ⟨hOK2, hts2.trans ?_⟩
            rw [tileSet_append, tileSet_perm (List.reverse_perm (scan new store).1),
              tileSet_cons]
            intro x hx
            have hsx := Finset.ext_iff.mp hscan x
            simp only [Finset.mem_union, Finset.not_mem_empty, or_false] at hsx
            simp only [Finset.mem_union] at hx ⊢
            tauto


end BombEq

theorem branch_false_spec (fuel : ℕ) (grp store : List BombEq) (t : Tile) (b : ℤ)
    (hOK : GroupOK grp) (hb01 : b = 0 ∨ b = 1)
    (hint : BombEq.integrateFuel fuel grp [(⟨{t}, [b]⟩ : BombEq)] = some (store, false)) :
    (∀ k, specN (grp ++ [(⟨{t}, [b]⟩ : BombEq)]) k = 0)
      ∧ ∀ k u, specF (grp ++ [(⟨{t}, [b]⟩ : BombEq)]) k u = 0 := by
  have hlitC : EqC (⟨{t}, [b]⟩ : BombEq) := by
    refine ⟨List.nodup_singleton b, ?_⟩
    intro x hx
    rcases List.mem_singleton.mp hx with rfl
    rcases hb01 with rfl | rfl
    · exact ⟨le_refl 0, by rw [lit_tiles]; simp⟩
    · exact ⟨by omega, by rw [lit_tiles]; simp⟩
  have hunsat : ∀ A, ¬ satAll A (grp ++ [(⟨{t}, [b]⟩ : BombEq)]) := by
    intro A hA
    rw [satAll_append] at hA
    refine BombEq.integrateFuel_unsat fuel grp [(⟨{t}, [b]⟩ : BombEq)] store hint hOK
      (fun e he => ?_) A hA.1 hA.2
    rcases List.mem_singleton.mp he with rfl
    exact hlitC
  have hlay : ∀ k, layouts (grp ++ [(⟨{t}, [b]⟩ : BombEq)]) k = ∅ := by
    intro k
    rw [Finset.eq_empty_iff_forall_not_mem]
    intro A hA
    exact hunsat A (mem_layouts.mp hA).2.1
  constructor
  · intro k
    unfold specN
    rw [hlay k]
    rfl
  · intro k u
    unfold specF
    rw [hlay k, Finset.filter_empty]
    rfl

theorem card_bij_insert_t (t : Tile) (s₁ s₂ : Finset (Finset Tile))
    (h₁ : ∀ A ∈ s₁, t ∈ A)
    (h₂ : ∀ B ∈ s₂, t ∉ B)
    (hfwd : ∀ A ∈ s₁, A.erase t ∈ s₂)
    (hbwd : ∀ B ∈ s₂, insert t B ∈ s₁) :
    s₁.card = s₂.card := by
  refine Finset.card_bij (fun A _ => A.erase t) hfwd ?_ ?_
  · intro A₁ hA₁ A₂ hA₂ heq
    have heq' : A₁.erase t = A₂.erase t := heq
    rw [← Finset.insert_erase (h₁ A₁ hA₁), heq', Finset.insert_erase (h₁ A₂ hA₂)]
  · intro B hB
    exact ⟨insert t B, hbwd B hB, Finset.erase_insert (h₂ B hB)⟩

theorem branch_true_exact (fuel : ℕ) (grp store : List BombEq) (t : Tile) (b : ℤ) (sub : Sol)
    (hOK : GroupOK grp) (ht : t ∈ tileSet grp) (hb01 : b = 0 ∨ b = 1)
    (hint : BombEq.integrateFuel fuel grp [(⟨{t}, [b]⟩ : BombEq)] = some (store, true))
    (hmem : (⟨{t}, [b]⟩ : BombEq) ∈ store)
    (hsub : Exact sub (store.erase (⟨{t}, [b]⟩ : BombEq))) :
    SolWF (Sol.mul [(b, ([(t, b)], 1))] sub)
      ∧ Sol.tiles (Sol.mul [(b, ([(t, b)], 1))] sub) ⊆ tileSet grp
      ∧ (∀ k, Sol.N (Sol.mul [(b, ([(t, b)], 1))] sub) k
          = specN (grp ++ [(⟨{t}, [b]⟩ : BombEq)]) k)
      ∧ ∀ k u, Sol.F (Sol.mul [(b, ([(t, b)], 1))] sub) k u
          = specF (grp ++ [(⟨{t}, [b]⟩ : BombEq)]) k u := by
  obtain ⟨hWFsub, htilesSub, hNsub, hFsub⟩ := hsub
  have hlitC : EqC (⟨{t}, [b]⟩ : BombEq) := by
    refine ⟨List.nodup_singleton b, ?_⟩
    intro x hx
    rcases List.mem_singleton.mp hx with rfl
    rcases hb01 with rfl | rfl
    · exact ⟨le_refl 0, by rw [lit_tiles]; simp⟩
    · exact ⟨by omega, by rw [lit_tiles]; simp⟩
  obtain ⟨hOKst, hsat, hts⟩ := BombEq.integrateFuel_main fuel grp [(⟨{t}, [b]⟩ : BombEq)]
    store hint hOK (fun e he => by rcases List.mem_singleton.mp he with rfl; exact hlitC)
  have hGts : tileSet (grp ++ [(⟨{t}, [b]⟩ : BombEq)]) = tileSet grp := by
    rw [tileSet_append, tileSet_single, lit_tiles]
    exact Finset.union_eq_left.mpr (Finset.singleton_subset_iff.mpr ht)
  have hts2 : tileSet store = tileSet grp := by
    rw [hts, tileSet_single, lit_tiles]
    exact Finset.union_eq_left.mpr (Finset.singleton_subset_iff.mpr ht)
  have htniE : t ∉ tileSet (store.erase (⟨{t}, [b]⟩ : BombEq)) := by
    intro hc
    rcases mem_tileSet.mp hc with ⟨q, hq, htq⟩
    obtain ⟨hqne, hqstore⟩ := (List.Nodup.mem_erase_iff hOKst.1).mp hq
    refine hOKst.2.2 _ hmem q hqstore (Ne.symm hqne) ⟨?_, rfl⟩
    rw [lit_tiles]
    exact Finset.singleton_subset_iff.mpr htq
  have htsE : tileSet (store.erase (⟨{t}, [b]⟩ : BombEq)) = tileSet grp \ {t} := by
    have h1 : tileSet store = {t} ∪ tileSet (store.erase (⟨{t}, [b]⟩ : BombEq)) := by
      rw [tileSet_perm (List.perm_cons_erase hmem), tileSet_cons, lit_tiles]
    refine Finset.ext fun x => ?_
    rw [Finset.mem_sdiff, Finset.mem_singleton]
    constructor
    · intro hx
      have hx2 : x ∈ tileSet store := by rw [h1]; exact Finset.mem_union_right _ hx
      exact ⟨by rw [← hts2]; exact hx2, fun hxt => htniE (hxt ▸ hx)⟩
    · rintro ⟨hx, hxt⟩
      have hx2 : x ∈ tileSet store := by rw [hts2]; exact hx
      rw [h1] at hx2
      rcases Finset.mem_union.mp hx2 with hx1 | hx1
      · exact absurd (Finset.mem_singleton.mp hx1) hxt
      · exact hx1
  have hsatE : ∀ A, satAll A (grp ++ [(⟨{t}, [b]⟩ : BombEq)]) ↔
      satAll A (store.erase (⟨{t}, [b]⟩ : BombEq)) ∧ satisfies A (⟨{t}, [b]⟩ : BombEq) := by
    intro A
    have hsl : satAll A [(⟨{t}, [b]⟩ : BombEq)] ↔ satisfies A (⟨{t}, [b]⟩ : BombEq) := by
      rw [satAll_cons]
      exact ⟨fun h => h.1, fun h => ⟨h, satAll_nil A⟩⟩
    rw [satAll_append]
    constructor
    · intro h
      exact (satAll_erase_store hmem).mp ((hsat A).mp ⟨h.1, h.2⟩)
    · intro h
      have h2 := (hsat A).mpr ((satAll_erase_store hmem).mpr h)
      exact ⟨h2.1, h2.2⟩
  have htniG : ∀ e ∈ store.erase (⟨{t}, [b]⟩ : BombEq), t ∉ e.tiles :=
    fun e he hc => htniE (tiles_subset_tileSet he hc)
  have htSub : t ∉ Sol.tiles sub := fun hc => htniE (htilesSub hc)
  have hkey : (∀ k, specN (grp ++ [(⟨{t}, [b]⟩ : BombEq)]) k
        = specN ((store.erase (⟨{t}, [b]⟩ : BombEq))) (k - b))
      ∧ (∀ k, specF (grp ++ [(⟨{t}, [b]⟩ : BombEq)]) k t
        = b * specN ((store.erase (⟨{t}, [b]⟩ : BombEq))) (k - b))
      ∧ ∀ k u, u ≠ t → specF (grp ++ [(⟨{t}, [b]⟩ : BombEq)]) k u
        = specF ((store.erase (⟨{t}, [b]⟩ : BombEq))) (k - b) u := by
    rcases hb01 with rfl | rfl
    · have hlayE : ∀ k, layouts (grp ++ [(⟨{t}, [(0 : ℤ)]⟩ : BombEq)]) k
          = layouts (store.erase (⟨{t}, [(0 : ℤ)]⟩ : BombEq)) k := by
        intro k
        refine Finset.ext fun A => ?_
        rw [mem_layouts, mem_layouts, hGts]
        constructor
        · rintro ⟨hAsub, hAsat, hAcard⟩
          obtain ⟨hsE, hslit⟩ := (hsatE A).mp hAsat
          have htA : t ∉ A := BombEq.satisfies_single_not_mem.mp hslit
          refine ⟨?_, hsE, hAcard⟩
          intro x hx
          rw [htsE, Finset.mem_sdiff, Finset.mem_singleton]
          exact ⟨hAsub hx, fun hxe => htA (hxe ▸ hx)⟩
        · rintro ⟨hAsub, hAsat, hAcard⟩
          have htA : t ∉ A := fun hc => htniE (hAsub hc)
          refine ⟨?_, (hsatE A).mpr ⟨hAsat, BombEq.satisfies_single_not_mem.mpr htA⟩, hAcard⟩
          intro x hx
          have hx2 := hAsub hx
          rw [htsE, Finset.mem_sdiff] at hx2
          exact hx2.1
      refine ⟨fun k => ?_, fun k => ?_, fun k u hu => ?_⟩
      · rw [sub_zero]
        unfold specN
        rw [hlayE k]
      · rw [zero_mul]
        unfold specF
        rw [hlayE k]
        have hemp : (layouts (store.erase (⟨{t}, [(0 : ℤ)]⟩ : BombEq)) k).filter
            (fun A => t ∈ A) = ∅ := by
          refine Finset.eq_empty_iff_forall_not_mem.mpr fun A hA => ?_
          rcases Finset.mem_filter.mp hA with ⟨hA1, hA2⟩
          exact htniE ((mem_layouts.mp hA1).1 hA2)
        rw [hemp, Finset.card_empty]
        rfl
      · rw [sub_zero]
        unfold specF
        rw [hlayE k]
    · have htinL : ∀ (k : ℤ) A, A ∈ layouts (grp ++ [(⟨{t}, [(1 : ℤ)]⟩ : BombEq)]) k → t ∈ A :=
        fun k A hA =>
          BombEq.satisfies_single_mem.mp ((hsatE A).mp (mem_layouts.mp hA).2.1).2
      have htninE : ∀ (k : ℤ) B,
          B ∈ layouts (store.erase (⟨{t}, [(1 : ℤ)]⟩ : BombEq)) k → t ∉ B :=
        fun k B hB hc => htniE ((mem_layouts.mp hB).1 hc)
      have hfwdL : ∀ (k : ℤ) A, A ∈ layouts (grp ++ [(⟨{t}, [(1 : ℤ)]⟩ : BombEq)]) k →
          A.erase t ∈ layouts (store.erase (⟨{t}, [(1 : ℤ)]⟩ : BombEq)) (k - 1) := by
        intro k A hA
        obtain ⟨hAsub, hAsat, hAcard⟩ := mem_layouts.mp hA
        rw [hGts] at hAsub
        obtain ⟨hsE, hslit⟩ := (hsatE A).mp hAsat
        have htA : t ∈ A := BombEq.satisfies_single_mem.mp hslit
        rw [mem_layouts]
        refine ⟨?_, ?_, ?_⟩
        · intro x hx
          rcases Finset.mem_erase.mp hx with ⟨hxt, hxA⟩
          rw [htsE, Finset.mem_sdiff, Finset.mem_singleton]
          exact ⟨hAsub hxA, hxt⟩
        · intro e he
          rw [satisfies_erase_not_mem (htniG e he)]
          exact hsE e he
        · rw [Finset.card_erase_of_mem htA]
          have h1 : 1 ≤ A.card := Finset.card_pos.mpr ⟨t, htA⟩
          omega
      have hbwdL : ∀ (k : ℤ) B,
          B ∈ layouts (store.erase (⟨{t}, [(1 : ℤ)]⟩ : BombEq)) (k - 1) →
          insert t B ∈ layouts (grp ++ [(⟨{t}, [(1 : ℤ)]⟩ : BombEq)]) k := by
        intro k B hB
        obtain ⟨hBsub, hBsat, hBcard⟩ := mem_layouts.mp hB
        have htB : t ∉ B := fun hc => htniE (hBsub hc)
        rw [mem_layouts, hGts]
        refine ⟨?_, ?_, ?_⟩
        · intro x hx
          rcases Finset.mem_insert.mp hx with rfl | hx
          · exact ht
          · have hx2 := hBsub hx
            rw [htsE, Finset.mem_sdiff] at hx2
            exact hx2.1
        · refine (hsatE (insert t B)).mpr
            ⟨?_, BombEq.satisfies_single_mem.mpr (Finset.mem_insert_self t B)⟩
          intro e he
          rw [satisfies_insert_not_mem (htniG e he)]
          exact hBsat e he
        · rw [Finset.card_insert_of_not_mem htB]
          push_cast
          omega
      refine ⟨fun k => ?_, fun k => ?_, fun k u hu => ?_⟩
      · unfold specN
        rw [card_bij_insert_t t (layouts (grp ++ [(⟨{t}, [(1 : ℤ)]⟩ : BombEq)]) k)
          (layouts (store.erase (⟨{t}, [(1 : ℤ)]⟩ : BombEq)) (k - 1))
          (htinL k) (htninE (k - 1)) (hfwdL k) (hbwdL k)]
      · rw [one_mul]
        unfold specF specN
        rw [Finset.filter_true_of_mem (fun A hA => htinL k A hA)]
        rw [card_bij_insert_t t (layouts (grp ++ [(⟨{t}, [(1 : ℤ)]⟩ : BombEq)]) k)
          (layouts (store.erase (⟨{t}, [(1 : ℤ)]⟩ : BombEq)) (k - 1))
          (htinL k) (htninE (k - 1)) (hfwdL k) (hbwdL k)]
      · unfold specF
        have hcard := card_bij_insert_t t
          ((layouts (grp ++ [(⟨{t}, [(1 : ℤ)]⟩ : BombEq)]) k).filter (fun A => u ∈ A))
          ((layouts (store.erase (⟨{t}, [(1 : ℤ)]⟩ : BombEq)) (k - 1)).filter (fun A => u ∈ A))
          (fun A hA => htinL k A (Finset.mem_filter.mp hA).1)
          (fun B hB => htninE (k - 1) B (Finset.mem_filter.mp hB).1)
          (fun A hA => by
            rcases Finset.mem_filter.mp hA with ⟨h1, h2⟩
            exact Finset.mem_filter.mpr ⟨hfwdL k A h1, Finset.mem_erase.mpr ⟨hu, h2⟩⟩)
          (fun B hB => by
            rcases Finset.mem_filter.mp hB with ⟨h1, h2⟩
            exact Finset.mem_filter.mpr ⟨hbwdL k B h1, Finset.mem_insert_of_mem h2⟩)
        rw [hcard]
  refine ⟨Sol.litMul_WF b t sub, ?_, fun k => ?_, fun k u => ?_⟩
  · refine (Sol.litMul_tiles b t sub hWFsub).trans ?_
    intro x hx
    rcases Finset.mem_union.mp hx with hx | hx
    · rcases Finset.mem_singleton.mp hx with rfl
      exact ht
    · have hx2 := htilesSub hx
      rw [htsE, Finset.mem_sdiff] at hx2
      exact hx2.1
  · rw [Sol.litMul_N b t sub hWFsub, hNsub, hkey.1]
  · rw [Sol.litMul_F b t sub hWFsub htSub]
    by_cases hu : u = t
    · subst hu
      rw [if_pos rfl, hNsub, hkey.2.1]
    · rw [if_neg hu, hFsub, hkey.2.2 k u hu]


theorem Exact_one : Exact ([(0, ([], 1))] : Sol) [] := by
  unfold Exact
  refine ⟨⟨by simp, ?_⟩, ?_, fun k => ?_, fun k t => ?_⟩
  · intro p hp
    rcases List.mem_singleton.mp hp with rfl
    simp
  · intro x hx
    simp [Sol.tiles] at hx
  · rw [specN_nil]
    show (dget [((0 : ℤ), (([] : FDict), (1 : ℤ)))] k ([], 0)).2 = _
    rw [dget]
    by_cases h : (0 : ℤ) = k
    · rw [if_pos h, if_pos h.symm]
    · rw [if_neg h, if_neg fun hc => h hc.symm]
      rfl
  · rw [specF_nil]
    show dget (dget [((0 : ℤ), (([] : FDict), (1 : ℤ)))] k ([], 0)).1 t 0 = 0
    rw [dget]
    by_cases h : (0 : ℤ) = k
    · rw [if_pos h]
      rfl
    · rw [if_neg h]
      rfl

theorem Exact_perm {s : Sol} {G G' : List BombEq} (h : G.Perm G') (he : Exact s G) :
    Exact s G' := by
  unfold Exact at he ⊢
  obtain ⟨h1, h2, h3, h4⟩ := he
  exact ⟨h1, by rw [← tileSet_perm h]; exact h2,
    fun k => by rw [h3 k, specN_perm h],
    fun k t => by rw [h4 k t, specF_perm h]⟩

theorem Exact_mul_append {acc gsol : Sol} {P grp : List BombEq}
    (hacc : Exact acc P) (hg : Exact gsol grp)
    (hdisj : tileSet P ∩ tileSet grp = ∅) :
    Exact (Sol.mul acc gsol) (P ++ grp) := by
  unfold Exact at hacc hg ⊢
  obtain ⟨hWa, hta, hNa, hFa⟩ := hacc
  obtain ⟨hWg, htg, hNg, hFg⟩ := hg
  have hSa : ∀ a, specN P a ≠ 0 → a ∈ Sol.keys acc := by
    intro a hne
    by_contra hnk
    exact hne ((hNa a).symm.trans (Sol.N_not_mem hnk))
  have hSg : ∀ a, specN grp a ≠ 0 → a ∈ Sol.keys gsol := by
    intro a hne
    by_contra hnk
    exact hne ((hNg a).symm.trans (Sol.N_not_mem hnk))
  have hdt : Sol.disjointTiles acc gsol := by
    unfold Sol.disjointTiles
    refine Finset.eq_empty_iff_forall_not_mem.mpr fun x hx => ?_
    rcases Finset.mem_inter.mp hx with ⟨h1, h2⟩
    exact Finset.not_mem_empty x (hdisj ▸ Finset.mem_inter.mpr ⟨hta h1, htg h2⟩)
  refine ⟨Sol.mulWF hWa, ?_, fun k => ?_, fun k u => ?_⟩
  · refine (Sol.tiles_mul_subset acc gsol hWa hWg).trans ?_
    rw [tileSet_append]
    exact Finset.union_subset_union hta htg
  · rw [Sol.mul_N acc gsol hWa hWg k,
      specN_append_conv P grp hdisj k (Sol.keys acc) (Sol.keys gsol) hSa hSg]
    refine Finset.sum_congr rfl fun a _ => Finset.sum_congr rfl fun b _ => ?_
    by_cases h : a + b = k
    · rw [if_pos h, if_pos h, hNa, hNg]
    · rw [if_neg h, if_neg h]
  · rw [Sol.mul_F_disjoint acc gsol hWa hWg hdt k u,
      specF_append_conv P grp hdisj k u (Sol.keys acc) (Sol.keys gsol) hSa hSg]
    refine Finset.sum_congr rfl fun a _ => Finset.sum_congr rfl fun b _ => ?_
    by_cases h : a + b = k
    · rw [if_pos h, if_pos h, hFa, hFg, hNa, hNg]
    · rw [if_neg h, if_neg h]

theorem foldlM_exact (body : Sol → List BombEq → Option Sol) :
    ∀ (gls : List (List BombEq)) (acc : Sol) (P : List BombEq) (res : Sol),
      gls.foldlM body acc = some res →
      (∀ a grp g, grp ∈ gls → body a grp = some g →
        ∃ gsol, g = Sol.mul a gsol ∧ SolWF gsol ∧ Sol.tiles gsol ⊆ tileSet grp
          ∧ (∀ k, Sol.N gsol k = specN grp k) ∧ ∀ k u, Sol.F gsol k u = specF grp k u) →
      List.Pairwise (fun g₁ g₂ => tileSet g₁ ∩ tileSet g₂ = ∅) gls →
      tileSet P ∩ tileSet gls.flatten = ∅ →
      Exact acc P →
      Exact res (P ++ gls.flatten) := by
  intro gls
  induction gls with
  | nil =>
    intro acc P res hfold _ _ _ hacc
    rw [List.foldlM_nil] at hfold
    obtain rfl := Option.some.inj hfold
    rw [List.flatten_nil, List.append_nil]
    exact hacc
  | cons grp gls ih =>
    intro acc P res hfold hbody hpw hdisj hacc
    rw [List.foldlM_cons] at hfold
    obtain ⟨g, hg, hrest⟩ := Option.bind_eq_some.mp hfold
    obtain ⟨gsol, rfl, hWg, htg, hNg, hFg⟩ :=
      hbody acc grp g (List.mem_cons_self grp gls) hg
    have hdisjPg : tileSet P ∩ tileSet grp = ∅ := by
      refine Finset.eq_empty_iff_forall_not_mem.mpr fun x hx => ?_
      rcases Finset.mem_inter.mp hx with ⟨h1, h2⟩
      refine Finset.not_mem_empty x (hdisj ▸ Finset.mem_inter.mpr ⟨h1, ?_⟩)
      exact mem_flatten_tileSet.mpr ⟨grp, List.mem_cons_self grp gls, h2⟩
    have hacc2 : Exact (Sol.mul acc gsol) (P ++ grp) :=
      Exact_mul_append hacc ⟨hWg, htg, hNg, hFg⟩ hdisjPg
    have hdisj2 : tileSet (P ++ grp) ∩ tileSet gls.flatten = ∅ := by
      rw [tileSet_append]
      refine Finset.eq_empty_iff_forall_not_mem.mpr fun x hx => ?_
      rcases Finset.mem_inter.mp hx with ⟨h1, h2⟩
      obtain ⟨l, hl, hx2⟩ := mem_flatten_tileSet.mp h2
      rcases Finset.mem_union.mp h1 with h1 | h1
      · refine Finset.not_mem_empty x (hdisj ▸ Finset.mem_inter.mpr ⟨h1, ?_⟩)
        exact mem_flatten_tileSet.mpr ⟨l, List.mem_cons_of_mem grp hl, hx2⟩
      · have hpair := (List.pairwise_cons.mp hpw).1 l hl
        exact Finset.not_mem_empty x (hpair ▸ Finset.mem_inter.mpr ⟨h1, hx2⟩)
    have hres := ih (Sol.mul acc gsol) (P ++ grp) res hrest
      (fun a g2 g hmem hg2 => hbody a g2 g (List.mem_cons_of_mem grp hmem) hg2)
      (List.pairwise_cons.mp hpw).2 hdisj2 hacc2
    rw [List.flatten_cons, ← List.append_assoc]
    exact hres



theorem dset_ne_nil {K V : Type} [DecidableEq K] (d : List (K × V)) (k : K) (v : V) :
    dset d k v ≠ [] := by
  cases d with
  | nil => simp [dset]
  | cons q rest =>
    obtain ⟨k₀, v₀⟩ := q
    rw [dset]
    by_cases h : k₀ = k
    · rw [if_pos h]
      exact List.cons_ne_nil _ _
    · rw [if_neg h]
      exact List.cons_ne_nil _ _

namespace Sol

theorem tiles_nil_eq : tiles ([] : Sol) = ∅ := rfl

theorem tiles_cons_eq (p : ℤ × (FDict × ℤ)) (s : Sol) :
    tiles (p :: s) = (p.2.1.map Prod.fst).toFinset ∪ tiles s := rfl

theorem tiles_dset_merge (acc : Sol) (k : ℤ) (g : FDict) (w : ℤ) :
    tiles (dset acc k (fAdd (dget acc k ([], 0)).1 g, w))
      = tiles acc ∪ (g.map Prod.fst).toFinset := by
  induction acc with
  | nil =>
    rw [show dget ([] : Sol) k ([], 0) = (([] : FDict), (0 : ℤ)) from rfl]
    rw [show dset ([] : Sol) k ((fAdd ([] : FDict) g, w)) = [(k, (fAdd ([] : FDict) g, w))]
      from rfl]
    rw [tiles_cons_eq, tiles_nil_eq, fAdd_keys]
    simp
  | cons q rest ih =>
    obtain ⟨k₀, f₀, n₀⟩ := q
    by_cases h : k₀ = k
    · subst h
      have h1 : dget ((k₀, (f₀, n₀)) :: rest) k₀ ([], 0) = (f₀, n₀) := by
        rw [dget, if_pos rfl]
      have h2 : dset ((k₀, (f₀, n₀)) :: rest) k₀ ((fAdd f₀ g, w)) 
          = (k₀, (fAdd f₀ g, w)) :: rest := by
        rw [dset, if_pos rfl]
      rw [h1, h2, tiles_cons_eq, tiles_cons_eq, fAdd_keys]
      refine Finset.ext fun x => ?_
      simp only [Finset.mem_union]
      tauto
    · have h1 : dget ((k₀, (f₀, n₀)) :: rest) k ([], 0) = dget rest k ([], 0) := by
        rw [dget, if_neg h]
      have h2 : ∀ v : FDict × ℤ, dset ((k₀, (f₀, n₀)) :: rest) k v
          = (k₀, (f₀, n₀)) :: dset rest k v := by
        intro v
        rw [dset, if_neg h]
      rw [h1, h2, tiles_cons_eq, tiles_cons_eq, ih]
      refine Finset.ext fun x => ?_
      simp only [Finset.mem_union]
      tauto

theorem tiles_addStep (acc : Sol) (p : ℤ × (FDict × ℤ)) :
    tiles (addStep acc p) = tiles acc ∪ (p.2.1.map Prod.fst).toFinset :=
  tiles_dset_merge acc p.1 p.2.1 ((dget acc p.1 ([], 0)).2 + p.2.2)

theorem foldl_addStep_tiles : ∀ (o acc : Sol),
    tiles (o.foldl addStep acc) = tiles acc ∪ tiles o := by
  intro o
  induction o with
  | nil =>
    intro acc
    rw [List.foldl_nil, tiles_nil_eq, Finset.union_empty]
  | cons p o ih =>
    intro acc
    rw [List.foldl_cons, ih, tiles_addStep, tiles_cons_eq]
    refine Finset.ext fun x => ?_
    simp only [Finset.mem_union]
    tauto

theorem tiles_add_eq (s o : Sol) : tiles (add s o) = tiles s ∪ tiles o := by
  rw [add]
  by_cases h : s = []
  · rw [if_pos h, h, tiles_nil_eq, Finset.empty_union]
  · rw [if_neg h, foldl_addStep_tiles]

theorem addStep_ne_nil (acc : Sol) (p : ℤ × (FDict × ℤ)) : addStep acc p ≠ [] :=
  dset_ne_nil acc p.1 (fAdd (dget acc p.1 ([], 0)).1 p.2.1, (dget acc p.1 ([], 0)).2 + p.2.2)

theorem foldl_addStep_ne_nil : ∀ (o acc : Sol), acc ≠ [] → o.foldl addStep acc ≠ [] := by
  intro o
  induction o with
  | nil => intro acc h; exact h
  | cons p o ih =>
    intro acc _
    rw [List.foldl_cons]
    exact ih _ (addStep_ne_nil acc p)

theorem add_ne_nil_right (s o : Sol) (ho : o ≠ []) : add s o ≠ [] := by
  rw [add]
  by_cases h : s = []
  · rw [if_pos h]
    exact ho
  · rw [if_neg h]
    exact foldl_addStep_ne_nil o s h

theorem add_ne_nil_left (s o : Sol) (hs : s ≠ []) : add s o ≠ [] := by
  rw [add, if_neg hs]
  exact foldl_addStep_ne_nil o s hs

theorem mul_nil_left (o : Sol) : mul [] o = [] := rfl

theorem mul_nil_right (s : Sol) : mul s [] = [] := by
  have h : ∀ (l res : Sol),
      l.foldl (fun res p =>
        List.foldl (fun res q => add res [mulEntry p q]) res ([] : Sol)) res = res := by
    intro l
    induction l with
    | nil => intro res; rfl
    | cons p l ih => intro res; exact ih _
  exact h s []

theorem inner_fold_ne_nil (p : ℤ × (FDict × ℤ)) : ∀ (o res : Sol), o ≠ [] ∨ res ≠ [] →
    o.foldl (fun res q => add res [mulEntry p q]) res ≠ [] := by
  intro o
  induction o with
  | nil =>
    intro res h
    rcases h with h | h
    · exact absurd rfl h
    · exact h
  | cons q o ih =>
    intro res _
    rw [List.foldl_cons]
    exact ih _ (Or.inr (add_ne_nil_right res [mulEntry p q] (List.cons_ne_nil _ _)))

theorem mul_ne_nil {s o : Sol} (hs : s ≠ []) (ho : o ≠ []) : mul s o ≠ [] := by
  obtain ⟨p, s2, rfl⟩ : ∃ p s2, s = p :: s2 := by
    cases s with
    | nil => exact absurd rfl hs
    | cons a b => exact ⟨a, b, rfl⟩
  have hpres : ∀ (l res : Sol), res ≠ [] →
      l.foldl (fun res p => o.foldl (fun res q => add res [mulEntry p q]) res) res ≠ [] := by
    intro l
    induction l with
    | nil => intro res h; exact h
    | cons a l ih =>
      intro res h
      rw [List.foldl_cons]
      exact ih _ (inner_fold_ne_nil a o _ (Or.inr h))
  show (p :: s2).foldl (fun res p => o.foldl (fun res q => add res [mulEntry p q]) res)
      ([] : Sol) ≠ []
  rw [List.foldl_cons]
  exact hpres s2 _ (inner_fold_ne_nil p o [] (Or.inl ho))

theorem inner_fold_tiles (p : ℤ × (FDict × ℤ)) : ∀ (o : Sol), o ≠ [] → ∀ (res : Sol),
    tiles (o.foldl (fun res q => add res [mulEntry p q]) res)
      = tiles res ∪ (p.2.1.map Prod.fst).toFinset ∪ tiles o := by
  intro o
  induction o with
  | nil => intro h; exact absurd rfl h
  | cons q o ih =>
    intro _ res
    rw [List.foldl_cons]
    have hstep : tiles (add res [mulEntry p q])
        = tiles res ∪ ((p.2.1.map Prod.fst).toFinset ∪ (q.2.1.map Prod.fst).toFinset) := by
      rw [tiles_add_eq, tiles_cons_eq, tiles_nil_eq, Finset.union_empty,
        show (mulEntry p q).2.1 = fMul p.2.1 p.2.2 q.2.1 q.2.2 from rfl, fMul_keys]
    by_cases ho : o = []
    · subst ho
      rw [List.foldl_nil, hstep, tiles_cons_eq, tiles_nil_eq]
      refine Finset.ext fun x => ?_
      simp only [Finset.mem_union, Finset.not_mem_empty, or_false]
      tauto
    · rw [ih ho _, hstep, tiles_cons_eq]
      refine Finset.ext fun x => ?_
      simp only [Finset.mem_union]
      tauto

theorem mul_tiles_eq {s o : Sol} (hs : s ≠ []) (ho : o ≠ []) :
    tiles (mul s o) = tiles s ∪ tiles o := by
  have houter : ∀ (l : Sol), l ≠ [] → ∀ (res : Sol),
      tiles (l.foldl (fun res p => o.foldl (fun res q => add res [mulEntry p q]) res) res)
        = tiles res ∪ tiles l ∪ tiles o := by
    intro l
    induction l with
    | nil => intro h; exact absurd rfl h
    | cons p l ih =>
      intro _ res
      rw [List.foldl_cons]
      by_cases hl : l = []
      · subst hl
        rw [List.foldl_nil, inner_fold_tiles p o ho res, tiles_cons_eq, tiles_nil_eq,
          Finset.union_empty]
      · rw [ih hl _, inner_fold_tiles p o ho res, tiles_cons_eq]
        refine Finset.ext fun x => ?_
        simp only [Finset.mem_union]
        tauto
  show tiles ((s.foldl (fun res p => o.foldl (fun res q => add res [mulEntry p q]) res)
      ([] : Sol))) = _
  rw [houter s hs [], tiles_nil_eq, Finset.empty_union]

end Sol

theorem toFinset_tilesList (s : Finset Tile) : (tilesList s).toFinset = s := by
  refine Finset.ext fun t => ?_
  rw [List.mem_toFinset, mem_tilesList]

theorem singletonSol_tiles {e : BombEq} (hb : e.bombs ≠ []) :
    Sol.tiles (singletonSol e) = e.tiles := by
  have hdict : ∀ b : ℤ, ((((tilesList e.tiles).map fun t =>
      (t, comb ((e.tiles.card : ℤ) - 1) (b - 1))).map Prod.fst)).toFinset = e.tiles := by
    intro b
    have hcomp : Prod.fst ∘ (fun t : Tile =>
        (t, comb ((e.tiles.card : ℤ) - 1) (b - 1))) = id := funext fun t => rfl
    rw [List.map_map, hcomp, List.map_id, toFinset_tilesList]
  have hfold : ∀ (l : List ℤ) (acc : Sol),
      Sol.tiles (l.foldl
        (fun acc b => Sol.add acc
          [(b, ((tilesList e.tiles).map fun t =>
              (t, comb ((e.tiles.card : ℤ) - 1) (b - 1)),
            comb (e.tiles.card : ℤ) b))]) acc)
        = Sol.tiles acc ∪ (if l = [] then ∅ else e.tiles) := by
    intro l
    induction l with
    | nil =>
      intro acc
      rw [List.foldl_nil, if_pos rfl, Finset.union_empty]
    | cons b l ih =>
      intro acc
      rw [List.foldl_cons, ih, Sol.tiles_add_eq, Sol.tiles_cons_eq, Sol.tiles_nil_eq,
        Finset.union_empty, hdict b, if_neg (List.cons_ne_nil b l)]
      by_cases hl : l = []
      · rw [if_pos hl, Finset.union_empty]
      · rw [if_neg hl]
        refine Finset.ext fun x => ?_
        simp only [Finset.mem_union]
        tauto
  show Sol.tiles (e.bombs.foldl _ []) = e.tiles
  rw [hfold e.bombs [], Sol.tiles_nil_eq, Finset.empty_union, if_neg hb]

theorem GroupOK_perm {G G' : List BombEq} (h : G.Perm G') (hOK : GroupOK G) : GroupOK G' :=
  ⟨h.nodup_iff.mp hOK.1, fun e he => hOK.2.1 e (h.mem_iff.mpr he),
    fun e he f hf hef => hOK.2.2 e (h.mem_iff.mpr he) f (h.mem_iff.mpr hf) hef⟩

theorem solveAreaFuel_succ_go (fuel : ℕ) (e₁ e₂ : BombEq) (rest : List BombEq) :
    solveAreaFuel (fuel + 1) (e₁ :: e₂ :: rest) =
      (groupConstraints (e₁ :: e₂ :: rest)).foldlM
        (fun solSoFar grp =>
          Option.bind (solveBranch fuel grp 0) fun g₀ =>
          Option.bind (solveBranch fuel grp 1) fun g₁ =>
          some (Sol.mul solSoFar (Sol.add (Sol.add [] g₀) g₁)))
        [(0, ([], 1))] := rfl

theorem solveBranch_exact (fuel : ℕ) (grp : List BombEq) (b : ℤ) (gb : Sol)
    (hOK : GroupOK grp) (hne : grp ≠ [])
    (IH : ∀ (E : List BombEq) (sub : Sol), GroupOK E → solveAreaFuel fuel E = some sub →
      Exact sub E)
    (hb01 : b = 0 ∨ b = 1)
    (hgb : solveBranch fuel grp b = some gb) :
    SolWF gb ∧ Sol.tiles gb ⊆ tileSet grp
      ∧ (∀ k, Sol.N gb k = specN (grp ++ [(⟨{findTile grp}, [b]⟩ : BombEq)]) k)
      ∧ ∀ k u, Sol.F gb k u = specF (grp ++ [(⟨{findTile grp}, [b]⟩ : BombEq)]) k u := by
  have ht : findTile grp ∈ tileSet grp :=
    findTile_mem hne fun q hq => EqOK_tiles_nonempty (hOK.2.1 q hq)
  have hlitC : EqC (⟨{findTile grp}, [b]⟩ : BombEq) := by
    refine ⟨List.nodup_singleton b, ?_⟩
    intro x hx
    rcases List.mem_singleton.mp hx with rfl
    rcases hb01 with rfl | rfl
    · exact ⟨le_refl 0, by rw [lit_tiles]; simp⟩
    · exact ⟨by omega, by rw [lit_tiles]; simp⟩
  rw [solveBranch] at hgb
  rcases hint : BombEq.integrate fuel grp [(⟨{findTile grp}, [b]⟩ : BombEq)]
    with _ | ⟨store, flag⟩
  · rw [hint] at hgb
    exact Option.noConfusion hgb
  · have hint2 : BombEq.integrateFuel fuel grp [(⟨{findTile grp}, [b]⟩ : BombEq)]
        = some (store, flag) := hint
    rcases flag with _ | _
    · rw [hint] at hgb
      obtain rfl := Option.some.inj hgb
      have hspec := branch_false_spec fuel grp store (findTile grp) b hOK hb01 hint2
      refine ⟨⟨List.nodup_nil, fun p hp => absurd hp (List.not_mem_nil p)⟩, ?_, ?_, ?_⟩
      · intro x hx
        exact absurd hx (Finset.not_mem_empty x)
      · intro k
        rw [Sol.N_nil, hspec.1 k]
      · intro k u
        rw [Sol.F_nil, hspec.2 k u]
    · rw [hint] at hgb
      have hgb2 : (if (⟨{findTile grp}, [b]⟩ : BombEq) ∈ store then
          (solveAreaFuel fuel (store.erase (⟨{findTile grp}, [b]⟩ : BombEq))).map
            (fun sub => Sol.mul [(b, ([(findTile grp, b)], 1))] sub)
        else none) = some gb := hgb
      by_cases hmem : (⟨{findTile grp}, [b]⟩ : BombEq) ∈ store
      · rw [if_pos hmem] at hgb2
        obtain ⟨sub, hsubeq, rfl⟩ := Option.map_eq_some'.mp hgb2
        have hstOK : GroupOK store :=
          (BombEq.integrateFuel_main fuel grp [(⟨{findTile grp}, [b]⟩ : BombEq)] store hint2
            hOK fun q hq => by rcases List.mem_singleton.mp hq with rfl; exact hlitC).1
        exact branch_true_exact fuel grp store (findTile grp) b sub hOK ht hb01 hint2 hmem
          (IH _ sub (BombEq.GroupOK_sublist (List.erase_sublist _ _) hstOK) hsubeq)
      · rw [if_neg hmem] at hgb2
        exact Option.noConfusion hgb2

theorem solveAreaFuel_exact :
    ∀ (fuel : ℕ) (G : List BombEq) (s : Sol),
      GroupOK G → solveAreaFuel fuel G = some s → Exact s G := by
  intro fuel
  induction fuel with
  | zero =>
    intro G s _ h
    exact Option.noConfusion h
  | succ fuel ih =>
    intro G s hOK h
    rcases G with _ | ⟨e, rest⟩
    · obtain rfl := Option.some.inj h
      exact Exact_one
    rcases rest with _ | ⟨e2, rest2⟩
    · obtain rfl := Option.some.inj h
      have hx := singletonSol_exact e (hOK.2.1 e (List.mem_cons_self e [])).2.2.1
      unfold Exact
      exact ⟨hx.1, by rw [tileSet_single]; exact hx.2.1, hx.2.2.1, hx.2.2.2⟩
    · rw [solveAreaFuel_succ_go] at h
      have hOKf : GroupOK ((groupConstraints (e :: e2 :: rest2)).flatten) :=
        GroupOK_perm (groupConstraints_flatten_perm (e :: e2 :: rest2)).symm hOK
      have hbody : ∀ a grp g, grp ∈ groupConstraints (e :: e2 :: rest2) →
          (fun solSoFar grp =>
            Option.bind (solveBranch fuel grp 0) fun g₀ =>
            Option.bind (solveBranch fuel grp 1) fun g₁ =>
            some (Sol.mul solSoFar (Sol.add (Sol.add [] g₀) g₁))) a grp = some g →
          ∃ gsol, g = Sol.mul a gsol ∧ SolWF gsol ∧ Sol.tiles gsol ⊆ tileSet grp
            ∧ (∀ k, Sol.N gsol k = specN grp k)
            ∧ ∀ k u, Sol.F gsol k u = specF grp k u := by
        intro a grp g hmem hg
        have hg2 : Option.bind (solveBranch fuel grp 0) (fun g₀ =>
            Option.bind (solveBranch fuel grp 1) fun g₁ =>
            some (Sol.mul a (Sol.add (Sol.add [] g₀) g₁))) = some g := hg
        obtain ⟨g₀, hg0, hg3⟩ := Option.bind_eq_some.mp hg2
        obtain ⟨g₁, hg1, hg4⟩ := Option.bind_eq_some.mp hg3
        obtain rfl := Option.some.inj hg4
        have hgrpOK : GroupOK grp :=
          BombEq.GroupOK_sublist (List.sublist_flatten_of_mem hmem) hOKf
        have hgrpne : grp ≠ [] := groupConstraints_nonempty hmem
        have ht : findTile grp ∈ tileSet grp :=
          findTile_mem hgrpne fun q hq => EqOK_tiles_nonempty (hgrpOK.2.1 q hq)
        obtain ⟨hW0, ht0, hN0, hF0⟩ :=
          solveBranch_exact fuel grp 0 g₀ hgrpOK hgrpne ih (Or.inl rfl) hg0
        obtain ⟨hW1, ht1, hN1, hF1⟩ :=
          solveBranch_exact fuel grp 1 g₁ hgrpOK hgrpne ih (Or.inr rfl) hg1
        refine ⟨Sol.add g₀ g₁, by rw [Sol.add_nil_left], Sol.addWF hW0 hW1, ?_,
          fun k => ?_, fun k u => ?_⟩
        · exact (Sol.tiles_add_subset g₀ g₁ hW0 hW1).trans (Finset.union_subset ht0 ht1)
        · rw [Sol.add_N g₀ g₁ hW1.1 k, hN0 k, hN1 k, ← (spec_split grp (findTile grp) ht k).1]
        · rw [Sol.add_F g₀ g₁ hW1 k u, hF0 k u, hF1 k u]
          exact ((spec_split grp (findTile grp) ht k).2 u).symm
      have hfold := foldlM_exact _ (groupConstraints (e :: e2 :: rest2)) [(0, ([], 1))] [] s
        h hbody (groupConstraints_pairwise (e :: e2 :: rest2))
        (by rw [tileSet_nil]; exact Finset.empty_inter _) Exact_one
      rw [List.nil_append] at hfold
      exact Exact_perm (groupConstraints_flatten_perm (e :: e2 :: rest2)) hfold


theorem specN_total (G : List BombEq) :
    ∑ k in Finset.Icc (0 : ℤ) ((tileSet G).card : ℤ), specN G k
      = ((((tileSet G).powerset.filter fun A => satAll A G).card : ℕ) : ℤ) := by
  have hmap : ∀ A ∈ (tileSet G).powerset.filter (fun A => satAll A G),
      (A.card : ℤ) ∈ Finset.Icc (0 : ℤ) ((tileSet G).card : ℤ) := by
    intro A hA
    rw [Finset.mem_Icc]
    rcases Finset.mem_filter.mp hA with ⟨hp, _⟩
    exact ⟨Int.ofNat_nonneg A.card,
      Int.ofNat_le.mpr (Finset.card_le_card (Finset.mem_powerset.mp hp))⟩
  have h := Finset.card_eq_sum_card_fiberwise hmap
  have h2 : ((((tileSet G).powerset.filter fun A => satAll A G).card : ℕ) : ℤ)
      = ∑ k in Finset.Icc (0 : ℤ) ((tileSet G).card : ℤ),
          ((((tileSet G).powerset.filter fun A => satAll A G).filter
            (fun A => (A.card : ℤ) = k)).card : ℤ) := by
    exact_mod_cast h
  rw [h2]
  refine Finset.sum_congr rfl fun k _ => ?_
  unfold specN layouts
  rw [Finset.filter_filter]


theorem solveBranch_tiles (fuel : ℕ) (grp : List BombEq) (b : ℤ) (gb : Sol)
    (hOK : GroupOK grp) (hne : grp ≠ [])
    (IH : ∀ (E : List BombEq) (sub : Sol), GroupOK E → solveAreaFuel fuel E = some sub →
      sub ≠ [] → Sol.tiles sub = tileSet E)
    (hb01 : b = 0 ∨ b = 1)
    (hgb : solveBranch fuel grp b = some gb) (hgbne : gb ≠ []) :
    Sol.tiles gb = tileSet grp := by
  have ht : findTile grp ∈ tileSet grp :=
    findTile_mem hne fun q hq => EqOK_tiles_nonempty (hOK.2.1 q hq)
  have hlitC : EqC (⟨{findTile grp}, [b]⟩ : BombEq) := by
    refine ⟨List.nodup_singleton b, ?_⟩
    intro x hx
    rcases List.mem_singleton.mp hx with rfl
    rcases hb01 with rfl | rfl
    · exact ⟨le_refl 0, by rw [lit_tiles]; simp⟩
    · exact ⟨by omega, by rw [lit_tiles]; simp⟩
  rw [solveBranch] at hgb
  rcases hint : BombEq.integrate fuel grp [(⟨{findTile grp}, [b]⟩ : BombEq)]
    with _ | ⟨store, flag⟩
  · rw [hint] at hgb
    exact Option.noConfusion hgb
  · have hint2 : BombEq.integrateFuel fuel grp [(⟨{findTile grp}, [b]⟩ : BombEq)]
        = some (store, flag) := hint
    rcases flag with _ | _
    · rw [hint] at hgb
      obtain rfl := Option.some.inj hgb
      exact absurd rfl hgbne
    · rw [hint] at hgb
      have hgb2 : (if (⟨{findTile grp}, [b]⟩ : BombEq) ∈ store then
          (solveAreaFuel fuel (store.erase (⟨{findTile grp}, [b]⟩ : BombEq))).map
            (fun sub => Sol.mul [(b, ([(findTile grp, b)], 1))] sub)
        else none) = some gb := hgb
      by_cases hmem : (⟨{findTile grp}, [b]⟩ : BombEq) ∈ store
      · rw [if_pos hmem] at hgb2
        obtain ⟨sub, hsubeq, rfl⟩ := Option.map_eq_some'.mp hgb2
        have hsubne : sub ≠ [] := fun hc => hgbne (by rw [hc]; exact Sol.mul_nil_right _)
        obtain ⟨hOKst, _hsat, hts⟩ := BombEq.integrateFuel_main fuel grp
          [(⟨{findTile grp}, [b]⟩ : BombEq)] store hint2 hOK
          (fun q hq => by rcases List.mem_singleton.mp hq with rfl; exact hlitC)
        have hts2 : tileSet store = tileSet grp := by
          rw [hts, tileSet_single, lit_tiles]
          exact Finset.union_eq_left.mpr (Finset.singleton_subset_iff.mpr ht)
        have htniE : findTile grp
            ∉ tileSet (store.erase (⟨{findTile grp}, [b]⟩ : BombEq)) := by
          intro hc
          rcases mem_tileSet.mp hc with ⟨q, hq, htq⟩
          obtain ⟨hqne, hqstore⟩ := (List.Nodup.mem_erase_iff hOKst.1).mp hq
          refine hOKst.2.2 _ hmem q hqstore (Ne.symm hqne) ⟨?_, rfl⟩
          rw [lit_tiles]
          exact Finset.singleton_subset_iff.mpr htq
        have htsE : tileSet (store.erase (⟨{findTile grp}, [b]⟩ : BombEq))
            = tileSet grp \ {findTile grp} := by
          have h1 : tileSet store = {findTile grp}
              ∪ tileSet (store.erase (⟨{findTile grp}, [b]⟩ : BombEq)) := by
            rw [tileSet_perm (List.perm_cons_erase hmem), tileSet_cons, lit_tiles]
          refine Finset.ext fun x => ?_
          rw [Finset.mem_sdiff, Finset.mem_singleton]
          constructor
          · intro hx
            have hx2 : x ∈ tileSet store := by
              rw [h1]
              exact Finset.mem_union_right _ hx
            exact ⟨by rw [← hts2]; exact hx2, fun hxt => htniE (hxt ▸ hx)⟩
          · rintro ⟨hx, hxt⟩
            have hx2 : x ∈ tileSet store := by rw [hts2]; exact hx
            rw [h1] at hx2
            rcases Finset.mem_union.mp hx2 with hx1 | hx1
            · exact absurd (Finset.mem_singleton.mp hx1) hxt
            · exact hx1
        have hEOK : GroupOK (store.erase (⟨{findTile grp}, [b]⟩ : BombEq)) :=
          BombEq.GroupOK_sublist (List.erase_sublist _ _) hOKst
        have hsubtiles := IH _ sub hEOK hsubeq hsubne
        show Sol.tiles (Sol.mul [(b, ([(findTile grp, b)], 1))] sub) = tileSet grp
        rw [Sol.mul_tiles_eq (List.cons_ne_nil _ _) hsubne, Sol.litSol_tiles,
          hsubtiles, htsE]
        refine Finset.ext fun x => ?_
        simp only [Finset.mem_union, Finset.mem_singleton, Finset.mem_sdiff]
        constructor
        · rintro (rfl | hx)
          · exact ht
          · exact hx.1
        · intro hx
          by_cases hxt : x = findTile grp
          · exact Or.inl hxt
          · exact Or.inr ⟨hx, hxt⟩
      · rw [if_neg hmem] at hgb2
        exact Option.noConfusion hgb2

theorem foldlM_tiles (body : Sol → List BombEq → Option Sol) :
    ∀ (gls : List (List BombEq)) (acc res : Sol),
      gls.foldlM body acc = some res →
      (∀ a grp g, grp ∈ gls → body a grp = some g →
        ∃ gsol, g = Sol.mul a gsol ∧ (gsol ≠ [] → Sol.tiles gsol = tileSet grp)) →
      res ≠ [] →
      Sol.tiles res = Sol.tiles acc ∪ tileSet gls.flatten := by
  intro gls
  induction gls with
  | nil =>
    intro acc res hfold _ _
    rw [List.foldlM_nil] at hfold
    obtain rfl := Option.some.inj hfold
    rw [List.flatten_nil, tileSet_nil, Finset.union_empty]
  | cons grp gls ih =>
    intro acc res hfold hbody hne
    rw [List.foldlM_cons] at hfold
    obtain ⟨g, hg, hrest⟩ := Option.bind_eq_some.mp hfold
    obtain ⟨gsol, rfl, htg⟩ := hbody acc grp g (List.mem_cons_self grp gls) hg
    by_cases hgnil : Sol.mul acc gsol = []
    · exfalso
      have hprop : ∀ (gls2 : List (List BombEq)),
          (∀ a grp g, grp ∈ gls2 → body a grp = some g →
            ∃ gsol, g = Sol.mul a gsol ∧ (gsol ≠ [] → Sol.tiles gsol = tileSet grp)) →
          ∀ r, gls2.foldlM body [] = some r → r = [] := by
        intro gls2
        induction gls2 with
        | nil =>
          intro _ r hr
          exact (Option.some.inj hr).symm
        | cons grp2 gls2 ih2 =>
          intro hb r hr
          rw [List.foldlM_cons] at hr
          obtain ⟨g2, hg2, hrest2⟩ := Option.bind_eq_some.mp hr
          obtain ⟨gsol2, rfl, _⟩ := hb [] grp2 g2 (List.mem_cons_self _ _) hg2
          rw [Sol.mul_nil_left] at hrest2
          exact ih2 (fun a g3 g hm => hb a g3 g (List.mem_cons_of_mem _ hm)) r hrest2
      rw [hgnil] at hrest
      exact hne (hprop gls
        (fun a g2 g hm => hbody a g2 g (List.mem_cons_of_mem _ hm)) res hrest)
    · have hacc : acc ≠ [] := fun hc => hgnil (by rw [hc]; exact Sol.mul_nil_left _)
      have hgsol : gsol ≠ [] := fun hc => hgnil (by rw [hc]; exact Sol.mul_nil_right _)
      have hres := ih (Sol.mul acc gsol) res hrest
        (fun a g2 g hm => hbody a g2 g (List.mem_cons_of_mem _ hm)) hne
      rw [hres, Sol.mul_tiles_eq hacc hgsol, htg hgsol, List.flatten_cons, tileSet_append]
      refine Finset.ext fun x => ?_
      simp only [Finset.mem_union]
      tauto

theorem solveAreaFuel_tiles :
    ∀ (fuel : ℕ) (G : List BombEq) (s : Sol),
      GroupOK G → solveAreaFuel fuel G = some s → s ≠ [] → Sol.tiles s = tileSet G := by
  intro fuel
  induction fuel with
  | zero =>
    intro G s _ h _
    exact Option.noConfusion h
  | succ fuel ih =>
    intro G s hOK h hne
    rcases G with _ | ⟨e, rest⟩
    · obtain rfl := Option.some.inj h
      rw [tileSet_nil, Sol.tiles_cons_eq, Sol.tiles_nil_eq]
      simp
    rcases rest with _ | ⟨e2, rest2⟩
    · obtain rfl := Option.some.inj h
      rw [tileSet_single]
      exact singletonSol_tiles (hOK.2.1 e (List.mem_cons_self e [])).1
    · rw [solveAreaFuel_succ_go] at h
      have hOKf : GroupOK ((groupConstraints (e :: e2 :: rest2)).flatten) :=
        GroupOK_perm (groupConstraints_flatten_perm (e :: e2 :: rest2)).symm hOK
      have hmain := foldlM_tiles _ (groupConstraints (e :: e2 :: rest2)) [(0, ([], 1))] s h
        ?_ hne
      · rw [hmain, Sol.tiles_cons_eq, Sol.tiles_nil_eq,
          tileSet_perm (groupConstraints_flatten_perm (e :: e2 :: rest2))]
        simp
      · intro a grp g hmem hg
        have hg2 : Option.bind (solveBranch fuel grp 0) (fun g₀ =>
            Option.bind (solveBranch fuel grp 1) fun g₁ =>
            some (Sol.mul a (Sol.add (Sol.add [] g₀) g₁))) = some g := hg
        obtain ⟨g₀, hg0, hg3⟩ := Option.bind_eq_some.mp hg2
        obtain ⟨g₁, hg1, hg4⟩ := Option.bind_eq_some.mp hg3
        obtain rfl := Option.some.inj hg4
        refine ⟨Sol.add (Sol.add [] g₀) g₁, rfl, fun hgsne => ?_⟩
        have hgrpOK : GroupOK grp :=
          BombEq.GroupOK_sublist (List.sublist_flatten_of_mem hmem) hOKf
        have hgrpne : grp ≠ [] := groupConstraints_nonempty hmem
        rw [Sol.add_nil_left] at hgsne ⊢
        rw [Sol.tiles_add_eq]
        by_cases h0 : g₀ = []
        · have h1 : g₁ ≠ [] := by
            intro hc
            rw [h0, hc] at hgsne
            exact hgsne rfl
          rw [h0, Sol.tiles_nil_eq, Finset.empty_union]
          exact solveBranch_tiles fuel grp 1 g₁ hgrpOK hgrpne ih (Or.inr rfl) hg1 h1
        · rw [solveBranch_tiles fuel grp 0 g₀ hgrpOK hgrpne ih (Or.inl rfl) hg0 h0]
          by_cases h1 : g₁ = []
          · rw [h1, Sol.tiles_nil_eq, Finset.union_empty]
          · rw [solveBranch_tiles fuel grp 1 g₁ hgrpOK hgrpne ih (Or.inr rfl) hg1 h1,
              Finset.union_self]


theorem nodup_toFinset_erase {α : Type} [DecidableEq α] {l : List α} (h : l.Nodup) (a : α) :
    (l.erase a).toFinset = l.toFinset.erase a := by
  refine Finset.ext fun x => ?_
  rw [List.mem_toFinset, Finset.mem_erase, List.mem_toFinset, List.Nodup.mem_erase_iff h]

theorem satisfies_eqFree (U A : Finset Tile) : satisfies A (eqFree U) := by
  show ((((eqFree U).tiles ∩ A).card : ℤ)) ∈ (eqFree U).bombs
  show (((U ∩ A).card : ℤ)) ∈ (List.range (U.card + 1)).map fun n : ℕ => ((n : ℤ))
  have h := Finset.card_le_card (Finset.inter_subset_left : U ∩ A ⊆ U)
  have hlt : (U ∩ A).card < U.card + 1 := by omega
  exact List.mem_map_of_mem _ (List.mem_range.mpr hlt)

theorem not_mem_eqFree_bombs {U : Finset Tile} {k : ℤ} (h : k ∉ (eqFree U).bombs) :
    k < 0 ∨ k > (U.card : ℤ) := by
  by_contra hc
  push_neg at hc
  refine h ?_
  show k ∈ (List.range (U.card + 1)).map fun n : ℕ => ((n : ℤ))
  have hlt : k.toNat < U.card + 1 := by omega
  have hm := List.mem_map_of_mem (fun n : ℕ => ((n : ℤ))) (List.mem_range.mpr hlt)
  have hm2 : ((k.toNat : ℤ)) ∈ (List.range (U.card + 1)).map fun n : ℕ => ((n : ℤ)) := hm
  have he : ((k.toNat : ℤ)) = k := by omega
  rw [he] at hm2
  exact hm2

theorem specN_eqFree (U : Finset Tile) (k : ℤ) :
    specN [eqFree U] k = comb (U.card : ℤ) k := by
  rw [specN_single]
  by_cases h : k ∈ (eqFree U).bombs
  · rw [if_pos h]
    rfl
  · rw [if_neg h]
    have hk := not_mem_eqFree_bombs h
    rw [comb, if_pos hk]

theorem specF_eqFree (U : Finset Tile) (k : ℤ) (t : Tile) :
    specF [eqFree U] k t = if t ∈ U then comb ((U.card : ℤ) - 1) (k - 1) else 0 := by
  rw [specF_single]
  by_cases htU : t ∈ U
  · rw [if_pos htU]
    by_cases h : k ∈ (eqFree U).bombs
    · rw [if_pos ⟨h, htU⟩]
      rfl
    · rw [if_neg fun hc => h hc.1]
      have hk := not_mem_eqFree_bombs h
      symm
      show comb (((eqFree U).tiles.card : ℤ) - 1) (k - 1) = 0
      rw [comb, if_pos (by
        show k - 1 < 0 ∨ k - 1 > ((eqFree U).tiles.card : ℤ) - 1
        have hcard : ((eqFree U).tiles.card : ℤ) = (U.card : ℤ) := rfl
        omega)]
  · rw [if_neg htU, if_neg fun hc => htU hc.2]

theorem tileSet_eqFree (U : Finset Tile) : tileSet [eqFree U] = U := by
  rw [tileSet_single]
  rfl

theorem specN_global (S : List BombEq) (U : Finset Tile)
    (hdisj : tileSet S ∩ U = ∅) (B : ℤ) :
    specN (S ++ [eqFree U]) B
      = ∑ k in Finset.Icc (0 : ℤ) ((tileSet S).card : ℤ),
          specN S k * comb (U.card : ℤ) (B - k) := by
  rw [specN_append_conv S [eqFree U] (by rw [tileSet_eqFree]; exact hdisj) B
    (Finset.Icc 0 ((tileSet S).card : ℤ)) (Finset.Icc 0 ((U.card : ℤ)))
    (fun a ha => specN_ne_zero_mem_Icc ha)
    (fun b hb => by
      have h := specN_ne_zero_mem_Icc hb
      rw [tileSet_eqFree] at h
      exact h)]
  refine Finset.sum_congr rfl fun a _ => ?_
  have hterm : ∀ b ∈ Finset.Icc (0 : ℤ) ((U.card : ℤ)),
      (if a + b = B then specN S a * specN [eqFree U] b else 0)
        = if b = B - a then specN S a * specN [eqFree U] b else 0 := by
    intro b _
    by_cases h : a + b = B
    · rw [if_pos h, if_pos (by omega)]
    · rw [if_neg h, if_neg (by omega)]
  rw [Finset.sum_congr rfl hterm,
    Finset.sum_ite_eq' (Finset.Icc (0 : ℤ) ((U.card : ℤ))) (B - a)
      (fun b => specN S a * specN [eqFree U] b)]
  by_cases hm : B - a ∈ Finset.Icc (0 : ℤ) ((U.card : ℤ))
  · rw [if_pos hm, specN_eqFree]
  · rw [if_neg hm]
    rw [Finset.mem_Icc] at hm
    rw [comb, if_pos (by omega), mul_zero]

theorem specF_global (S : List BombEq) (U : Finset Tile)
    (hdisj : tileSet S ∩ U = ∅) (B : ℤ) (t : Tile) (ht : t ∉ U) :
    specF (S ++ [eqFree U]) B t
      = ∑ k in Finset.Icc (0 : ℤ) ((tileSet S).card : ℤ),
          specF S k t * comb (U.card : ℤ) (B - k) := by
  rw [specF_append_conv S [eqFree U] (by rw [tileSet_eqFree]; exact hdisj) B t
    (Finset.Icc 0 ((tileSet S).card : ℤ)) (Finset.Icc 0 ((U.card : ℤ)))
    (fun a ha => specN_ne_zero_mem_Icc ha)
    (fun b hb => by
      have h := specN_ne_zero_mem_Icc hb
      rw [tileSet_eqFree] at h
      exact h)]
  refine Finset.sum_congr rfl fun a _ => ?_
  have hterm : ∀ b ∈ Finset.Icc (0 : ℤ) ((U.card : ℤ)),
      (if a + b = B
        then specF S a t * specN [eqFree U] b + specF [eqFree U] b t * specN S a
        else 0)
        = if b = B - a then specF S a t * specN [eqFree U] b else 0 := by
    intro b _
    by_cases h : a + b = B
    · rw [if_pos h, if_pos (by omega), specF_eqFree, if_neg ht, zero_mul, add_zero]
    · rw [if_neg h, if_neg (by omega)]
  rw [Finset.sum_congr rfl hterm,
    Finset.sum_ite_eq' (Finset.Icc (0 : ℤ) ((U.card : ℤ))) (B - a)
      (fun b => specF S a t * specN [eqFree U] b)]
  by_cases hm : B - a ∈ Finset.Icc (0 : ℤ) ((U.card : ℤ))
  · rw [if_pos hm, specN_eqFree]
  · rw [if_neg hm]
    rw [Finset.mem_Icc] at hm
    rw [comb, if_pos (by omega), mul_zero]

theorem specF_global_free (S : List BombEq) (U : Finset Tile)
    (hdisj : tileSet S ∩ U = ∅) (B : ℤ) (t : Tile) (ht : t ∈ U) :
    specF (S ++ [eqFree U]) B t
      = ∑ k in Finset.Icc (0 : ℤ) ((tileSet S).card : ℤ),
          specN S k * comb ((U.card : ℤ) - 1) (B - k - 1) := by
  have htS : t ∉ tileSet S := fun hc =>
    Finset.not_mem_empty t (hdisj ▸ Finset.mem_inter.mpr ⟨hc, ht⟩)
  rw [specF_append_conv S [eqFree U] (by rw [tileSet_eqFree]; exact hdisj) B t
    (Finset.Icc 0 ((tileSet S).card : ℤ)) (Finset.Icc 0 ((U.card : ℤ)))
    (fun a ha => specN_ne_zero_mem_Icc ha)
    (fun b hb => by
      have h := specN_ne_zero_mem_Icc hb
      rw [tileSet_eqFree] at h
      exact h)]
  refine Finset.sum_congr rfl fun a _ => ?_
  have hterm : ∀ b ∈ Finset.Icc (0 : ℤ) ((U.card : ℤ)),
      (if a + b = B
        then specF S a t * specN [eqFree U] b + specF [eqFree U] b t * specN S a
        else 0)
        = if b = B - a then specF [eqFree U] b t * specN S a else 0 := by
    intro b _
    by_cases h : a + b = B
    · rw [if_pos h, if_pos (by omega), specF_not_mem_tileSet htS, zero_mul, zero_add]
    · rw [if_neg h, if_neg (by omega)]
  rw [Finset.sum_congr rfl hterm,
    Finset.sum_ite_eq' (Finset.Icc (0 : ℤ) ((U.card : ℤ))) (B - a)
      (fun b => specF [eqFree U] b t * specN S a)]
  by_cases hm : B - a ∈ Finset.Icc (0 : ℤ) ((U.card : ℤ))
  · rw [if_pos hm, specF_eqFree, if_pos ht, mul_comm]
  · rw [if_neg hm]
    rw [Finset.mem_Icc] at hm
    rw [comb, if_pos (by omega), mul_zero]


theorem specF_zero_all {G : List BombEq} {B : ℤ} {t : Tile} (h : specF G B t = 0) :
    ∀ A ∈ layouts G B, t ∉ A := by
  intro A hA htA
  have hcast : ((((layouts G B).filter fun A => t ∈ A).card : ℕ) : ℤ) = 0 := h
  have hc : ((layouts G B).filter fun A => t ∈ A) = ∅ :=
    Finset.card_eq_zero.mp (by exact_mod_cast hcast)
  exact Finset.not_mem_empty A (hc ▸ Finset.mem_filter.mpr ⟨hA, htA⟩)

theorem specF_total_all {G : List BombEq} {B : ℤ} {t : Tile}
    (h : specF G B t = specN G B) : ∀ A ∈ layouts G B, t ∈ A := by
  have hsub := Finset.filter_subset (fun A => t ∈ A) (layouts G B)
  have hcast : ((((layouts G B).filter fun A => t ∈ A).card : ℕ) : ℤ)
      = (((layouts G B).card : ℕ) : ℤ) := h
  have hcard : (layouts G B).card ≤ ((layouts G B).filter fun A => t ∈ A).card :=
    le_of_eq (by exact_mod_cast hcast.symm)
  have heq : (layouts G B).filter (fun A => t ∈ A) = layouts G B :=
    Finset.eq_of_subset_of_card_le hsub hcard
  intro A hA
  rw [← heq] at hA
  exact (Finset.mem_filter.mp hA).2

theorem keys_sum_global_N (S : List BombEq) (sol : Sol) (U : Finset Tile) (B : ℤ)
    (hdisj : tileSet S ∩ U = ∅)
    (hN : ∀ k, Sol.N sol k = specN S k) :
    ∑ k in Sol.keys sol, Sol.N sol k * comb (U.card : ℤ) (B - k)
      = specN (S ++ [eqFree U]) B := by
  rw [specN_global S U hdisj B]
  have h1 : ∑ k in Sol.keys sol, Sol.N sol k * comb (U.card : ℤ) (B - k)
      = ∑ k in Sol.keys sol ∪ Finset.Icc (0 : ℤ) ((tileSet S).card : ℤ),
          Sol.N sol k * comb (U.card : ℤ) (B - k) := by
    refine Finset.sum_subset Finset.subset_union_left ?_
    intro x _ hnx
    rw [Sol.N_not_mem hnx, zero_mul]
  have h2 : ∑ k in Finset.Icc (0 : ℤ) ((tileSet S).card : ℤ),
        specN S k * comb (U.card : ℤ) (B - k)
      = ∑ k in Sol.keys sol ∪ Finset.Icc (0 : ℤ) ((tileSet S).card : ℤ),
          specN S k * comb (U.card : ℤ) (B - k) := by
    refine Finset.sum_subset (Finset.subset_union_right :
      Finset.Icc (0 : ℤ) ((tileSet S).card : ℤ)
        ⊆ Sol.keys sol ∪ Finset.Icc (0 : ℤ) ((tileSet S).card : ℤ)) ?_
    intro x _ hnx
    have hz : specN S x = 0 := by
      by_contra hc
      exact hnx (specN_ne_zero_mem_Icc hc)
    rw [hz, zero_mul]
  rw [h1, h2]
  exact Finset.sum_congr rfl fun k _ => by rw [hN k]

theorem keys_sum_global_F (S : List BombEq) (sol : Sol) (U : Finset Tile) (B : ℤ)
    (t : Tile) (hdisj : tileSet S ∩ U = ∅) (ht : t ∉ U)
    (hF : ∀ k, Sol.F sol k t = specF S k t) :
    ∑ k in Sol.keys sol, Sol.F sol k t * comb (U.card : ℤ) (B - k)
      = specF (S ++ [eqFree U]) B t := by
  rw [specF_global S U hdisj B t ht]
  have h1 : ∑ k in Sol.keys sol, Sol.F sol k t * comb (U.card : ℤ) (B - k)
      = ∑ k in Sol.keys sol ∪ Finset.Icc (0 : ℤ) ((tileSet S).card : ℤ),
          Sol.F sol k t * comb (U.card : ℤ) (B - k) := by
    refine Finset.sum_subset Finset.subset_union_left ?_
    intro x _ hnx
    rw [Sol.F_not_mem_keys hnx, zero_mul]
  have h2 : ∑ k in Finset.Icc (0 : ℤ) ((tileSet S).card : ℤ),
        specF S k t * comb (U.card : ℤ) (B - k)
      = ∑ k in Sol.keys sol ∪ Finset.Icc (0 : ℤ) ((tileSet S).card : ℤ),
          specF S k t * comb (U.card : ℤ) (B - k) := by
    refine Finset.sum_subset (Finset.subset_union_right :
      Finset.Icc (0 : ℤ) ((tileSet S).card : ℤ)
        ⊆ Sol.keys sol ∪ Finset.Icc (0 : ℤ) ((tileSet S).card : ℤ)) ?_
    intro x _ hnx
    have hz : specF S x t = 0 := by
      refine specF_support t fun hc => hnx ?_
      rw [Finset.mem_Icc]
      exact hc
    rw [hz, zero_mul]
  rw [h1, h2]
  exact Finset.sum_congr rfl fun k _ => by rw [hF k]

theorem keys_sum_global_Ffree (S : List BombEq) (sol : Sol) (U : Finset Tile) (B : ℤ)
    (t : Tile) (hdisj : tileSet S ∩ U = ∅) (ht : t ∈ U)
    (hN : ∀ k, Sol.N sol k = specN S k) :
    ∑ k in Sol.keys sol, Sol.N sol k * comb ((U.card : ℤ) - 1) (B - k - 1)
      = specF (S ++ [eqFree U]) B t := by
  rw [specF_global_free S U hdisj B t ht]
  have h1 : ∑ k in Sol.keys sol, Sol.N sol k * comb ((U.card : ℤ) - 1) (B - k - 1)
      = ∑ k in Sol.keys sol ∪ Finset.Icc (0 : ℤ) ((tileSet S).card : ℤ),
          Sol.N sol k * comb ((U.card : ℤ) - 1) (B - k - 1) := by
    refine Finset.sum_subset Finset.subset_union_left ?_
    intro x _ hnx
    rw [Sol.N_not_mem hnx, zero_mul]
  have h2 : ∑ k in Finset.Icc (0 : ℤ) ((tileSet S).card : ℤ),
        specN S k * comb ((U.card : ℤ) - 1) (B - k - 1)
      = ∑ k in Sol.keys sol ∪ Finset.Icc (0 : ℤ) ((tileSet S).card : ℤ),
          specN S k * comb ((U.card : ℤ) - 1) (B - k - 1) := by
    refine Finset.sum_subset (Finset.subset_union_right :
      Finset.Icc (0 : ℤ) ((tileSet S).card : ℤ)
        ⊆ Sol.keys sol ∪ Finset.Icc (0 : ℤ) ((tileSet S).card : ℤ)) ?_
    intro x _ hnx
    have hz : specN S x = 0 := by
      by_contra hc
      exact hnx (specN_ne_zero_mem_Icc hc)
    rw [hz, zero_mul]
  rw [h1, h2]
  exact Finset.sum_congr rfl fun k _ => by rw [hN k]

theorem layouts_promote (S1 S2 L : List BombEq) (U1 U2 : Finset Tile) (B : ℤ)
    (hsat : ∀ A, (satAll A S1 ∧ satAll A L) ↔ satAll A S2)
    (hU : tileSet S2 ∪ U2 = tileSet S1 ∪ U1)
    (hLsat : ∀ A ∈ layouts (S1 ++ [eqFree U1]) B, satAll A L) :
    layouts (S2 ++ [eqFree U2]) B = layouts (S1 ++ [eqFree U1]) B := by
  have hu1 : tileSet (S1 ++ [eqFree U1]) = tileSet S1 ∪ U1 := by
    rw [tileSet_append, tileSet_eqFree]
  have hu2 : tileSet (S2 ++ [eqFree U2]) = tileSet S1 ∪ U1 := by
    rw [tileSet_append, tileSet_eqFree, hU]
  refine Finset.ext fun A => ?_
  rw [mem_layouts, mem_layouts, hu1, hu2, satAll_append, satAll_append]
  have hfree1 : satAll A [eqFree U1] := by
    intro e he
    rcases List.mem_singleton.mp he with rfl
    exact satisfies_eqFree U1 A
  have hfree2 : satAll A [eqFree U2] := by
    intro e he
    rcases List.mem_singleton.mp he with rfl
    exact satisfies_eqFree U2 A
  constructor
  · rintro ⟨hsub, ⟨hs2, _⟩, hcard⟩
    exact ⟨hsub, ⟨((hsat A).mpr hs2).1, hfree1⟩, hcard⟩
  · rintro ⟨hsub, ⟨hs1, _⟩, hcard⟩
    have hL : satAll A L := hLsat A (by
      rw [mem_layouts, hu1, satAll_append]
      exact ⟨hsub, ⟨hs1, hfree1⟩, hcard⟩)
    exact ⟨hsub, ⟨(hsat A).mp ⟨hs1, hL⟩, hfree2⟩, hcard⟩


theorem dpop_keys_list {K V : Type} [DecidableEq K] (d : List (K × V)) (k : K) (v : V)
    (d' : List (K × V)) (h : dpop d k = some (v, d')) :
    d'.map Prod.fst = (d.map Prod.fst).erase k := by
  induction d generalizing d' with
  | nil => simp [dpop] at h
  | cons p rest ih =>
    obtain ⟨k₀, v₀⟩ := p
    by_cases h0 : k₀ = k
    · rw [dpop, if_pos h0] at h
      injection h with h1
      have hd : rest = d' := congrArg Prod.snd h1
      subst hd
      subst h0
      rw [List.map_cons, List.erase_cons_head]
    · rw [dpop, if_neg h0] at h
      cases hrest : dpop rest k with
      | none =>
        rw [hrest] at h
        exact Option.noConfusion h
      | some pr =>
        obtain ⟨pv, pd⟩ := pr
        rw [hrest, Option.map_some'] at h
        injection h with h1
        have hv : pv = v := congrArg Prod.fst h1
        have hd : (k₀, v₀) :: pd = d' := congrArg Prod.snd h1
        subst hd
        have he : ((k₀ :: (rest.map Prod.fst)).erase k) = k₀ :: ((rest.map Prod.fst).erase k) := by
          rw [List.erase_cons, if_neg (by simp [h0])]
        rw [List.map_cons, List.map_cons, he, ih pd (hv ▸ hrest)]

theorem cbfInner_keys (c : ℤ) (f : FDict) : ∀ (d : List (Tile × ℤ)),
    ((cbfInner c d f).map Prod.fst).toFinset
      = (d.map Prod.fst).toFinset ∪ (f.map Prod.fst).toFinset := by
  induction f with
  | nil =>
    intro d
    simp [cbfInner]
  | cons q rest ih =>
    intro d
    have h1 : cbfInner c d (q :: rest)
        = cbfInner c (dset d q.1 (dget d q.1 0 + q.2 * c)) rest := rfl
    rw [h1, ih, dset_keys]
    simp only [List.map_cons, List.toFinset_cons, Finset.insert_union, Finset.union_insert]

theorem cbfInner_nodup (c : ℤ) (f : FDict) : ∀ (d : List (Tile × ℤ)),
    (d.map Prod.fst).Nodup → ((cbfInner c d f).map Prod.fst).Nodup := by
  induction f with
  | nil => intro d h; exact h
  | cons q rest ih => intro d h; exact ih _ (dset_nodup_keys _ _ _ h)

theorem cbf_fold_keys (u bombs : ℤ) : ∀ (sol : Sol) (acc : List (Tile × ℤ) × ℤ),
    (((sol.foldl (cbfStep u bombs) acc).1).map Prod.fst).toFinset
      = (acc.1.map Prod.fst).toFinset ∪ Sol.tiles sol
        ∪ (if sol = [] then ∅ else {((-1 : ℤ), (-1 : ℤ))}) := by
  intro sol
  induction sol with
  | nil =>
    intro acc
    rw [List.foldl_nil, Sol.tiles_nil_eq, if_pos rfl, Finset.union_empty, Finset.union_empty]
  | cons p sol ih =>
    intro acc
    rw [List.foldl_cons, ih]
    have h1 : ((cbfStep u bombs acc p).1.map Prod.fst).toFinset
        = (acc.1.map Prod.fst).toFinset ∪ (p.2.1.map Prod.fst).toFinset
          ∪ {((-1 : ℤ), (-1 : ℤ))} := by
      show ((dset (cbfInner (comb u (bombs - p.1)) acc.1 p.2.1) (-1, -1)
          (dget (cbfInner (comb u (bombs - p.1)) acc.1 p.2.1) (-1, -1) 0
            + p.2.2 * comb (u - 1) (bombs - p.1 - 1))).map Prod.fst).toFinset = _
      rw [dset_keys, cbfInner_keys]
      rw [Finset.insert_eq]
      refine Finset.ext fun x => ?_
      simp only [Finset.mem_union, Finset.mem_singleton]
      tauto
    rw [h1, Sol.tiles_cons_eq, if_neg (List.cons_ne_nil p sol)]
    by_cases h : sol = []
    · rw [if_pos h, h, Sol.tiles_nil_eq]
      refine Finset.ext fun x => ?_
      simp only [Finset.mem_union, Finset.mem_singleton, Finset.not_mem_empty, or_false]
    · rw [if_neg h]
      refine Finset.ext fun x => ?_
      simp only [Finset.mem_union, Finset.mem_singleton]
      tauto

theorem cbf_fold_nodup (u bombs : ℤ) : ∀ (sol : Sol) (acc : List (Tile × ℤ) × ℤ),
    (acc.1.map Prod.fst).Nodup →
    (((sol.foldl (cbfStep u bombs) acc).1).map Prod.fst).Nodup := by
  intro sol
  induction sol with
  | nil => intro acc h; exact h
  | cons p sol ih =>
    intro acc h
    rw [List.foldl_cons]
    exact ih _ (dset_nodup_keys _ _ _ (cbfInner_nodup _ _ _ h))

theorem foldl_dset_const_keys {V : Type} (v : V) : ∀ (l : List Tile) (d : List (Tile × V)),
    ((l.foldl (fun d t => dset d t v) d).map Prod.fst).toFinset
      = (d.map Prod.fst).toFinset ∪ l.toFinset := by
  intro l
  induction l with
  | nil =>
    intro d
    simp
  | cons t l ih =>
    intro d
    rw [List.foldl_cons, ih, dset_keys]
    simp only [List.toFinset_cons, Finset.insert_union, Finset.union_insert]

theorem foldl_dset_const_nodup {V : Type} (v : V) : ∀ (l : List Tile) (d : List (Tile × V)),
    (d.map Prod.fst).Nodup →
    ((l.foldl (fun d t => dset d t v) d).map Prod.fst).Nodup := by
  intro l
  induction l with
  | nil => intro d h; exact h
  | cons t l ih =>
    intro d h
    rw [List.foldl_cons]
    exact ih _ (dset_nodup_keys _ _ _ h)

theorem calcBF_inst (s : State) (sol : Sol) (inst : List (Tile × ℤ)) (N : ℤ)
    (heq : calcBombFractions s sol = some (inst, N))
    (hsent : ((-1 : ℤ), (-1 : ℤ)) ∉ Sol.tiles sol) (hsol : sol ≠ []) :
    (inst.map Prod.fst).Nodup
      ∧ (inst.map Prod.fst).toFinset = Sol.tiles sol ∪ s.unconstrained.toFinset := by
  simp only [calcBombFractions] at heq
  cases hpop : dpop ((sol.foldl (cbfStep ((s.unconstrained.length : ℤ)) s.bombs) ([], 0)).1)
      ((-1 : ℤ), (-1 : ℤ)) with
  | none =>
    rw [hpop] at heq
    exact Option.noConfusion heq
  | some pr =>
    obtain ⟨uVal, d2⟩ := pr
    rw [hpop] at heq
    injection heq with heq
    have hinst : s.unconstrained.foldl (fun d t => dset d t uVal) d2 = inst :=
      congrArg Prod.fst heq
    have hfoldk := cbf_fold_keys ((s.unconstrained.length : ℤ)) s.bombs sol ([], 0)
    have hfoldn := cbf_fold_nodup ((s.unconstrained.length : ℤ)) s.bombs sol ([], 0)
      List.nodup_nil
    have hd2keys := dpop_keys_list _ _ _ _ hpop
    have hd2nodup : (d2.map Prod.fst).Nodup := by
      rw [hd2keys]
      exact List.Nodup.sublist (@List.erase_sublist Tile instBEqOfDecidableEq (-1, -1) _) hfoldn
    have hd2set : (d2.map Prod.fst).toFinset = Sol.tiles sol := by
      rw [hd2keys, nodup_toFinset_erase hfoldn, hfoldk, if_neg hsol]
      refine Finset.ext fun x => ?_
      rw [Finset.mem_erase]
      simp only [Finset.mem_union, Finset.mem_singleton, List.map_nil, List.toFinset_nil,
        Finset.not_mem_empty, false_or]
      constructor
      · rintro ⟨hx1, hx2 | hx2⟩
        · exact hx2
        · exact absurd hx2 hx1
      · intro hx
        exact ⟨fun hc => hsent (hc ▸ hx), Or.inl hx⟩
    refine ⟨?_, ?_⟩
    · rw [← hinst]
      exact foldl_dset_const_nodup uVal s.unconstrained d2 hd2nodup
    · rw [← hinst, foldl_dset_const_keys uVal s.unconstrained d2, hd2set]


theorem getD_set_ne {α : Type} (v d : α) : ∀ (l : List α) (n m : ℕ), n ≠ m →
    (l.set n v).getD m d = l.getD m d := by
  intro l
  induction l with
  | nil => intro n m _; rfl
  | cons a l ih =>
    intro n m hnm
    cases n with
    | zero =>
      cases m with
      | zero => exact absurd rfl hnm
      | succ m => rfl
    | succ n =>
      cases m with
      | zero => rfl
      | succ m =>
        show (l.set n v).getD m d = l.getD m d
        exact ih n m fun hc => hnm (by rw [hc])

theorem getD_set_self {α : Type} (v d : α) : ∀ (l : List α) (n : ℕ),
    (l.set n v).getD n d = if n < l.length then v else d := by
  intro l
  induction l with
  | nil =>
    intro n
    rw [if_neg (by simp)]
    rfl
  | cons a l ih =>
    intro n
    cases n with
    | zero =>
      rw [if_pos (by simp)]
      rfl
    | succ n =>
      show (l.set n v).getD n d = _
      rw [ih n]
      by_cases h : n < l.length
      · rw [if_pos h, if_pos (by simp only [List.length_cons]; omega)]
      · rw [if_neg h, if_neg (by simp only [List.length_cons]; omega)]

theorem set_getD_self {α : Type} (d : α) : ∀ (l : List α) (n : ℕ),
    l.set n (l.getD n d) = l := by
  intro l
  induction l with
  | nil => intro n; rfl
  | cons a l ih =>
    intro n
    cases n with
    | zero => rfl
    | succ n =>
      show a :: l.set n ((a :: l).getD (n + 1) d) = a :: l
      have h : (a :: l).getD (n + 1) d = l.getD n d := rfl
      rw [h, ih n]

theorem boardSet_self {b : List (List String)} {r c : ℤ} {v : String}
    (h : boardGet b r c = v) : boardSet b r c v = b := by
  unfold boardGet at h
  unfold boardSet
  rw [← h, set_getD_self, set_getD_self]

theorem boardGet_boardSet_ne (b : List (List String)) (r c r' c' : ℤ) (v : String)
    (hne : (r, c) ≠ (r', c')) (h1 : 0 ≤ r ∧ 0 ≤ c) (h2 : 0 ≤ r' ∧ 0 ≤ c') :
    boardGet (boardSet b r c v) r' c' = boardGet b r' c' := by
  unfold boardGet boardSet
  by_cases hrow : r.toNat = r'.toNat
  · have hr : r = r' := by omega
    subst hr
    have hcol : c.toNat ≠ c'.toNat := by
      intro hc
      refine hne ?_
      have hcc : c = c' := by omega
      rw [hcc]
    rw [← hrow]
    rw [getD_set_self]
    by_cases hlen : r.toNat < b.length
    · rw [if_pos hlen, getD_set_ne v "" (b.getD r.toNat []) c.toNat c'.toNat hcol]
    · rw [if_neg hlen]
      have hb : b.getD r.toNat [] = [] := List.getD_eq_default b [] (by omega)
      rw [hb]
  · rw [getD_set_ne ((b.getD r.toNat []).set c.toNat v) [] b r.toNat r'.toNat hrow]

theorem bombKey_S (v : String) : bombKey v "S" = none := by
  unfold bombKey
  by_cases h : v = "Classic"
  · rw [if_pos h]
    rfl
  · rw [if_neg h]
    by_cases h2 : v = "Thrill Digger"
    · rw [if_pos h2]
      rfl
    · rw [if_neg h2]

theorem pbfWrite_id (v x : String) (c total : ℤ) :
    pbfWrite v (pbfWrite v x c total) c total = pbfWrite v x c total := by
  by_cases h0 : c = 0
  · have hW : pbfWrite v x c total = if (bombKey v x).isSome then x else "S" := by
      rw [pbfWrite, if_pos h0]
    by_cases hk : (bombKey v x).isSome
    · rw [hW, if_pos hk, hW, if_pos hk]
    · rw [hW, if_neg hk]
      rw [pbfWrite, if_pos h0, bombKey_S]
      rfl
  · by_cases hN : c = total
    · have hW : pbfWrite v x c total
          = if x = "B" ∨ x = "Rupoor" then x else "B/R" := by
        rw [pbfWrite, if_neg h0, if_pos hN]
      by_cases hx : x = "B" ∨ x = "Rupoor"
      · rw [hW, if_pos hx, hW, if_pos hx]
      · rw [hW, if_neg hx]
        rw [pbfWrite, if_neg h0, if_pos hN,
          if_neg (by decide : ¬("B/R" = "B" ∨ "B/R" = "Rupoor"))]
    · have hW : pbfWrite v x c total = toString (pctRound c total) ++ "%" := by
        rw [pbfWrite, if_neg h0, if_neg hN]
      rw [hW, pbfWrite, if_neg h0, if_neg hN]

theorem pbfStep_fields (total : ℤ) (st : State × List BombEq) (p : Tile × ℤ) :
    (pbfStep total st p).1.version = st.1.version
      ∧ (pbfStep total st p).1.height = st.1.height
      ∧ (pbfStep total st p).1.width = st.1.width
      ∧ (pbfStep total st p).1.bombs = st.1.bombs
      ∧ (pbfStep total st p).1.message = st.1.message
      ∧ (pbfStep total st p).1.constraints = st.1.constraints := by
  simp only [pbfStep]
  split_ifs <;> exact ⟨rfl, rfl, rfl, rfl, rfl, rfl⟩

theorem pbfStep_board (total : ℤ) (st : State × List BombEq) (p : Tile × ℤ) :
    (pbfStep total st p).1.board
      = boardSet st.1.board p.1.1 p.1.2
          (pbfWrite st.1.version (boardGet st.1.board p.1.1 p.1.2) p.2 total) := by
  simp only [pbfStep, pbfWrite]
  split_ifs with h1 h2 h3 h4
  · exact (boardSet_self rfl).symm
  · rfl
  · exact (boardSet_self rfl).symm
  · rfl
  · rfl

theorem pbfStep_rest (total : ℤ) (st : State × List BombEq) (p : Tile × ℤ) :
    ((pbfStep total st p).2 = st.2
        ∧ (pbfStep total st p).1.unconstrained = st.1.unconstrained)
      ∨ ∃ b : ℤ, ((b = 0 ∧ p.2 = 0) ∨ (b = 1 ∧ p.2 = total))
          ∧ (pbfStep total st p).2 = st.2 ++ [mkBombEq [p.1] [b]]
          ∧ (pbfStep total st p).1.unconstrained = st.1.unconstrained.erase p.1 := by
  simp only [pbfStep]
  split_ifs with h1 h2 h3 h4
  · exact Or.inl ⟨rfl, rfl⟩
  · exact Or.inr ⟨0, Or.inl ⟨rfl, h1⟩, rfl, rfl⟩
  · exact Or.inr ⟨1, Or.inr ⟨rfl, h3⟩, rfl, rfl⟩
  · exact Or.inr ⟨1, Or.inr ⟨rfl, h3⟩, rfl, rfl⟩
  · exact Or.inl ⟨rfl, rfl⟩


/-- C2 (counterexample): integrating the inert single-tile `{0,1}` equation
into an empty store succeeds and leaves that inert equation in the store —
it is added, not discarded. -/
theorem C2_inert_not_discarded :
    BombEq.integrate 5 [] [⟨{((0:ℤ), (0:ℤ))}, [0, 1]⟩]
        = some ([⟨{((0:ℤ), (0:ℤ))}, [0, 1]⟩], true) ∧
      (⟨{((0:ℤ), (0:ℤ))}, [0, 1]⟩ : BombEq).tiles.card = 1 ∧
      (⟨{((0:ℤ), (0:ℤ))}, [0, 1]⟩ : BombEq).bombs = [0, 1] := by
  refine ⟨by decide, by decide, rfl⟩

/-- C2 (amended): after `integrate_new_bomb_eqs` returns `True`, the store
contains no two equal equations, no impossible equation and no splittable
equation, provided the initial store already satisfied these; trivial and
inert single-tile equations, however, are added to the store rather than
discarded. -/
theorem C2_integrate_preserves_storeOK (fuel : ℕ)
    (store newEqs store' : List BombEq)
    (h : BombEq.integrate fuel store newEqs = some (store', true))
    (hOK : StoreOK store) : StoreOK store' :=
  BombEq.integrateFuel_storeOK fuel store newEqs.reverse store' h hOK

/-- Witness for `C2_integrate_preserves_storeOK`. -/
theorem C2_integrate_preserves_storeOK_witness :
    StoreOK [⟨{((0:ℤ), (0:ℤ))}, [1]⟩] :=
  C2_integrate_preserves_storeOK 5 [] [⟨{((0:ℤ), (0:ℤ))}, [1]⟩]
    [⟨{((0:ℤ), (0:ℤ))}, [1]⟩] (by decide) (by decide)

/-- C6: when `e₁ ⊑ e₂` (tiles included, single bomb count `b`), the
subtraction `e₂ − e₁` has tiles `T(e₂) \ T(e₁)`, its bomb counts are exactly
the shifted counts `{x − b | x ∈ B(e₂)}` clipped to `[0, |T(e₂)| − |T(e₁)|]`,
its tile count is `|T(e₂)| − |T(e₁)|`, and every bomb count lies in
`[0, |T(e₂ − e₁)|]`. -/
theorem C6_subtraction (e₁ e₂ : BombEq) (b : ℤ)
    (hT : e₁.tiles ⊆ e₂.tiles) (hB : e₁.bombs = [b]) :
    (e₂.sub e₁).tiles = e₂.tiles \ e₁.tiles ∧
      (∀ x : ℤ, x ∈ (e₂.sub e₁).bombs ↔
        ((∃ y ∈ e₂.bombs, x = y - b) ∧
          0 ≤ x ∧ x ≤ (e₂.tiles.card : ℤ) - (e₁.tiles.card : ℤ))) ∧
      ((e₂.sub e₁).tiles.card : ℤ) = (e₂.tiles.card : ℤ) - (e₁.tiles.card : ℤ) ∧
      (∀ x ∈ (e₂.sub e₁).bombs, 0 ≤ x ∧ x ≤ ((e₂.sub e₁).tiles.card : ℤ)) := by
  have hle : e₁.tiles.card ≤ e₂.tiles.card := Finset.card_le_card hT
  have hcardZ : (((e₂.tiles \ e₁.tiles).card : ℤ))
      = (e₂.tiles.card : ℤ) - (e₁.tiles.card : ℤ) := by
    rw [Finset.card_sdiff hT]
    exact_mod_cast Int.ofNat_sub hle
  have htiles : (e₂.sub e₁).tiles = e₂.tiles \ e₁.tiles := rfl
  refine ⟨htiles, ?_, htiles ▸ hcardZ, ?_⟩
  · intro x
    simp only [BombEq.sub, ofFinset, hB, List.headI, List.mem_filter, List.mem_map,
      decide_eq_true_eq, hcardZ]
    constructor
    · rintro ⟨⟨y, hy, rfl⟩, h⟩
      exact ⟨⟨y, hy, rfl⟩, h⟩
    · rintro ⟨⟨y, hy, rfl⟩, h⟩
      exact ⟨⟨y, hy, rfl⟩, h⟩
  · intro x hx
    simp only [BombEq.sub, ofFinset, List.mem_filter, decide_eq_true_eq] at hx
    exact hx.2

/-- Witness for `C6_subtraction`, on the doctest instance. -/
theorem C6_subtraction_witness :
    (((mkBombEq [((0:ℤ), (2:ℤ)), ((1:ℤ), (2:ℤ)), ((2:ℤ), (2:ℤ))] [1]).sub
        (mkBombEq [((0:ℤ), (2:ℤ)), ((1:ℤ), (2:ℤ))] [1])).tiles.card : ℤ)
      = ((mkBombEq [((0:ℤ), (2:ℤ)), ((1:ℤ), (2:ℤ)), ((2:ℤ), (2:ℤ))] [1]).tiles.card : ℤ)
        - ((mkBombEq [((0:ℤ), (2:ℤ)), ((1:ℤ), (2:ℤ))] [1]).tiles.card : ℤ) :=
  (C6_subtraction (mkBombEq [((0:ℤ), (2:ℤ)), ((1:ℤ), (2:ℤ))] [1])
    (mkBombEq [((0:ℤ), (2:ℤ)), ((1:ℤ), (2:ℤ)), ((2:ℤ), (2:ℤ))] [1]) 1
    (by decide) (by decide)).2.2.1

/-- C9 (counterexample): the constructor does not sort or deduplicate — on
the input bombs `(1, 0)` it returns the tuple `(1, 0)`, which is not
ascending. -/
theorem C9_not_sorted :
    (mkBombEq [((0:ℤ), (0:ℤ))] [1, 0]).bombs = [1, 0] ∧
      ¬ List.Pairwise (· < ·) (mkBombEq [((0:ℤ), (0:ℤ))] [1, 0]).bombs := by
  refine ⟨by decide, by decide⟩

/-- C9 (amended): the constructor always clips the bomb counts to
`[0, |T|]`; the result is strictly ascending (hence duplicate-free) exactly
when the input sequence already is, as the documented representation
invariant requires. -/
theorem C9_constructor_invariant (tiles : List Tile) (bombs : List ℤ) :
    (∀ b ∈ (mkBombEq tiles bombs).bombs,
        0 ≤ b ∧ b ≤ ((mkBombEq tiles bombs).tiles.card : ℤ)) ∧
      (List.Pairwise (· < ·) bombs →
        List.Pairwise (· < ·) (mkBombEq tiles bombs).bombs) := by
  constructor
  · intro b hb
    simp only [mkBombEq, List.mem_filter, decide_eq_true_eq] at hb
    exact hb.2
  · intro hsorted
    exact hsorted.sublist (List.filter_sublist bombs)

/-- Witness for `C9_constructor_invariant`. -/
theorem C9_constructor_invariant_witness :
    List.Pairwise (· < ·) (mkBombEq [((0:ℤ), (0:ℤ)), ((0:ℤ), (1:ℤ))] [0, 2]).bombs :=
  (C9_constructor_invariant [((0:ℤ), (0:ℤ)), ((0:ℤ), (1:ℤ))] [0, 2]).2 (by decide)

/-- C8 (counterexample): `integrate_new_info` with an unrecognised label is
not a no-op on `board[row][col]`: the first line of the method
unconditionally writes the label into the cell, here overwriting `"1"`
with `"?"`. -/
theorem C8_overwrites_cell :
    (integrateNewInfo 5 (resetState "Classic" 2 2 1) 0 0 "1").map
        (fun s₁ => boardGet s₁.board 0 0) = some "1" ∧
      ((integrateNewInfo 5 (resetState "Classic" 2 2 1) 0 0 "1").bind
          (fun s₁ => integrateNewInfo 5 s₁ 0 0 "?")).map
        (fun s₂ => boardGet s₂.board 0 0) = some "?" := by
  refine ⟨by decide, by decide⟩

/-- C8 (amended): `integrate_new_info` with a label that is neither in the
active version's bomb key nor `"B"` nor `"Rupoor"` leaves the constraint
store, the unconstrained set and the message unchanged, and leaves every
board cell unchanged except `board[row][col]`, which is overwritten with the
label. -/
theorem C8_unrecognised_noop (fuel : ℕ) (s : State) (row column : ℤ)
    (info : String) (hkey : bombKey s.version info = none)
    (hB : info ≠ "B") (hR : info ≠ "Rupoor") :
    integrateNewInfo fuel s row column info
      = some { s with board := boardSet s.board row column info } := by
  have hor : ¬ (info = "B" ∨ info = "Rupoor") := by
    rintro (h | h)
    · exact hB h
    · exact hR h
  simp only [integrateNewInfo, hkey, hor, if_neg, ite_false]

/-- Witness for `C8_unrecognised_noop`. -/
theorem C8_unrecognised_noop_witness :
    integrateNewInfo 5 (resetState "Classic" 2 2 1) 0 0 "?"
      = some { resetState "Classic" 2 2 1 with
                board := boardSet (resetState "Classic" 2 2 1).board 0 0 "?" } :=
  C8_unrecognised_noop 5 (resetState "Classic" 2 2 1) 0 0 "?"
    (by decide) (by decide) (by decide)

/-- C3 (counterexample): on a 1×3 classic board with one bomb, observing
`"B"` then `"0"` on the same square reports `"Impossible layout"`, but the
next `calculate_board` is not a no-op: it terminates normally and changes
the board, the constraint store and the unconstrained set. -/
theorem C3_not_noop :
    impossibleScenario.map State.message = some "Impossible layout" ∧
      (impossibleScenario.bind (calculateBoard 50)).isSome = true ∧
      (impossibleScenario.bind (calculateBoard 50)).map State.board
        ≠ impossibleScenario.map State.board ∧
      (impossibleScenario.bind (calculateBoard 50)).map State.constraints
        ≠ impossibleScenario.map State.constraints ∧
      (impossibleScenario.bind (calculateBoard 50)).map State.unconstrained
        ≠ impossibleScenario.map State.unconstrained := by
  refine ⟨by decide, by decide, by decide, by decide, by decide⟩

/-- C3 (amended): whenever an integration of observations returns
unsuccessfully, `integrate_new_info` records the message
`"Impossible layout"` (and the Sweeper remains usable); `calculate_board`
is, however, not suppressed afterwards. -/
theorem C3_contradiction_message (fuel : ℕ) (s : State) (row column : ℤ)
    (info : String) (eqs c' : List BombEq)
    (heqs : obsEqs s row column info = some eqs)
    (hfail : BombEq.integrate fuel s.constraints eqs = some (c', false)) :
    (integrateNewInfo fuel s row column info).map State.message
      = some "Impossible layout" := by
  rw [obsEqs] at heqs
  cases hk : bombKey s.version info with
  | some key =>
    rw [hk] at heqs
    injection heqs with heqs
    subst heqs
    simp [integrateNewInfo, hk, hfail]
  | none =>
    rw [hk] at heqs
    by_cases hbr : info = "B" ∨ info = "Rupoor"
    · rw [if_pos hbr] at heqs
      injection heqs with heqs
      subst heqs
      simp [integrateNewInfo, hk, hfail, if_pos hbr]
    · rw [if_neg hbr] at heqs
      exact Option.noConfusion heqs

/-- Witness for `C3_contradiction_message`. -/
theorem C3_contradiction_message_witness :
    (integrateNewInfo 50 c3WitnessState 0 2 "0").map State.message
      = some "Impossible layout" :=
  C3_contradiction_message 50 c3WitnessState 0 2 "0"
    [mkBombEq [(0, 2)] [0], mkBombEq [(0, 1)] [0]]
    [⟨{((0:ℤ), (1:ℤ))}, [0]⟩, ⟨{((0:ℤ), (2:ℤ))}, [0]⟩]
    (by decide) (by decide)

/-- C10: the pairwise-overlap triangle `{a,b}=1, {b,c}=1, {a,c}=1` passes
the integrator without a contradiction being reported although it is
jointly unsatisfiable; `solve_area` on that store returns the empty
`Solution`, and `calculate_board` on a Sweeper owning it then dies with a
`KeyError` at `bomb_instances.pop((-1, -1))` (modelled by `none`) instead of
terminating normally. -/
theorem C10_pop_keyerror :
    BombEq.integrate 50 []
        [⟨{((0:ℤ), (0:ℤ)), ((0:ℤ), (1:ℤ))}, [1]⟩,
          ⟨{((0:ℤ), (1:ℤ)), ((0:ℤ), (2:ℤ))}, [1]⟩,
          ⟨{((0:ℤ), (0:ℤ)), ((0:ℤ), (2:ℤ))}, [1]⟩]
      = some (triangleStore, true) ∧
      (∀ A ∈ (tileSet triangleStore).powerset, ¬ satAll A triangleStore) ∧
      solveAreaFuel 50 triangleStore = some [] ∧
      calculateBoard 50 triangleSweeper = none := by
  refine ⟨by decide, by decide, by decide, by decide⟩

/-- C4 (counterexample): on a Sweeper whose store is the undetected
unsatisfiable triangle, `solve_area` yields the empty `Solution`, so
`N = Σ_k N_k·C(U, B−k)` is the empty sum `0` — but instead of setting the
message `"Impossible layout"` and returning, `calculate_board` dies with a
`KeyError` (modelled by `none`). -/
theorem C4_empty_solution_crash :
    solveAreaFuel 50 triangleSweeper.constraints = some [] ∧
      (∑ k in Sol.keys [], Sol.N [] k
          * comb triangleSweeper.unconstrained.length (triangleSweeper.bombs - k))
        = 0 ∧
      calculateBoard 50 triangleSweeper = none := by
  refine ⟨by decide, by simp [Sol.keys], by decide⟩

theorem calcBF_values (fuel : ℕ) (s : State) (sol : Sol)
    (inst : List (Tile × ℤ)) (N : ℤ) (hWF : SolWF sol)
    (hsent : ∀ p ∈ sol, ((-1 : ℤ), (-1 : ℤ)) ∉ p.2.1.map Prod.fst)
    (heq : calcBombFractions s sol = some (inst, N)) :
    N = (∑ k in Sol.keys sol,
        Sol.N sol k * comb s.unconstrained.length (s.bombs - k)) ∧
      (∀ t : Tile, t ∉ s.unconstrained → t ≠ (-1, -1) →
        dget inst t 0 = ∑ k in Sol.keys sol,
          Sol.F sol k t * comb s.unconstrained.length (s.bombs - k)) ∧
      (∀ t ∈ s.unconstrained,
        dget inst t 0 = ∑ k in Sol.keys sol,
          Sol.N sol k * comb ((s.unconstrained.length : ℤ) - 1) (s.bombs - k - 1)) ∧
      (N = 0 → processBombFractions fuel s inst 0
        = some { s with message := "Impossible layout" }) := by
  simp only [calcBombFractions] at heq
  cases hpop :
      dpop ((sol.foldl (cbfStep s.unconstrained.length s.bombs) ([], 0)).1)
        ((-1 : ℤ), (-1 : ℤ)) with
  | none => rw [hpop] at heq; exact Option.noConfusion heq
  | some pr =>
    obtain ⟨uVal, d'⟩ := pr
    rw [hpop] at heq
    injection heq with heq
    have hinst : s.unconstrained.foldl (fun d t => dset d t uVal) d' = inst :=
      congrArg Prod.fst heq
    have hN : (sol.foldl (cbfStep s.unconstrained.length s.bombs) ([], 0)).2 = N :=
      congrArg Prod.snd heq
    have hkeysum : ∀ g : ℤ → FDict × ℤ → ℤ,
        ∑ k in Sol.keys sol, g k (dget sol k ([], 0))
          = (sol.map fun p => g p.1 p.2).sum :=
      fun g => list_sum_eq_keys_sum sol g hWF.1
    refine ⟨?_, ?_, ?_, ?_⟩
    · rw [← hN, cbf_num]
      simp only [Sol.N]
      rw [hkeysum fun k e => e.2 * comb s.unconstrained.length (s.bombs - k)]
      simp
    · intro t htu htn
      rw [← hinst, dget_foldl_dset_const, if_neg htu,
        dpop_get_ne _ _ _ _ _ _ hpop htn, cbf_get _ _ _ _ _ htn]
      simp only [Sol.F]
      rw [hkeysum fun k e => dget e.1 t 0 * comb s.unconstrained.length (s.bombs - k)]
      have h0 : dget (([] : List (Tile × ℤ)), (0 : ℤ)).1 t 0 = 0 := rfl
      rw [h0, zero_add]
      refine congrArg List.sum (List.map_congr_left fun p hp => ?_)
      rw [filter_sum_eq_dget _ _ (hWF.2 p hp)]
    · intro t htu
      rw [← hinst, dget_foldl_dset_const, if_pos htu,
        ← dpop_val _ _ _ _ 0 hpop, cbf_sentinel]
      simp only [Sol.N]
      rw [hkeysum fun k e =>
        e.2 * comb ((s.unconstrained.length : ℤ) - 1) (s.bombs - k - 1)]
      have h0 : dget (([] : List (Tile × ℤ)), (0 : ℤ)).1 ((-1 : ℤ), (-1 : ℤ)) 0 = 0 := rfl
      rw [h0, zero_add]
      refine congrArg List.sum (List.map_congr_left fun p hp => ?_)
      rw [filter_key_eq_nil (hsent p hp)]
      simp
    · intro hN0
      rw [processBombFractions, if_pos rfl]

/-- C4 (amended): whenever `calculate_bomb_fractions` returns (i.e. the
`Solution` is non-empty, so the `pop` does not raise), the total layout
count is `N = Σ_k N_k·C(U, B−k)`, each constrained tile's bomb count is
`Σ_k F_k[t]·C(U, B−k)`, each unconstrained tile's bomb count is
`Σ_k N_k·C(U−1, B−k−1)`, and if `N = 0` then `process_bomb_fractions` sets
the message `"Impossible layout"` and returns with no further change. -/
theorem C4_fractions (fuel : ℕ) (s : State) (sol : Sol)
    (inst : List (Tile × ℤ)) (N : ℤ) (hWF : SolWF sol)
    (hsent : ∀ p ∈ sol, ((-1 : ℤ), (-1 : ℤ)) ∉ p.2.1.map Prod.fst)
    (heq : calcBombFractions s sol = some (inst, N)) :
    N = (∑ k in Sol.keys sol,
        Sol.N sol k * comb s.unconstrained.length (s.bombs - k)) ∧
      (∀ t : Tile, t ∉ s.unconstrained → t ≠ (-1, -1) →
        dget inst t 0 = ∑ k in Sol.keys sol,
          Sol.F sol k t * comb s.unconstrained.length (s.bombs - k)) ∧
      (∀ t ∈ s.unconstrained,
        dget inst t 0 = ∑ k in Sol.keys sol,
          Sol.N sol k * comb ((s.unconstrained.length : ℤ) - 1) (s.bombs - k - 1)) ∧
      (N = 0 → processBombFractions fuel s inst 0
        = some { s with message := "Impossible layout" }) :=
  calcBF_values fuel s sol inst N hWF hsent heq


/-- Witness for `C4_fractions`. -/
theorem C4_fractions_witness :
    (2 : ℤ) = ∑ k in Sol.keys [((0 : ℤ), (([] : FDict), (1 : ℤ)))],
        Sol.N [((0 : ℤ), (([] : FDict), (1 : ℤ)))] k
          * comb (resetState "Classic" 1 2 1).unconstrained.length
            ((resetState "Classic" 1 2 1).bombs - k) :=
  (C4_fractions 5 (resetState "Classic" 1 2 1) [((0 : ℤ), (([] : FDict), (1 : ℤ)))]
      [(((0 : ℤ), (0 : ℤ)), 1), (((0 : ℤ), (1 : ℤ)), 1)] 2
      (by decide) (by decide) (by decide)).1


/-- **C7.** On Solutions viewed as maps `k ↦ (F_k, N_k)` and compared by
Python dict equality: `⊕` (pointwise addition of `N_k` and `F_k[t]`,
implemented by `__iadd__`) is commutative and associative on well-formed
Solutions; `⊗` (`__mul__`) is commutative and associative on well-formed
Solutions with pairwise disjoint tile sets, has `{0 ↦ (∅, 1)}` as a
two-sided identity, and distributes over `⊕`. -/
theorem C7_solution_algebra :
    (∀ s o : Sol, SolWF s → SolWF o → Sol.equiv (Sol.add s o) (Sol.add o s))
    ∧ (∀ s o r : Sol, SolWF s → SolWF o → SolWF r →
        Sol.equiv (Sol.add (Sol.add s o) r) (Sol.add s (Sol.add o r)))
    ∧ (∀ s o : Sol, SolWF s → SolWF o → Sol.disjointTiles s o →
        Sol.equiv (Sol.mul s o) (Sol.mul o s))
    ∧ (∀ s o r : Sol, SolWF s → SolWF o → SolWF r →
        Sol.disjointTiles s o → Sol.disjointTiles s r → Sol.disjointTiles o r →
        Sol.equiv (Sol.mul (Sol.mul s o) r) (Sol.mul s (Sol.mul o r)))
    ∧ (∀ s : Sol, SolWF s →
        Sol.equiv (Sol.mul s Sol.one) s ∧ Sol.equiv (Sol.mul Sol.one s) s)
    ∧ (∀ s o r : Sol, SolWF s → SolWF o → SolWF r →
        Sol.disjointTiles s r → Sol.disjointTiles o r →
        Sol.equiv (Sol.mul (Sol.add s o) r)
          (Sol.add (Sol.mul s r) (Sol.mul o r))) :=
  ⟨fun s o hs ho => Sol.add_comm_equiv s o hs ho,
    fun s o r hs ho hr => Sol.add_assoc_equiv s o r hs ho hr,
    fun s o hs ho hd => Sol.mul_comm_equiv s o hs ho hd,
    fun s o r hs ho hr hso hsr hor =>
      Sol.mul_assoc_equiv s o r hs ho hr hso hsr hor,
    fun s hs => ⟨Sol.mul_one_equiv s hs, Sol.one_mul_equiv s hs⟩,
    fun s o r hs ho hr hsr hor =>
      Sol.mul_add_distrib_equiv s o r hs ho hr hsr hor⟩

/-- Witness for `C7_solution_algebra`: associativity of `⊗`, the identity
law and distributivity at concrete small Solutions. -/
theorem C7_solution_algebra_witness :
    Sol.equiv
        (Sol.mul
          (Sol.mul [(1, ([((0, 0), 1)], 2))] [(0, ([], 1)), (1, ([((1, 1), 1)], 1))])
          [(2, ([((2, 2), 2)], 3))])
        (Sol.mul [(1, ([((0, 0), 1)], 2))]
          (Sol.mul [(0, ([], 1)), (1, ([((1, 1), 1)], 1))] [(2, ([((2, 2), 2)], 3))]))
      ∧ Sol.equiv (Sol.mul [(1, ([((0, 0), 1)], 2))] Sol.one)
          [(1, ([((0, 0), 1)], 2))]
      ∧ Sol.equiv
          (Sol.mul
            (Sol.add [(1, ([((0, 0), 1)], 2))] [(0, ([], 1)), (1, ([((1, 1), 1)], 1))])
            [(2, ([((2, 2), 2)], 3))])
          (Sol.add (Sol.mul [(1, ([((0, 0), 1)], 2))] [(2, ([((2, 2), 2)], 3))])
            (Sol.mul [(0, ([], 1)), (1, ([((1, 1), 1)], 1))]
              [(2, ([((2, 2), 2)], 3))])) :=
  ⟨C7_solution_algebra.2.2.2.1 _ _ _ (by decide) (by decide) (by decide)
      (by decide) (by decide) (by decide),
    (C7_solution_algebra.2.2.2.2.1 _ (by decide)).1,
    C7_solution_algebra.2.2.2.2.2 _ _ _ (by decide) (by decide) (by decide)
      (by decide) (by decide)⟩


/-- C1 (counterexample): on the store `[{(0,0)} ∈ {0}, {(0,0),(0,1)} ∈ {1}]`,
whose first equation is `⊑`-below the second, `solve_area` terminates and
reports `N₁ = 2` and `F₁[(0,0)] = 1`, while the exact counts are `N₁ = 1`
and `F₁[(0,0)] = 0`: the returned Solution is not the exact distribution
over satisfying bomb placements. -/
theorem C1_not_exact :
    (solveAreaFuel 20 [⟨{((0 : ℤ), (0 : ℤ))}, [0]⟩,
        ⟨{((0 : ℤ), (0 : ℤ)), ((0 : ℤ), (1 : ℤ))}, [1]⟩]).map
        (fun s => (Sol.N s 1, Sol.F s 1 ((0 : ℤ), (0 : ℤ)))) = some (2, 1)
      ∧ specN [⟨{((0 : ℤ), (0 : ℤ))}, [0]⟩,
          ⟨{((0 : ℤ), (0 : ℤ)), ((0 : ℤ), (1 : ℤ))}, [1]⟩] 1 = 1
      ∧ specF [⟨{((0 : ℤ), (0 : ℤ))}, [0]⟩,
          ⟨{((0 : ℤ), (0 : ℤ)), ((0 : ℤ), (1 : ℤ))}, [1]⟩] 1 ((0 : ℤ), (0 : ℤ)) = 0 := by
  refine ⟨by decide, by decide, by decide⟩

/-- C1 (amended): on a constraint store satisfying the integrator-maintained
invariants (`GroupOK`: no duplicates, every equation well-shaped, no equation
`⊑`-below another), whenever `solve_area` terminates normally
(`solveAreaFuel fuel G = some s`), the returned Solution is the exact
distribution: well-formed, mentioning only the group's tiles, with `N_k` the
exact number of satisfying layouts with `k` bombs and `F_k[t]` the exact
number of those placing a bomb on `t`, for every `k` and `t`; in particular
`Σ_k N_k` equals the exact number of satisfying assignments. -/
theorem C1_solve_area_exact (fuel : ℕ) (G : List BombEq) (s : Sol)
    (hOK : GroupOK G) (h : solveAreaFuel fuel G = some s) :
    Exact s G
      ∧ ∑ k in Finset.Icc (0 : ℤ) ((tileSet G).card : ℤ), Sol.N s k
        = ((((tileSet G).powerset.filter fun A => satAll A G).card : ℕ) : ℤ) := by
  have he := solveAreaFuel_exact fuel G s hOK h
  refine ⟨he, ?_⟩
  have he2 := he
  unfold Exact at he2
  rw [← specN_total G]
  exact Finset.sum_congr rfl fun k _ => he2.2.2.1 k

/-- Witness for C1 (amended): the store `[{(0,0)} ∈ {1}]` satisfies `GroupOK`,
`solve_area` returns on it with fuel 5, and the conclusion holds there. -/
theorem C1_solve_area_exact_witness :
    GroupOK [(⟨{((0 : ℤ), (0 : ℤ))}, [1]⟩ : BombEq)]
      ∧ solveAreaFuel 5 [(⟨{((0 : ℤ), (0 : ℤ))}, [1]⟩ : BombEq)]
          = some (singletonSol (⟨{((0 : ℤ), (0 : ℤ))}, [1]⟩ : BombEq))
      ∧ (Exact (singletonSol (⟨{((0 : ℤ), (0 : ℤ))}, [1]⟩ : BombEq))
            [(⟨{((0 : ℤ), (0 : ℤ))}, [1]⟩ : BombEq)]
          ∧ ∑ k in Finset.Icc (0 : ℤ)
              ((tileSet [(⟨{((0 : ℤ), (0 : ℤ))}, [1]⟩ : BombEq)]).card : ℤ),
              Sol.N (singletonSol (⟨{((0 : ℤ), (0 : ℤ))}, [1]⟩ : BombEq)) k
            = ((((tileSet [(⟨{((0 : ℤ), (0 : ℤ))}, [1]⟩ : BombEq)]).powerset.filter
                fun A => satAll A [(⟨{((0 : ℤ), (0 : ℤ))}, [1]⟩ : BombEq)]).card : ℕ) : ℤ)) :=
  ⟨by decide, rfl, C1_solve_area_exact 5 _ _ (by decide) rfl⟩

end Sweeper
